import Mathlib

/-
  Shallow embedding of `bin/sync.js` from the `unity3d-package-syncer`
  repository: a tool that reconciles the npm dependencies of a Unity
  project against the `Assets/Plugins/Packages` directory of that
  project, in three sequential phases.

  Modelling conventions:
  * The whole filesystem is a finite tree (`FsTree`) rooted at `/`;
    paths are lists of name segments.  A file's content is either a
    parsed JSON configuration record (`FileData.json`) or raw text
    (`FileData.raw`); `fs.readJsonSync` succeeds exactly on the former.
  * Node `path.resolve` / `path.join` are modelled on POSIX semantics
    over `/`-separated strings (`resolveRel` / `joinRel`); the absolute
    path string of a segment list is `pathString`, and the safety
    guard's JavaScript `String.prototype.includes` test is `strIncludes`.
  * `fs-extra`'s `emptyDirSync` is `setAt _ _ (FsTree.dir [])` (creates
    missing parents like mkdir -p); `copySync` is modelled as replacing
    the destination node with the source node (in this program every
    directory copy lands in a just-emptied directory, so merge and
    replace semantics coincide); `removeSync` is `removeAt` (never an
    error on a missing path); `unlinkSync` errors on a directory.
  * Thrown JavaScript errors are `Except.error` with a message string.
-/

set_option maxHeartbeats 1000000

namespace PkgSync

/-- A parsed JSON package configuration: the three fields `bin/sync.js`
reads from a `package.json` (`version`, `keywords`, and the keys of
`dependencies`, in enumeration order).  `none` models an absent field. -/
structure JsonConfig where
  version : Option String
  keywords : Option (List String)
  dependencies : Option (List String)
deriving DecidableEq, Repr

/-- Content of a file: JSON that `fs.readJsonSync` can parse, or raw text. -/
inductive FileData where
  | json (cfg : JsonConfig)
  | raw (content : String)
deriving DecidableEq, Repr

/-- A filesystem node: a file with data, or a directory with an ordered
list of named children. -/
inductive FsTree where
  | file (data : FileData)
  | dir (children : List (String × FsTree))

namespace FsTree

/-- Find the first child with the given name. -/
def childLookup : List (String × FsTree) → String → Option FsTree
  | [], _ => none
  | (m, c) :: rest, n => if m = n then some c else childLookup rest n

/-- Replace the value of the first child with the given name, or append
a new child when the name is absent. -/
def childSet : List (String × FsTree) → String → FsTree → List (String × FsTree)
  | [], n, v => [(n, v)]
  | (m, c) :: rest, n, v =>
    if m = n then (m, v) :: rest else (m, c) :: childSet rest n v

/-- Remove the child with the given name. -/
def childRemove : List (String × FsTree) → String → List (String × FsTree)
  | [], _ => []
  | (m, c) :: rest, n =>
    if m = n then childRemove rest n else (m, c) :: childRemove rest n

/-- Look up the node at a path. -/
def lookup : FsTree → List String → Option FsTree
  | t, [] => some t
  | file _, _ :: _ => none
  | dir cs, n :: rest =>
    match childLookup cs n with
    | some c => lookup c rest
    | none => none

/-- Install `new` at a path, creating missing parent directories
(mkdir -p); a file standing in the middle of the path is replaced by
directories (this external-primitive corner is never reached by the
program on a well-formed filesystem). -/
def setAt : FsTree → List String → FsTree → FsTree
  | _, [], new => new
  | file _, n :: rest, new => dir [(n, setAt (dir []) rest new)]
  | dir cs, n :: rest, new =>
    match childLookup cs n with
    | some c => dir (childSet cs n (setAt c rest new))
    | none => dir (cs ++ [(n, setAt (dir []) rest new)])

/-- Recursive delete of a node at a path (`fs.removeSync`): no effect
when the path does not exist. -/
def removeAt : FsTree → List String → FsTree
  | t, [] => t
  | file d, _ :: _ => file d
  | dir cs, [n] => dir (childRemove cs n)
  | dir cs, n :: rest =>
    match childLookup cs n with
    | some c => dir (childSet cs n (removeAt c rest))
    | none => dir cs

/-- `fs.existsSync`. -/
def existsAt (t : FsTree) (p : List String) : Bool :=
  (lookup t p).isSome

/-- Whether the node at the path is a directory (`fs.statSync(..).isDirectory()`,
with `false` for a missing path). -/
def isDirAt (t : FsTree) (p : List String) : Bool :=
  match lookup t p with
  | some (dir _) => true
  | _ => false

end FsTree

/-! ## Path strings: POSIX `path.resolve`, `path.join`, and the guard's
substring test. -/

/-- JavaScript `s.startsWith(c)` for a one-character pattern: test the
first character of the string. -/
def startsWithAt (s : String) (c : Char) : Bool :=
  match s.data with
  | [] => false
  | c0 :: _ => c0 = c

/-- POSIX `path.isAbsolute`: the string starts with `/`. -/
def isAbsolute (s : String) : Bool :=
  startsWithAt s '/'

/-- Split a character list on `/`. -/
def splitSegsAux : List Char → List Char → List String
  | [], acc => [String.mk acc.reverse]
  | c :: rest, acc =>
    if c = '/' then String.mk acc.reverse :: splitSegsAux rest []
    else splitSegsAux rest (c :: acc)

/-- Split a string into `/`-separated parts (as POSIX path handling does). -/
def splitSegs (s : String) : List String :=
  splitSegsAux s.data []

/-- One step of path normalisation: empty and `.` parts are skipped,
`..` pops a segment, anything else is appended. -/
def segStep (acc : List String) (part : String) : List String :=
  if part = "" ∨ part = "." then acc
  else if part = ".." then acc.dropLast
  else acc ++ [part]

/-- `path.join(base, rel)` on an already-resolved absolute `base`
(as a segment list): append the parts of `rel`, normalising. -/
def joinRel (basePath : List String) (rel : String) : List String :=
  (splitSegs rel).foldl segStep basePath

/-- `path.resolve(base, rel)`: like `joinRel`, except a `rel` that
starts with `/` restarts from the filesystem root. -/
def resolveRel (basePath : List String) (rel : String) : List String :=
  (splitSegs rel).foldl segStep (if isAbsolute rel then [] else basePath)

/-- The absolute path string of a segment list (POSIX separators). -/
def pathString (segs : List String) : String :=
  segs.foldl (fun acc s => acc ++ "/" ++ s) ""

/-- JavaScript `s.includes(pat)`: substring containment. -/
def strIncludes (s pat : String) : Bool :=
  decide (pat.data <:+: s.data)

/-! ## The program (translated from `bin/sync.js`). -/

/-- `path.join("Assets", "Plugins", "Packages")`, the hard-coded relative
path used both to locate the destination root and as the safety guard. -/
def PROJECT_RELATIVE_PACKAGES_PATH : String := "Assets/Plugins/Packages"

/-- `specialKeyword`: the marker that opts a package into this mechanism. -/
def specialKeyword : String := "unity3d-package"

/-- `extraFiles`: top-level files copied from the package root when present. -/
def extraFiles : List String := ["package.json", "README.md", "LICENSE"]

/-- `projectPackagesDir = path.join(projectRootDir, PROJECT_RELATIVE_PACKAGES_PATH)`. -/
def projectPackagesDir (projectRootDir : List String) : List String :=
  joinRel projectRootDir PROJECT_RELATIVE_PACKAGES_PATH

/-- `validateProjectPackageDirectory`, as a test: `true` when the path
string contains the hard-coded relative packages path as a substring. -/
def validateOk (packageDir : String) : Bool :=
  strIncludes packageDir PROJECT_RELATIVE_PACKAGES_PATH

/-- The error thrown by `validateProjectPackageDirectory`. -/
def unsafePathMsg (packageDir : String) : String :=
  "Project package has an unexpected path: " ++ packageDir

/-- `fs.readJsonSync`: succeeds exactly on an existing file holding JSON. -/
def readJsonSyncAt (w : FsTree) (p : List String) : Except String JsonConfig :=
  match w.lookup p with
  | some (FsTree.file (FileData.json cfg)) => Except.ok cfg
  | _ => Except.error ("Cannot read JSON: " ++ pathString p)

/-- `extfs.isEmptySync`: a missing path counts as empty, a directory is
empty when it has no entries, a raw file when its content is empty (a
JSON file read by this model always has content). -/
def isEmptySyncAt (w : FsTree) (p : List String) : Bool :=
  match w.lookup p with
  | none => true
  | some (FsTree.dir cs) => cs.isEmpty
  | some (FsTree.file (FileData.raw c)) => c = ""
  | some (FsTree.file (FileData.json _)) => false

/-- `fs.unlinkSync` guarded by `fs.existsSync` (as both call sites do):
no effect when the path is missing, error when the path is a directory. -/
def unlinkIfExists (w : FsTree) (p : List String) : Except String FsTree :=
  match w.lookup p with
  | none => Except.ok w
  | some (FsTree.file _) => Except.ok (w.removeAt p)
  | some (FsTree.dir _) =>
    Except.error ("EISDIR: illegal operation on a directory, unlink " ++ pathString p)

/-- `dependencyDir = path.join(projectRootDir, "node_modules", dependencyName)`. -/
def dependencyDir (projectRootDir : List String) (dependencyName : String) :
    List String :=
  joinRel (joinRel projectRootDir "node_modules") dependencyName

/-- `assetsTargetPath = path.resolve(projectPackagesDir, dependencyName)`. -/
def assetsTargetPath (projectRootDir : List String) (dependencyName : String) :
    List String :=
  resolveRel (projectPackagesDir projectRootDir) dependencyName

/-- The per-iteration closure `copyIfExistsSync(sourceRelativeFileName,
targetRelativeFileName)`: copy `dependencyDir/source` onto
`assetsTargetPath/target` when the source exists; a non-string second
argument (the index `forEach` passes) falls back to the source name. -/
def copyIfExistsSync (w : FsTree) (dependencyDir assetsTargetPath : List String)
    (sourceRelativeFileName : String) (targetRelativeFileName : Option String) : FsTree :=
  let sourcePath := joinRel dependencyDir sourceRelativeFileName
  match w.lookup sourcePath with
  | some node =>
    let tgt := targetRelativeFileName.getD sourceRelativeFileName
    FsTree.setAt w (joinRel assetsTargetPath tgt) node
  | none => w

/-- The installation block of Phase 1 (lines 72–77 of `bin/sync.js`):
`fs.emptyDirSync(assetsTargetPath)`, then `copyIfExistsSync("assets", "")`,
then `extraFiles.forEach(copyIfExistsSync)`. -/
def fullReplace (projectRootDir : List String) (dependencyName : String)
    (w : FsTree) : FsTree :=
  let depDir := dependencyDir projectRootDir dependencyName
  let target := assetsTargetPath projectRootDir dependencyName
  let w1 := FsTree.setAt w target (FsTree.dir [])
  let w2 := copyIfExistsSync w1 depDir target "assets" (some "")
  extraFiles.foldl (fun acc f => copyIfExistsSync acc depDir target f none) w2

/-- One iteration of the Phase 1 loop for a declared dependency name. -/
def phase1Install (projectRootDir : List String) (dependencyName : String)
    (w : FsTree) : Except String FsTree :=
  match readJsonSyncAt w
      (joinRel (dependencyDir projectRootDir dependencyName) "package.json") with
  | Except.error e => Except.error e
  | Except.ok dependencyConfig =>
    if ¬ ((dependencyConfig.keywords.getD []).contains specialKeyword) then
      Except.ok w
    else
      let target := assetsTargetPath projectRootDir dependencyName
      if ¬ (validateOk (pathString target)) then
        Except.error (unsafePathMsg (pathString target))
      else
        let assetsTargetConfigPath := joinRel target "package.json"
        if FsTree.existsAt w assetsTargetConfigPath then
          match readJsonSyncAt w assetsTargetConfigPath with
          | Except.error e => Except.error e
          | Except.ok assetsTargetConfig =>
            if dependencyConfig.version = assetsTargetConfig.version then
              Except.ok w
            else
              Except.ok (fullReplace projectRootDir dependencyName w)
        else
          Except.ok (fullReplace projectRootDir dependencyName w)

/-- The Phase 1 loop over the declared dependency names, in manifest order. -/
def phase1Run (projectRootDir : List String) :
    List String → FsTree → Except String FsTree
  | [], w => Except.ok w
  | n :: rest, w =>
    match phase1Install projectRootDir n w with
    | Except.ok w' => phase1Run projectRootDir rest w'
    | Except.error e => Except.error e

/-- `fs.readdirSync`: the child names of a directory, in order. -/
def readdirSyncAt (w : FsTree) (p : List String) : Except String (List String) :=
  match w.lookup p with
  | some (FsTree.dir cs) => Except.ok (cs.map Prod.fst)
  | _ => Except.error ("ENOENT: no such directory, scandir " ++ pathString p)

/-- `getDirectories(srcpath)`: names listed by `readdirSync` whose joined
path is a directory. -/
def getDirectories (w : FsTree) (srcpath : List String) : Except String (List String) :=
  match readdirSyncAt w srcpath with
  | Except.ok names =>
    Except.ok (names.filter (fun f => FsTree.isDirAt w (joinRel srcpath f)))
  | Except.error e => Except.error e

/-- The `flatMap` body of `getProjectPackageListing`, iterated over the
top-level directory names in order: a name starting with `@` contributes
one `scope/child` entry per directory inside it, any other name
contributes itself. -/
def listingFlat (w : FsTree) (pkgsDir : List String) :
    List String → Except String (List String)
  | [] => Except.ok []
  | d :: rest =>
    if startsWithAt d '@' then
      match getDirectories w (joinRel pkgsDir d) with
      | Except.error e => Except.error e
      | Except.ok subs =>
        match listingFlat w pkgsDir rest with
        | Except.error e => Except.error e
        | Except.ok more => Except.ok (subs.map (fun s => d ++ "/" ++ s) ++ more)
    else
      match listingFlat w pkgsDir rest with
      | Except.error e => Except.error e
      | Except.ok more => Except.ok (d :: more)

/-- `getProjectPackageListing()`: each top-level directory is one entry
unless its name starts with `@`, in which case each directory inside it
is an entry named `scope/child`. -/
def getProjectPackageListing (w : FsTree) (pkgsDir : List String) :
    Except String (List String) :=
  match getDirectories w pkgsDir with
  | Except.ok dirs => listingFlat w pkgsDir dirs
  | Except.error e => Except.error e

/-- `getProjectPackageScopes()`: top-level directories whose name starts with `@`. -/
def getProjectPackageScopes (w : FsTree) (pkgsDir : List String) :
    Except String (List String) :=
  match getDirectories w pkgsDir with
  | Except.ok dirs => Except.ok (dirs.filter (fun d => startsWithAt d '@'))
  | Except.error e => Except.error e

/-- One iteration of the Phase 2 loop for a redundant package name. -/
def phase2Remove (projectRootDir : List String) (redundantPackageName : String)
    (w : FsTree) : Except String FsTree :=
  let pkgsDir := projectPackagesDir projectRootDir
  let redundantPackageDir := resolveRel pkgsDir redundantPackageName
  let redundantPackageMetaPath := resolveRel pkgsDir (redundantPackageName ++ ".meta")
  if ¬ (validateOk (pathString redundantPackageDir)) then
    Except.error (unsafePathMsg (pathString redundantPackageDir))
  else
    let w1 := if FsTree.existsAt w redundantPackageDir
              then FsTree.removeAt w redundantPackageDir else w
    unlinkIfExists w1 redundantPackageMetaPath

/-- The Phase 2 loop over the redundant package names. -/
def phase2Go (projectRootDir : List String) :
    List String → FsTree → Except String FsTree
  | [], w => Except.ok w
  | n :: rest, w =>
    match phase2Remove projectRootDir n w with
    | Except.ok w' => phase2Go projectRootDir rest w'
    | Except.error e => Except.error e

/-- Phase 2 in full: list installed entries, keep those not in the
declared-dependency set, remove each. -/
def phase2Run (projectRootDir : List String) (projectDependencyNames : List String)
    (w : FsTree) : Except String FsTree :=
  match getProjectPackageListing w (projectPackagesDir projectRootDir) with
  | Except.error e => Except.error e
  | Except.ok listing =>
    phase2Go projectRootDir
      (listing.filter
        (fun packageName => ¬ (projectDependencyNames.contains packageName))) w

/-- One iteration of the Phase 3 loop for a scope directory name. -/
def phase3Prune (projectRootDir : List String) (projectPackageScope : String)
    (w : FsTree) : Except String FsTree :=
  let pkgsDir := projectPackagesDir projectRootDir
  let scopeDir := resolveRel pkgsDir projectPackageScope
  let scopeMeta := resolveRel pkgsDir (projectPackageScope ++ ".meta")
  if ¬ (validateOk (pathString scopeDir)) then
    Except.error (unsafePathMsg (pathString scopeDir))
  else
    if isEmptySyncAt w scopeDir then
      unlinkIfExists (FsTree.removeAt w scopeDir) scopeMeta
    else
      Except.ok w

/-- The Phase 3 loop over the scope directory names. -/
def phase3Go (projectRootDir : List String) :
    List String → FsTree → Except String FsTree
  | [], w => Except.ok w
  | n :: rest, w =>
    match phase3Prune projectRootDir n w with
    | Except.ok w' => phase3Go projectRootDir rest w'
    | Except.error e => Except.error e

/-- Phase 3 in full. -/
def phase3Run (projectRootDir : List String) (w : FsTree) : Except String FsTree :=
  match getProjectPackageScopes w (projectPackagesDir projectRootDir) with
  | Except.error e => Except.error e
  | Except.ok scopes => phase3Go projectRootDir scopes w

/-- The whole run: read the project manifest, take its dependency names,
then Phases 1, 2 and 3 in order. -/
def sync (projectRootDir : List String) (w : FsTree) : Except String FsTree :=
  match readJsonSyncAt w (joinRel projectRootDir "package.json") with
  | Except.error e => Except.error e
  | Except.ok projectConfig =>
    let projectDependencyNames := projectConfig.dependencies.getD []
    match phase1Run projectRootDir projectDependencyNames w with
    | Except.error e => Except.error e
    | Except.ok w1 =>
      match phase2Run projectRootDir projectDependencyNames w1 with
      | Except.error e => Except.error e
      | Except.ok w2 => phase3Run projectRootDir w2

/-! ## A well-formedness predicate for entry names

A name that a real filesystem can return from `readdirSync` is nonempty,
is neither `.` nor `..`, and contains no `/`. -/

/-- A single well-formed path segment. -/
def validSeg (n : String) : Bool :=
  !(n == "") && !(n == ".") && !(n == "..") && n.data.all (fun c => !(c == '/'))

theorem validSeg_iff (n : String) :
    validSeg n = true ↔ n ≠ "" ∧ n ≠ "." ∧ n ≠ ".." ∧ ∀ c ∈ n.data, c ≠ '/' := by
  simp [validSeg, and_assoc]

/-! ## Lemmas about path splitting and normalisation -/

theorem splitSegsAux_no_slash (l : List Char) (acc : List Char)
    (h : ∀ c ∈ l, c ≠ '/') :
    splitSegsAux l acc = [String.mk (acc.reverse ++ l)] := by
  induction l generalizing acc with
  | nil => simp [splitSegsAux]
  | cons c rest ih =>
    have hc : c ≠ '/' := h c (by simp)
    rw [splitSegsAux, if_neg hc, ih _ (fun x hx => h x (by simp [hx]))]
    simp

theorem splitSegsAux_slash_split (l₁ l₂ : List Char) (acc : List Char)
    (h : ∀ c ∈ l₁, c ≠ '/') :
    splitSegsAux (l₁ ++ '/' :: l₂) acc
      = String.mk (acc.reverse ++ l₁) :: splitSegsAux l₂ [] := by
  induction l₁ generalizing acc with
  | nil => simp [splitSegsAux]
  | cons c rest ih =>
    have hc : c ≠ '/' := h c (by simp)
    rw [List.cons_append, splitSegsAux, if_neg hc,
      ih _ (fun x hx => h x (by simp [hx]))]
    simp

theorem splitSegs_no_slash (n : String) (h : ∀ c ∈ n.data, c ≠ '/') :
    splitSegs n = [n] := by
  rw [splitSegs, splitSegsAux_no_slash _ _ h]
  simp

theorem splitSegs_valid (n : String) (h : validSeg n = true) :
    splitSegs n = [n] :=
  splitSegs_no_slash n ((validSeg_iff n).mp h).2.2.2

theorem data_append_slash (s c : String) :
    (s ++ "/" ++ c).data = s.data ++ '/' :: c.data := by
  simp [String.data_append]

theorem splitSegs_scoped (s c : String) (hs : ∀ x ∈ s.data, x ≠ '/') :
    splitSegs (s ++ "/" ++ c) = s :: splitSegs c := by
  rw [splitSegs, data_append_slash, splitSegsAux_slash_split _ _ _ hs]
  simp [splitSegs]

theorem segStep_valid (acc : List String) (n : String) (h : validSeg n = true) :
    segStep acc n = acc ++ [n] := by
  obtain ⟨h1, h2, h3, _⟩ := (validSeg_iff n).mp h
  simp [segStep, h1, h2, h3]

theorem foldl_segStep_valid (l : List String) (base : List String)
    (h : ∀ x ∈ l, validSeg x = true) :
    l.foldl segStep base = base ++ l := by
  induction l generalizing base with
  | nil => simp
  | cons x rest ih =>
    rw [List.foldl_cons, segStep_valid _ _ (h x (by simp)),
      ih _ (fun y hy => h y (by simp [hy]))]
    simp

theorem isAbsolute_eq_false (n : String) (h : ∀ c ∈ n.data, c ≠ '/') :
    isAbsolute n = false := by
  unfold isAbsolute startsWithAt
  cases hd : n.data with
  | nil => rfl
  | cons c rest =>
    have : c ≠ '/' := h c (by simp [hd])
    simp [this]

theorem joinRel_valid (base : List String) (n : String) (h : validSeg n = true) :
    joinRel base n = base ++ [n] := by
  rw [joinRel, splitSegs_valid n h, List.foldl_cons, List.foldl_nil,
    segStep_valid _ _ h]

theorem resolveRel_valid (base : List String) (n : String) (h : validSeg n = true) :
    resolveRel base n = base ++ [n] := by
  rw [resolveRel,
    isAbsolute_eq_false n ((validSeg_iff n).mp h).2.2.2,
    if_neg (by simp), splitSegs_valid n h, List.foldl_cons, List.foldl_nil,
    segStep_valid _ _ h]

theorem str_eq_iff_data (a b : String) : a = b ↔ a.data = b.data := by
  constructor
  · intro h; rw [h]
  · intro h; cases a; cases b; exact congrArg String.mk h

theorem resolveRel_scoped (base : List String) (s c : String)
    (hs : validSeg s = true) (hc : validSeg c = true) :
    resolveRel base (s ++ "/" ++ c) = base ++ [s, c] := by
  obtain ⟨hs1, _, _, hs4⟩ := (validSeg_iff s).mp hs
  have habs : isAbsolute (s ++ "/" ++ c) = false := by
    unfold isAbsolute startsWithAt
    rw [data_append_slash]
    cases hd : s.data with
    | nil => exact absurd ((str_eq_iff_data s "").mpr (by rw [hd])) hs1
    | cons x rest =>
      have : x ≠ '/' := hs4 x (by simp [hd])
      simp [this]
  rw [resolveRel, habs, if_neg (by simp), splitSegs_scoped s c hs4,
    splitSegs_valid c hc, List.foldl_cons, List.foldl_cons, List.foldl_nil,
    segStep_valid _ _ hs, segStep_valid _ _ hc]
  simp

theorem validSeg_append (n suffix : String) (hn : validSeg n = true)
    (hsuf : suffix ≠ "") (hc : ∀ c ∈ suffix.data, c ≠ '/') :
    validSeg (n ++ suffix) = true := by
  obtain ⟨h1, h2, _, h4⟩ := (validSeg_iff n).mp hn
  have hnd : n.data ≠ [] := by
    intro hd; exact h1 ((str_eq_iff_data n "").mpr (by rw [hd]))
  have hsd : suffix.data ≠ [] := by
    intro hd; exact hsuf ((str_eq_iff_data suffix "").mpr (by rw [hd]))
  obtain ⟨x, rest, hd⟩ := List.exists_cons_of_ne_nil hnd
  refine (validSeg_iff _).mpr ⟨?_, ?_, ?_, ?_⟩
  · intro h
    have hD := (str_eq_iff_data _ "").mp h
    rw [String.data_append, hd] at hD
    simp at hD
  · intro h
    have hD := (str_eq_iff_data _ ".").mp h
    rw [String.data_append, hd,
      (by decide : (".".data : List Char) = ['.'])] at hD
    obtain ⟨-, h0⟩ := (List.cons.injEq _ _ _ _).mp hD
    exact hsd (List.append_eq_nil.mp h0).2
  · intro h
    have hD := (str_eq_iff_data _ "..").mp h
    rw [String.data_append, hd,
      (by decide : ("..".data : List Char) = ['.', '.'])] at hD
    obtain ⟨hx, h0⟩ := (List.cons.injEq _ _ _ _).mp hD
    cases rest with
    | nil =>
      exact h2 ((str_eq_iff_data n ".").mpr (by rw [hd, hx]))
    | cons r rs =>
      obtain ⟨-, h1'⟩ := (List.cons.injEq _ _ _ _).mp h0
      exact hsd (List.append_eq_nil.mp h1').2
  · intro c hc'
    rw [String.data_append] at hc'
    rcases List.mem_append.mp hc' with h | h
    · exact h4 c h
    · exact hc c h

/-! ## Lemmas about `pathString` and the guard -/

theorem pathString_cons_acc (l : List String) (init : String) :
    l.foldl (fun acc s => acc ++ "/" ++ s) init = init ++ pathString l := by
  induction l generalizing init with
  | nil => simp [pathString]
  | cons x rest ih =>
    rw [List.foldl_cons, ih]
    conv_rhs => rw [pathString, List.foldl_cons, ih ("" ++ "/" ++ x)]
    rw [str_eq_iff_data]
    simp [String.data_append]

theorem pathString_append (xs ys : List String) :
    pathString (xs ++ ys) = pathString xs ++ pathString ys := by
  rw [pathString, List.foldl_append, pathString_cons_acc]
  rfl

theorem validateOk_under_packages (root extra : List String) :
    validateOk (pathString (projectPackagesDir root ++ extra)) = true := by
  have hsplit : splitSegs PROJECT_RELATIVE_PACKAGES_PATH
      = ["Assets", "Plugins", "Packages"] := by decide
  have hpkgs : projectPackagesDir root = root ++ ["Assets", "Plugins", "Packages"] := by
    rw [projectPackagesDir, joinRel, hsplit, foldl_segStep_valid _ _ (by decide)]
  rw [hpkgs, validateOk, strIncludes, decide_eq_true_eq, List.append_assoc,
    pathString_append]
  have hmid : pathString (["Assets", "Plugins", "Packages"] ++ extra)
      = "/" ++ PROJECT_RELATIVE_PACKAGES_PATH ++ pathString extra := by
    rw [pathString_append]
    rfl
  rw [hmid]
  have hdata : (pathString root ++ ("/" ++ PROJECT_RELATIVE_PACKAGES_PATH ++ pathString extra)).data
      = (pathString root ++ "/").data ++ PROJECT_RELATIVE_PACKAGES_PATH.data
        ++ (pathString extra).data := by
    simp [String.data_append]
  rw [hdata]
  exact List.infix_append _ _ _

theorem projectPackagesDir_eq (root : List String) :
    projectPackagesDir root = root ++ ["Assets", "Plugins", "Packages"] := by
  rw [projectPackagesDir, joinRel,
    (by decide : splitSegs PROJECT_RELATIVE_PACKAGES_PATH
      = ["Assets", "Plugins", "Packages"]),
    foldl_segStep_valid _ _ (by decide)]

/-! ## Lemmas about the filesystem tree operations -/

namespace FsTree

theorem childLookup_childSet_self (cs : List (String × FsTree)) (n : String)
    (v : FsTree) : childLookup (childSet cs n v) n = some v := by
  induction cs with
  | nil => simp [childSet, childLookup]
  | cons e rest ih =>
    obtain ⟨m, c⟩ := e
    by_cases h : m = n
    · simp [childSet, childLookup, h]
    · simp [childSet, childLookup, h, ih]

theorem childLookup_childSet_ne (cs : List (String × FsTree)) (n m : String)
    (v : FsTree) (h : m ≠ n) :
    childLookup (childSet cs n v) m = childLookup cs m := by
  have hnm : n ≠ m := fun he => h he.symm
  induction cs with
  | nil => simp only [childSet, childLookup, if_neg hnm]
  | cons e rest ih =>
    obtain ⟨k, c⟩ := e
    simp only [childSet]
    by_cases hk : k = n
    · rw [if_pos hk]
      subst hk
      simp only [childLookup, if_neg hnm]
    · rw [if_neg hk]
      simp only [childLookup]
      by_cases hm : k = m
      · rw [if_pos hm, if_pos hm]
      · rw [if_neg hm, if_neg hm, ih]

theorem childLookup_childRemove_self (cs : List (String × FsTree)) (n : String) :
    childLookup (childRemove cs n) n = none := by
  induction cs with
  | nil => rfl
  | cons e rest ih =>
    obtain ⟨m, c⟩ := e
    simp only [childRemove]
    by_cases h : m = n
    · rw [if_pos h]; exact ih
    · rw [if_neg h]
      simp only [childLookup, if_neg h]
      exact ih

theorem childLookup_childRemove_ne (cs : List (String × FsTree)) (n m : String)
    (h : m ≠ n) :
    childLookup (childRemove cs n) m = childLookup cs m := by
  have hnm : n ≠ m := fun he => h he.symm
  induction cs with
  | nil => rfl
  | cons e rest ih =>
    obtain ⟨k, c⟩ := e
    simp only [childRemove]
    by_cases hk : k = n
    · rw [if_pos hk]
      subst hk
      simp only [childLookup, if_neg hnm]
      exact ih
    · rw [if_neg hk]
      simp only [childLookup]
      by_cases hm : k = m
      · rw [if_pos hm, if_pos hm]
      · rw [if_neg hm, if_neg hm, ih]

theorem childLookup_append_of_none (cs ds : List (String × FsTree)) (n : String)
    (h : childLookup cs n = none) :
    childLookup (cs ++ ds) n = childLookup ds n := by
  induction cs with
  | nil => simp
  | cons e rest ih =>
    obtain ⟨m, c⟩ := e
    by_cases hm : m = n
    · simp [childLookup, hm] at h
    · simp only [childLookup, hm, if_neg hm, List.cons_append] at h ⊢
      exact ih h

theorem childLookup_append_of_some (cs ds : List (String × FsTree)) (n : String)
    (c : FsTree) (h : childLookup cs n = some c) :
    childLookup (cs ++ ds) n = some c := by
  induction cs with
  | nil => simp [childLookup] at h
  | cons e rest ih =>
    obtain ⟨m, c0⟩ := e
    by_cases hm : m = n
    · subst hm
      rw [List.cons_append]
      simp only [childLookup, if_pos rfl] at h ⊢
      exact h
    · simp only [childLookup, if_neg hm, List.cons_append] at h ⊢
      exact ih h

theorem childLookup_singleton_self (n : String) (v : FsTree) :
    childLookup [(n, v)] n = some v := by
  simp [childLookup]

theorem childLookup_singleton_ne (n m : String) (v : FsTree) (h : m ≠ n) :
    childLookup [(n, v)] m = none := by
  have hnm : n ≠ m := fun he => h he.symm
  simp [childLookup, hnm]

theorem lookup_append (w : FsTree) (p q : List String) :
    w.lookup (p ++ q)
      = match w.lookup p with
        | some t => t.lookup q
        | none => none := by
  induction p generalizing w with
  | nil => simp [lookup]
  | cons n rest ih =>
    cases w with
    | file d => simp [lookup]
    | dir cs =>
      cases h : childLookup cs n with
      | some c => simp [lookup, h, ih]
      | none => simp [lookup, h]

theorem lookup_setAt_self (w : FsTree) (p : List String) (v : FsTree) :
    (setAt w p v).lookup p = some v := by
  induction p generalizing w with
  | nil => simp [setAt, lookup]
  | cons n rest ih =>
    cases w with
    | file d =>
      simp [setAt, lookup, childLookup_singleton_self, ih]
    | dir cs =>
      cases h : childLookup cs n with
      | some c =>
        simp [setAt, h, lookup, childLookup_childSet_self, ih]
      | none =>
        simp [setAt, h, lookup, childLookup_append_of_none _ _ _ h,
          childLookup_singleton_self, ih]

/-- Paths that disagree at some segment before either ends. -/
def divergesB : List String → List String → Bool
  | [], _ => false
  | _ :: _, [] => false
  | a :: as, b :: bs => if a = b then divergesB as bs else true

theorem divergesB_ne_nil {p q : List String} (h : divergesB p q = true) :
    p ≠ [] ∧ q ≠ [] := by
  cases p with
  | nil => simp [divergesB] at h
  | cons a as =>
    cases q with
    | nil => simp [divergesB] at h
    | cons b bs => exact ⟨by simp, by simp⟩

theorem divergesB_symm (p q : List String) : divergesB p q = divergesB q p := by
  induction p generalizing q with
  | nil => cases q <;> simp [divergesB]
  | cons a as ih =>
    cases q with
    | nil => simp [divergesB]
    | cons b bs =>
      by_cases h : a = b
      · subst h; simp [divergesB, ih]
      · have hba : ¬ b = a := fun he => h he.symm
        simp [divergesB, h, hba]

theorem lookup_dir_nil_ne_nil (q : List String) (h : q ≠ []) :
    (dir []).lookup q = none := by
  cases q with
  | nil => exact absurd rfl h
  | cons b bs => simp [lookup, childLookup]

theorem lookup_setAt_diverges (w v : FsTree) (p q : List String)
    (h : divergesB p q = true) :
    (setAt w p v).lookup q = w.lookup q := by
  induction p generalizing w q with
  | nil => simp [divergesB] at h
  | cons a as ih =>
    cases q with
    | nil => simp [divergesB] at h
    | cons b bs =>
      by_cases hab : a = b
      · subst hab
        have has : divergesB as bs = true := by simpa [divergesB] using h
        have hbs : bs ≠ [] := (divergesB_ne_nil has).2
        cases w with
        | file d =>
          simp [setAt, lookup, childLookup_singleton_self, ih _ _ has,
            lookup_dir_nil_ne_nil _ hbs]
        | dir cs =>
          cases hc : childLookup cs a with
          | some c =>
            simp [setAt, hc, lookup, childLookup_childSet_self, ih _ _ has]
          | none =>
            simp [setAt, hc, lookup, childLookup_append_of_none _ _ _ hc,
              childLookup_singleton_self, ih _ _ has,
              lookup_dir_nil_ne_nil _ hbs]
      · cases w with
        | file d =>
          simp [setAt, lookup, childLookup_singleton_ne _ _ _ (fun he => hab he.symm)]
        | dir cs =>
          cases hc : childLookup cs a with
          | some c =>
            simp only [setAt, hc, lookup,
              childLookup_childSet_ne _ _ _ _ (fun he => hab he.symm)]
          | none =>
            cases hb : childLookup cs b with
            | some cb =>
              have : childLookup (cs ++ [(a, setAt (dir []) as v)]) b = some cb :=
                childLookup_append_of_some _ _ _ _ hb
              simp [setAt, hc, lookup, this, hb]
            | none =>
              have : childLookup (cs ++ [(a, setAt (dir []) as v)]) b = none := by
                rw [childLookup_append_of_none _ _ _ hb,
                  childLookup_singleton_ne _ _ _ (fun he => hab he.symm)]
              simp [setAt, hc, lookup, this, hb]

theorem lookup_removeAt_self (w : FsTree) (p : List String) (h : p ≠ []) :
    (removeAt w p).lookup p = none := by
  induction p generalizing w with
  | nil => exact absurd rfl h
  | cons n rest ih =>
    cases rest with
    | nil =>
      cases w with
      | file d => simp [removeAt, lookup]
      | dir cs => simp [removeAt, lookup, childLookup_childRemove_self]
    | cons n2 rest2 =>
      cases w with
      | file d => simp [removeAt, lookup]
      | dir cs =>
        cases hc : childLookup cs n with
        | some c =>
          simp [removeAt, hc, lookup, childLookup_childSet_self, ih _ (by simp)]
        | none => simp [removeAt, hc, lookup]

theorem lookup_removeAt_diverges (w : FsTree) (p q : List String)
    (h : divergesB p q = true) :
    (removeAt w p).lookup q = w.lookup q := by
  induction p generalizing w q with
  | nil => simp [divergesB] at h
  | cons a as ih =>
    cases q with
    | nil => simp [divergesB] at h
    | cons b bs =>
      by_cases hab : a = b
      · subst hab
        have has : divergesB as bs = true := by simpa [divergesB] using h
        obtain ⟨hasne, hbsne⟩ := divergesB_ne_nil has
        cases as with
        | nil => exact absurd rfl hasne
        | cons a2 as2 =>
          cases w with
          | file d => rfl
          | dir cs =>
            cases hc : childLookup cs a with
            | some c =>
              simp [removeAt, hc, lookup, childLookup_childSet_self, ih _ _ has]
            | none => simp [removeAt, hc, lookup]
      · cases as with
        | nil =>
          cases w with
          | file d => rfl
          | dir cs =>
            simp [removeAt, lookup,
              childLookup_childRemove_ne _ _ _ (fun he => hab he.symm)]
        | cons a2 as2 =>
          cases w with
          | file d => rfl
          | dir cs =>
            cases hc : childLookup cs a with
            | some c =>
              simp only [removeAt, hc, lookup,
                childLookup_childSet_ne _ _ _ _ (fun he => hab he.symm)]
            | none => simp only [removeAt, hc]

theorem divergesB_append_right {p q : List String} (q' : List String)
    (h : divergesB p q = true) : divergesB p (q ++ q') = true := by
  induction p generalizing q with
  | nil => simp [divergesB] at h
  | cons a as ih =>
    cases q with
    | nil => simp [divergesB] at h
    | cons b bs =>
      by_cases hab : a = b
      · subst hab
        have has : divergesB as bs = true := by simpa [divergesB] using h
        simpa [divergesB] using ih has
      · simp [divergesB, hab]

theorem divergesB_append_left {p q : List String} (p' : List String)
    (h : divergesB p q = true) : divergesB (p ++ p') q = true := by
  rw [divergesB_symm]
  rw [divergesB_symm] at h
  exact divergesB_append_right p' h

theorem divergesB_same_prefix (p q r : List String) :
    divergesB (p ++ q) (p ++ r) = divergesB q r := by
  induction p with
  | nil => simp
  | cons a as ih => simpa [divergesB] using ih

theorem lookup_setAt_append (w v : FsTree) (p q : List String) :
    (setAt w p v).lookup (p ++ q) = v.lookup q := by
  rw [lookup_append, lookup_setAt_self]

theorem lookup_setAt_isSome_prefix (w v : FsTree) (p q : List String) :
    ((setAt w (p ++ q) v).lookup p).isSome = true := by
  induction p generalizing w with
  | nil => simp [lookup]
  | cons n rest ih =>
    cases w with
    | file d =>
      simp only [List.cons_append, setAt, lookup, childLookup_singleton_self]
      exact ih _
    | dir cs =>
      cases hc : childLookup cs n with
      | some c =>
        simp only [List.cons_append, setAt, hc, lookup, childLookup_childSet_self]
        exact ih _
      | none =>
        simp only [List.cons_append, setAt, hc, lookup]
        rw [childLookup_append_of_none _ _ _ hc, childLookup_singleton_self]
        exact ih _

end FsTree

theorem existsAt_of_readJson_ok (w : FsTree) (p : List String) (cfg : JsonConfig)
    (h : readJsonSyncAt w p = Except.ok cfg) : FsTree.existsAt w p = true := by
  unfold readJsonSyncAt at h
  unfold FsTree.existsAt
  cases hl : w.lookup p with
  | none => rw [hl] at h; exact absurd h (by simp)
  | some t => simp

/-! ## Test fixtures used by the witnesses -/

/-- Source metadata of the sample marker-carrying package `foo`. -/
def fooCfg : JsonConfig := ⟨some "1.0.0", some ["unity3d-package"], none⟩

/-- A sample world (project root at `/`): `foo` is declared and already
installed at the same version; `bare` is declared but lacks the marker
keyword. -/
def worldA : FsTree :=
  FsTree.dir [
    ("package.json", FsTree.file (FileData.json ⟨none, none, some ["foo", "bare"]⟩)),
    ("node_modules", FsTree.dir [
      ("foo", FsTree.dir [
        ("package.json", FsTree.file (FileData.json fooCfg)),
        ("assets", FsTree.dir [("Scripts", FsTree.dir [])]),
        ("README.md", FsTree.file (FileData.raw "r"))]),
      ("bare", FsTree.dir [
        ("package.json", FsTree.file (FileData.json ⟨some "2.0.0", none, none⟩))])]),
    ("Assets", FsTree.dir [("Plugins", FsTree.dir [("Packages", FsTree.dir [
      ("foo", FsTree.dir [
        ("package.json",
          FsTree.file (FileData.json ⟨some "1.0.0", none, none⟩))])])])])]

/-! ## Claim C1: the path safety guard -/

/-- C1: for every path handed to a delete operation or emptiness check
(Phase 1 directory clear, Phase 2 package and sidecar removal, Phase 3
scope emptiness test and removal), `validateProjectPackageDirectory` is
run on the computed path first; when that path does not contain
`Assets/Plugins/Packages` as a substring, the phase throws the fatal
unsafe-path error before any delete executes: Phase 1 either skips (tree
returned unchanged) or errors, and a Phase 2 or Phase 3 iteration on
such a name errors unconditionally, with no mutation of the tree. -/
theorem claim_C1_guard_before_delete (projectRootDir : List String) (w : FsTree)
    (name : String)
    (h : validateOk (pathString (resolveRel (projectPackagesDir projectRootDir) name))
      = false) :
    (phase1Install projectRootDir name w = Except.ok w ∨
      (∃ e, phase1Install projectRootDir name w = Except.error e)) ∧
    phase2Remove projectRootDir name w
      = Except.error (unsafePathMsg
          (pathString (resolveRel (projectPackagesDir projectRootDir) name))) ∧
    phase3Prune projectRootDir name w
      = Except.error (unsafePathMsg
          (pathString (resolveRel (projectPackagesDir projectRootDir) name))) := by
  refine ⟨?_, ?_, ?_⟩
  · unfold phase1Install
    cases hr : readJsonSyncAt w
        (joinRel (dependencyDir projectRootDir name) "package.json") with
    | error e => exact Or.inr ⟨e, by simp [hr]⟩
    | ok cfg =>
      by_cases hk : specialKeyword ∈ cfg.keywords.getD []
      · refine Or.inr
          ⟨unsafePathMsg (pathString (assetsTargetPath projectRootDir name)), ?_⟩
        simp [hr, hk, assetsTargetPath, h]
      · exact Or.inl (by simp [hr, hk])
  · simp [phase2Remove, h]
  · simp [phase3Prune, h]

/-- Witness for C1 at a concrete input: the dependency name `../x`
resolves to `/Assets/Plugins/x`, which fails the guard, and the Phase 2
iteration on it aborts with the unsafe-path error. -/
theorem claim_C1_guard_before_delete_witness :
    validateOk (pathString (resolveRel (projectPackagesDir []) "../x")) = false ∧
    phase2Remove [] "../x" (FsTree.dir [])
      = Except.error (unsafePathMsg
          (pathString (resolveRel (projectPackagesDir []) "../x"))) :=
  ⟨by decide, (claim_C1_guard_before_delete [] (FsTree.dir []) "../x" (by decide)).2.1⟩

theorem joinRel_empty (base : List String) : joinRel base "" = base := by
  have h : splitSegs "" = [""] := rfl
  rw [joinRel, h, List.foldl_cons, List.foldl_nil, segStep]
  simp

theorem lookup_none_of_parent_none (w : FsTree) (p q : List String)
    (h : w.lookup p = none) : w.lookup (p ++ q) = none := by
  rw [FsTree.lookup_append, h]

/-- `copyIfExistsSync` keeps the destination entry in existence when it
already exists (for a well-formed single-segment file name). -/
theorem existsAt_copyIfExistsSync_target (w : FsTree) (depDir target : List String)
    (f : String) (tn : Option String) (hf : validSeg (tn.getD f) = true)
    (h : FsTree.existsAt w target = true) :
    FsTree.existsAt (copyIfExistsSync w depDir target f tn) target = true := by
  unfold copyIfExistsSync
  cases hl : w.lookup (joinRel depDir f) with
  | none => simp only [hl]; exact h
  | some node =>
    simp only [hl, FsTree.existsAt]
    rw [joinRel_valid _ _ hf]
    exact FsTree.lookup_setAt_isSome_prefix _ _ _ _

/-! ## Claim C10: a missing destination entry is never an error -/

/-- C10: for a declared marker-carrying dependency whose destination
entry directory does not exist, Phase 1 does not fail: the destination
metadata file necessarily does not exist either, so a fresh full replace
runs; the directory-emptying step creates the destination entry
directory together with every missing parent, and the installed entry
exists afterwards. -/
theorem claim_C10_fresh_install (projectRootDir : List String) (w : FsTree)
    (name : String) (cfg : JsonConfig)
    (hread : readJsonSyncAt w
      (joinRel (dependencyDir projectRootDir name) "package.json") = Except.ok cfg)
    (hkw : specialKeyword ∈ cfg.keywords.getD [])
    (hguard : validateOk (pathString (assetsTargetPath projectRootDir name)) = true)
    (hnodir : w.lookup (assetsTargetPath projectRootDir name) = none) :
    phase1Install projectRootDir name w
      = Except.ok (fullReplace projectRootDir name w) ∧
    (FsTree.setAt w (assetsTargetPath projectRootDir name) (FsTree.dir [])).lookup
      (assetsTargetPath projectRootDir name) = some (FsTree.dir []) ∧
    (∀ p q, assetsTargetPath projectRootDir name = p ++ q →
      ((FsTree.setAt w (assetsTargetPath projectRootDir name)
        (FsTree.dir [])).lookup p).isSome = true) ∧
    FsTree.existsAt (fullReplace projectRootDir name w)
      (assetsTargetPath projectRootDir name) = true := by
  have hexf : FsTree.existsAt w
      (joinRel (assetsTargetPath projectRootDir name) "package.json") = false := by
    rw [joinRel_valid _ _ (by decide), FsTree.existsAt,
      lookup_none_of_parent_none _ _ _ hnodir]
    rfl
  refine ⟨?_, FsTree.lookup_setAt_self _ _ _, ?_, ?_⟩
  · unfold phase1Install
    simp [hread, hkw, hguard, hexf]
  · intro p q hpq
    conv_lhs => rw [hpq]
    exact FsTree.lookup_setAt_isSome_prefix _ _ _ _
  · unfold fullReplace
    have h1 : FsTree.existsAt
        (FsTree.setAt w (assetsTargetPath projectRootDir name) (FsTree.dir []))
        (assetsTargetPath projectRootDir name) = true := by
      unfold FsTree.existsAt
      rw [FsTree.lookup_setAt_self]
      rfl
    have h2 : FsTree.existsAt
        (copyIfExistsSync
          (FsTree.setAt w (assetsTargetPath projectRootDir name) (FsTree.dir []))
          (dependencyDir projectRootDir name) (assetsTargetPath projectRootDir name)
          "assets" (some ""))
        (assetsTargetPath projectRootDir name) = true := by
      unfold copyIfExistsSync
      cases hl : (FsTree.setAt w (assetsTargetPath projectRootDir name)
          (FsTree.dir [])).lookup
          (joinRel (dependencyDir projectRootDir name) "assets") with
      | none => simp only [hl]; exact h1
      | some node =>
        simp only [hl, FsTree.existsAt, Option.getD]
        rw [joinRel_empty, FsTree.lookup_setAt_self]
        rfl
    simp only [extraFiles, List.foldl_cons, List.foldl_nil]
    exact existsAt_copyIfExistsSync_target _ _ _ _ _ (by decide)
      (existsAt_copyIfExistsSync_target _ _ _ _ _ (by decide)
        (existsAt_copyIfExistsSync_target _ _ _ _ _ (by decide) h2))

/-- A sample world in which `foo` is declared with the marker but not yet
installed: the packages directory is empty. -/
def worldB : FsTree :=
  FsTree.dir [
    ("package.json", FsTree.file (FileData.json ⟨none, none, some ["foo"]⟩)),
    ("node_modules", FsTree.dir [
      ("foo", FsTree.dir [
        ("package.json", FsTree.file (FileData.json fooCfg)),
        ("assets", FsTree.dir [("Scripts", FsTree.dir [])]),
        ("README.md", FsTree.file (FileData.raw "r"))])]),
    ("Assets", FsTree.dir [("Plugins", FsTree.dir [("Packages", FsTree.dir [])])])]

/-- Witness for C10: in `worldB` the entry `foo` is absent from the
packages directory and Phase 1 still succeeds with a fresh install. -/
theorem claim_C10_fresh_install_witness :
    worldB.lookup (assetsTargetPath [] "foo") = none ∧
    phase1Install [] "foo" worldB = Except.ok (fullReplace [] "foo" worldB) ∧
    FsTree.existsAt (fullReplace [] "foo" worldB) (assetsTargetPath [] "foo") = true := by
  have h := claim_C10_fresh_install [] worldB "foo" fooCfg rfl (by decide) (by decide)
    rfl
  exact ⟨rfl, h.1, h.2.2.2⟩

/-! ## Claim C2: the version gate of Phase 1 -/

/-- C2: for a declared dependency carrying the marker keyword (and a
passing guard): when the destination metadata file is readable and its
version string equals the source version by plain equality, Phase 1
returns the tree unchanged (no copy, no clear); when the destination
metadata file is absent, or readable with any different version string,
Phase 1 performs the full replace. -/
theorem claim_C2_version_gate (projectRootDir : List String) (w : FsTree)
    (name : String) (cfg : JsonConfig)
    (hread : readJsonSyncAt w
      (joinRel (dependencyDir projectRootDir name) "package.json") = Except.ok cfg)
    (hkw : specialKeyword ∈ cfg.keywords.getD [])
    (hguard : validateOk (pathString (assetsTargetPath projectRootDir name)) = true) :
    (∀ dcfg, readJsonSyncAt w
        (joinRel (assetsTargetPath projectRootDir name) "package.json")
          = Except.ok dcfg →
      cfg.version = dcfg.version →
      phase1Install projectRootDir name w = Except.ok w) ∧
    (FsTree.existsAt w (joinRel (assetsTargetPath projectRootDir name) "package.json")
        = false →
      phase1Install projectRootDir name w
        = Except.ok (fullReplace projectRootDir name w)) ∧
    (∀ dcfg, readJsonSyncAt w
        (joinRel (assetsTargetPath projectRootDir name) "package.json")
          = Except.ok dcfg →
      cfg.version ≠ dcfg.version →
      phase1Install projectRootDir name w
        = Except.ok (fullReplace projectRootDir name w)) := by
  refine ⟨?_, ?_, ?_⟩
  · intro dcfg hd hv
    have hex := existsAt_of_readJson_ok w _ dcfg hd
    unfold phase1Install
    simp [hread, hkw, hguard, hex, hd, hv]
  · intro hex
    unfold phase1Install
    simp [hread, hkw, hguard, hex]
  · intro dcfg hd hv
    have hex := existsAt_of_readJson_ok w _ dcfg hd
    unfold phase1Install
    simp [hread, hkw, hguard, hex, hd, hv]

/-- Witness for C2: in `worldA` the installed `foo` has the same version
string as the source, so Phase 1 leaves the world unchanged. -/
theorem claim_C2_version_gate_witness :
    readJsonSyncAt worldA (joinRel (dependencyDir [] "foo") "package.json")
      = Except.ok fooCfg ∧
    specialKeyword ∈ fooCfg.keywords.getD [] ∧
    validateOk (pathString (assetsTargetPath [] "foo")) = true ∧
    phase1Install [] "foo" worldA = Except.ok worldA := by
  refine ⟨rfl, by decide, by decide, ?_⟩
  exact (claim_C2_version_gate [] worldA "foo" fooCfg rfl (by decide) (by decide)).1
    ⟨some "1.0.0", none, none⟩ rfl rfl

/-! ## Claim C8: soft skips are not errors and mutate nothing -/

/-- C8: a declared dependency whose source metadata lacks the marker
keyword (also when the `keywords` field is absent, which defaults to the
empty list) is skipped by Phase 1 with no error and no filesystem
mutation; the same soft skip applies to a dependency already at the same
version, and an extra file absent at the source leaves the copy step
without effect. -/
theorem claim_C8_soft_skips (projectRootDir : List String) (w : FsTree)
    (name : String) (cfg : JsonConfig)
    (hread : readJsonSyncAt w
      (joinRel (dependencyDir projectRootDir name) "package.json") = Except.ok cfg) :
    (specialKeyword ∉ cfg.keywords.getD [] →
      phase1Install projectRootDir name w = Except.ok w) ∧
    (∀ dcfg, specialKeyword ∈ cfg.keywords.getD [] →
      validateOk (pathString (assetsTargetPath projectRootDir name)) = true →
      readJsonSyncAt w
        (joinRel (assetsTargetPath projectRootDir name) "package.json")
          = Except.ok dcfg →
      cfg.version = dcfg.version →
      phase1Install projectRootDir name w = Except.ok w) ∧
    (∀ (depDir target : List String) (f : String) (tn : Option String),
      FsTree.existsAt w (joinRel depDir f) = false →
      copyIfExistsSync w depDir target f tn = w) := by
  refine ⟨?_, ?_, ?_⟩
  · intro hk
    unfold phase1Install
    simp [hread, hk]
  · intro dcfg hk hguard hd hv
    have hex := existsAt_of_readJson_ok w _ dcfg hd
    unfold phase1Install
    simp [hread, hk, hguard, hex, hd, hv]
  · intro depDir target f tn hex
    unfold copyIfExistsSync
    unfold FsTree.existsAt at hex
    cases hl : w.lookup (joinRel depDir f) with
    | none => simp only [hl]
    | some t => rw [hl] at hex; simp at hex

/-- Witness for C8: `bare` lacks the marker keyword and is skipped, and
the missing `LICENSE` of `foo` leaves the copy step without effect. -/
theorem claim_C8_soft_skips_witness :
    readJsonSyncAt worldA (joinRel (dependencyDir [] "bare") "package.json")
      = Except.ok ⟨some "2.0.0", none, none⟩ ∧
    phase1Install [] "bare" worldA = Except.ok worldA ∧
    copyIfExistsSync worldA (dependencyDir [] "foo") (assetsTargetPath [] "foo")
      "LICENSE" none = worldA := by
  refine ⟨rfl, ?_, ?_⟩
  · exact (claim_C8_soft_skips [] worldA "bare" ⟨some "2.0.0", none, none⟩ rfl).1
      (by decide)
  · exact (claim_C8_soft_skips [] worldA "bare" ⟨some "2.0.0", none, none⟩ rfl).2.2
      (dependencyDir [] "foo") (assetsTargetPath [] "foo") "LICENSE" none (by decide)

/-! ## Claim C3: the fixed installation steps -/

/-- Modelled from the spec (claim C3 wording): the installation block as
three explicit steps in order — (1) empty the destination entry
directory completely, (2) copy the contents of the source `assets`
subdirectory into the destination entry root when it exists, (3) copy
each of `package.json`, `README.md`, `LICENSE`, in that order, from the
source root into the destination entry root, each only when it exists at
the source, skipping it silently otherwise. -/
def installStepsSpec (projectRootDir : List String) (dependencyName : String)
    (w : FsTree) : FsTree :=
  let depDir := dependencyDir projectRootDir dependencyName
  let target := assetsTargetPath projectRootDir dependencyName
  let w1 := FsTree.setAt w target (FsTree.dir [])
  let w2 := match w1.lookup (joinRel depDir "assets") with
    | some node => FsTree.setAt w1 target node
    | none => w1
  let w3 := match w2.lookup (joinRel depDir "package.json") with
    | some node => FsTree.setAt w2 (joinRel target "package.json") node
    | none => w2
  let w4 := match w3.lookup (joinRel depDir "README.md") with
    | some node => FsTree.setAt w3 (joinRel target "README.md") node
    | none => w3
  match w4.lookup (joinRel depDir "LICENSE") with
  | some node => FsTree.setAt w4 (joinRel target "LICENSE") node
  | none => w4

theorem lookup_dir_nil_single (f : String) :
    (FsTree.dir []).lookup [f] = none := by
  simp [FsTree.lookup, FsTree.childLookup]

/-- A copy step with a distinct single-segment name keeps the absence of
`target/f`. -/
theorem copy_preserves_none (w : FsTree) (depDir target : List String)
    (f g : String) (hgf : g ≠ f) (hg : validSeg g = true)
    (hnone : w.lookup (target ++ [f]) = none) :
    (copyIfExistsSync w depDir target g none).lookup (target ++ [f]) = none := by
  unfold copyIfExistsSync
  cases hl : w.lookup (joinRel depDir g) with
  | none => simp only [hl]; exact hnone
  | some node =>
    simp only [hl, Option.getD]
    rw [joinRel_valid _ _ hg,
      FsTree.lookup_setAt_diverges _ _ _ _
        (by rw [FsTree.divergesB_same_prefix]; simp [FsTree.divergesB, hgf])]
    exact hnone

/-- A copy step writes only under `target`, so a path diverging from
`target` reads the same afterwards. -/
theorem copy_preserves_far (w : FsTree) (depDir target : List String)
    (g : String) (q : List String) (hg : validSeg g = true)
    (hdivq : FsTree.divergesB target q = true) :
    (copyIfExistsSync w depDir target g none).lookup q = w.lookup q := by
  unfold copyIfExistsSync
  cases hl : w.lookup (joinRel depDir g) with
  | none => simp only [hl]
  | some node =>
    simp only [hl, Option.getD]
    rw [joinRel_valid _ _ hg,
      FsTree.lookup_setAt_diverges _ _ _ _ (FsTree.divergesB_append_left _ hdivq)]

/-- One extra-file copy step keeps both the absence of `target/f` and
the absence of the source file `depDir/f`. -/
theorem copy_chain_step (w : FsTree) (depDir target : List String) (f g : String)
    (hq : FsTree.divergesB target (depDir ++ [f]) = true)
    (hg : validSeg g = true) (hvf : validSeg f = true)
    (hnone : w.lookup (target ++ [f]) = none)
    (hsrc : w.lookup (depDir ++ [f]) = none) :
    (copyIfExistsSync w depDir target g none).lookup (target ++ [f]) = none ∧
    (copyIfExistsSync w depDir target g none).lookup (depDir ++ [f]) = none := by
  by_cases hgf : g = f
  · subst hgf
    have hskip : copyIfExistsSync w depDir target g none = w := by
      unfold copyIfExistsSync
      rw [joinRel_valid _ _ hg]
      simp only [hsrc]
    rw [hskip]
    exact ⟨hnone, hsrc⟩
  · refine ⟨copy_preserves_none w depDir target f g hgf hg hnone, ?_⟩
    rw [copy_preserves_far w depDir target g _ hg hq]
    exact hsrc

/-- C3: the Phase 1 installation block performs exactly the three spec
steps in order (empty the entry directory, copy the `assets` contents,
copy the three extra files in their fixed order when present), and an
extra file absent at the source (and not provided by the `assets`
subtree) is not created at the destination. -/
theorem claim_C3_install_steps (projectRootDir : List String) (name : String)
    (w : FsTree)
    (hdiv : FsTree.divergesB (assetsTargetPath projectRootDir name)
      (dependencyDir projectRootDir name) = true) :
    fullReplace projectRootDir name w = installStepsSpec projectRootDir name w ∧
    (∀ f, f ∈ extraFiles →
      FsTree.existsAt w (joinRel (dependencyDir projectRootDir name) f) = false →
      (∀ acs, w.lookup (joinRel (dependencyDir projectRootDir name) "assets")
          = some (FsTree.dir acs) → FsTree.childLookup acs f = none) →
      (fullReplace projectRootDir name w).lookup
        (assetsTargetPath projectRootDir name ++ [f]) = none) := by
  constructor
  · simp only [fullReplace, installStepsSpec, extraFiles, List.foldl_cons,
      List.foldl_nil, copyIfExistsSync, Option.getD, joinRel_empty]
  · intro f hf hmiss hassets
    have hvf : validSeg f = true := by
      simp only [extraFiles, List.mem_cons, List.not_mem_nil, or_false] at hf
      rcases hf with rfl | rfl | rfl <;> decide
    set depDir := dependencyDir projectRootDir name with hdepDir
    set target := assetsTargetPath projectRootDir name with htarget
    have hq : FsTree.divergesB target (depDir ++ [f]) = true :=
      FsTree.divergesB_append_right _ hdiv
    have hsrc0 : w.lookup (depDir ++ [f]) = none := by
      rw [joinRel_valid _ _ hvf] at hmiss
      unfold FsTree.existsAt at hmiss
      cases hl : w.lookup (depDir ++ [f]) with
      | none => rfl
      | some t => rw [hl] at hmiss; simp at hmiss
    -- stage 1: empty the destination entry directory
    have hnone1 : (FsTree.setAt w target (FsTree.dir [])).lookup (target ++ [f])
        = none := by
      rw [FsTree.lookup_setAt_append, lookup_dir_nil_single]
    have hsrc1 : (FsTree.setAt w target (FsTree.dir [])).lookup (depDir ++ [f])
        = none := by
      rw [FsTree.lookup_setAt_diverges _ _ _ _ hq]
      exact hsrc0
    -- stage 2: the assets copy
    have hstep2 :
        (copyIfExistsSync (FsTree.setAt w target (FsTree.dir [])) depDir target
          "assets" (some "")).lookup (target ++ [f]) = none ∧
        (copyIfExistsSync (FsTree.setAt w target (FsTree.dir [])) depDir target
          "assets" (some "")).lookup (depDir ++ [f]) = none := by
      unfold copyIfExistsSync
      have hsa : (FsTree.setAt w target (FsTree.dir [])).lookup
          (joinRel depDir "assets")
          = w.lookup (joinRel depDir "assets") := by
        rw [joinRel_valid _ _ (by decide)]
        exact FsTree.lookup_setAt_diverges _ _ _ _
          (FsTree.divergesB_append_right _ hdiv)
      cases ha : w.lookup (joinRel depDir "assets") with
      | none =>
        simp only [hsa, ha]
        exact ⟨hnone1, hsrc1⟩
      | some node =>
        simp only [hsa, ha, Option.getD]
        rw [joinRel_empty]
        constructor
        · rw [FsTree.lookup_setAt_append]
          cases node with
          | file d => simp [FsTree.lookup]
          | dir acs =>
            have := hassets acs ha
            simp [FsTree.lookup, this]
        · rw [FsTree.lookup_setAt_diverges _ _ _ _ hq]
          exact hsrc1
    -- stages 3–5: the three extra-file copies
    have hstep3 := copy_chain_step _ depDir target f "package.json" hq
      (by decide) hvf hstep2.1 hstep2.2
    have hstep4 := copy_chain_step _ depDir target f "README.md" hq
      (by decide) hvf hstep3.1 hstep3.2
    have hstep5 := copy_chain_step _ depDir target f "LICENSE" hq
      (by decide) hvf hstep4.1 hstep4.2
    unfold fullReplace
    simp only [extraFiles, List.foldl_cons, List.foldl_nil, ← hdepDir, ← htarget]
    exact hstep5.1

/-- Witness for C3: in `worldB` the source `foo` has no `LICENSE`, and
after installation no `LICENSE` exists at the destination entry. -/
theorem claim_C3_install_steps_witness :
    FsTree.divergesB (assetsTargetPath [] "foo") (dependencyDir [] "foo") = true ∧
    FsTree.existsAt worldB (joinRel (dependencyDir [] "foo") "LICENSE") = false ∧
    (fullReplace [] "foo" worldB).lookup
      (assetsTargetPath [] "foo" ++ ["LICENSE"]) = none := by
  refine ⟨by decide, by decide, ?_⟩
  exact (claim_C3_install_steps [] "foo" worldB (by decide)).2 "LICENSE"
    (by decide) (by decide)
    (fun acs ha => by
      have : acs = [("Scripts", FsTree.dir [])] := by
        have h2 : worldB.lookup (joinRel (dependencyDir [] "foo") "assets")
            = some (FsTree.dir [("Scripts", FsTree.dir [])]) := rfl
        rw [h2] at ha
        cases ha
        rfl
      rw [this]
      rfl)

/-! ## Claim C4: the installed-entry listing -/

/-- Whether a node is a directory. -/
def isDirNode : FsTree → Bool
  | FsTree.dir _ => true
  | FsTree.file _ => false

/-- Names of the directory children, in order. -/
def dirNames (cs : List (String × FsTree)) : List String :=
  (cs.filter (fun e => isDirNode e.2)).map Prod.fst

/-- Well-formedness of the children of a node: names are valid path
segments and there are no duplicates (true for any real directory). -/
def childrenOk : FsTree → Bool
  | FsTree.file _ => true
  | FsTree.dir ds =>
    ds.all (fun e2 => validSeg e2.1) && decide ((ds.map Prod.fst).Nodup)

/-- Modelled from the spec (claim C4 wording): the effective
installed-entry list over the children of the destination root — each
direct subdirectory whose name does not start with `@` is one entry
under its own name; for each direct subdirectory whose name starts with
`@`, each subdirectory inside it is one entry named `scope/child`;
non-directory entries produce nothing. -/
def entryListingSpec : List (String × FsTree) → List String
  | [] => []
  | (n, FsTree.dir ds) :: rest =>
    (if startsWithAt n '@'
      then (ds.filter (fun e2 => isDirNode e2.2)).map (fun e2 => n ++ "/" ++ e2.1)
      else [n]) ++ entryListingSpec rest
  | (_, FsTree.file _) :: rest => entryListingSpec rest

theorem childLookup_of_mem_nodup (cs : List (String × FsTree))
    (e : String × FsTree) (he : e ∈ cs) (hn : (cs.map Prod.fst).Nodup) :
    FsTree.childLookup cs e.1 = some e.2 := by
  induction cs with
  | nil => simp at he
  | cons a rest ih =>
    rw [List.map_cons] at hn
    obtain ⟨hna, hrest⟩ := List.nodup_cons.mp hn
    rcases List.mem_cons.mp he with rfl | hmem
    · simp [FsTree.childLookup]
    · have hne : a.1 ≠ e.1 := by
        intro hcontra
        exact hna (hcontra ▸ List.mem_map_of_mem Prod.fst hmem)
      obtain ⟨a1, a2⟩ := a
      simp only [FsTree.childLookup, if_neg hne]
      exact ih hmem hrest

theorem lookup_dir_single (cs : List (String × FsTree)) (n : String) :
    (FsTree.dir cs).lookup [n] = FsTree.childLookup cs n := by
  cases h : FsTree.childLookup cs n <;> simp [FsTree.lookup, h]

theorem lookup_append_some (w t : FsTree) (p q : List String)
    (h : w.lookup p = some t) : w.lookup (p ++ q) = t.lookup q := by
  rw [FsTree.lookup_append, h]

theorem filter_fst_eq_dirNames (cs : List (String × FsTree)) (q : String → Bool)
    (h : ∀ e ∈ cs, q e.1 = isDirNode e.2) :
    (cs.map Prod.fst).filter q = dirNames cs := by
  induction cs with
  | nil => rfl
  | cons e rest ih =>
    have he := h e (by simp)
    have ihr := ih (fun x hx => h x (by simp [hx]))
    simp only [dirNames] at ihr ⊢
    cases hd : isDirNode e.2 with
    | true => simp [List.filter_cons, he, hd, ihr]
    | false => simp [List.filter_cons, he, hd, ihr]

theorem getDirectories_of_dir (w : FsTree) (p : List String)
    (cs : List (String × FsTree))
    (hp : w.lookup p = some (FsTree.dir cs))
    (hv : ∀ e ∈ cs, validSeg e.1 = true)
    (hn : (cs.map Prod.fst).Nodup) :
    getDirectories w p = Except.ok (dirNames cs) := by
  unfold getDirectories readdirSyncAt
  simp only [hp]
  rw [filter_fst_eq_dirNames cs _ (fun e he => ?_)]
  rw [joinRel_valid _ _ (hv e he)]
  unfold FsTree.isDirAt
  rw [lookup_append_some w _ p [e.1] hp, lookup_dir_single,
    childLookup_of_mem_nodup cs e he hn]
  cases e.2 <;> rfl

theorem listingFlat_dirNames (w : FsTree) (pkgsDir : List String)
    (csAll : List (String × FsTree))
    (hp : w.lookup pkgsDir = some (FsTree.dir csAll))
    (hv : ∀ e ∈ csAll, validSeg e.1 = true)
    (hn : (csAll.map Prod.fst).Nodup)
    (hscope : ∀ e ∈ csAll, childrenOk e.2 = true) :
    ∀ cs, (∀ e ∈ cs, e ∈ csAll) →
      listingFlat w pkgsDir (dirNames cs) = Except.ok (entryListingSpec cs) := by
  intro cs
  induction cs with
  | nil => intro _; rfl
  | cons e rest ih =>
    intro hsub
    obtain ⟨n, c⟩ := e
    have hmem : (n, c) ∈ csAll := hsub _ (by simp)
    cases c with
    | file d =>
      simp only [dirNames, List.filter_cons, isDirNode, Bool.false_eq_true,
        if_false, entryListingSpec]
      exact ih (fun x hx => hsub x (by simp [hx]))
    | dir ds =>
      have hvn : validSeg n = true := hv _ hmem
      have hds : (∀ e2 ∈ ds, validSeg e2.1 = true) ∧ (ds.map Prod.fst).Nodup := by
        have := hscope _ hmem
        simp only [childrenOk, Bool.and_eq_true, List.all_eq_true,
          decide_eq_true_eq] at this
        exact this
      have hdn : dirNames ((n, FsTree.dir ds) :: rest)
          = n :: dirNames rest := by
        simp [dirNames, List.filter_cons, isDirNode]
      rw [hdn]
      have hlook : w.lookup (joinRel pkgsDir n) = some (FsTree.dir ds) := by
        rw [joinRel_valid _ _ hvn, lookup_append_some w _ _ _ hp,
          lookup_dir_single]
        exact childLookup_of_mem_nodup csAll (n, FsTree.dir ds) hmem hn
      have hrest := ih (fun x hx => hsub x (by simp [hx]))
      cases hsw : startsWithAt n '@' with
      | true =>
        have hgd : getDirectories w (joinRel pkgsDir n) = Except.ok (dirNames ds) :=
          getDirectories_of_dir w _ ds hlook hds.1 hds.2
        simp only [listingFlat, hsw, if_true, hgd, hrest, entryListingSpec]
        rw [dirNames, List.map_map]
        rfl
      | false =>
        simp only [listingFlat, hsw, Bool.false_eq_true, if_false, hrest,
          entryListingSpec]
        rfl

theorem getProjectPackageListing_spec (w : FsTree) (pkgsDir : List String)
    (cs : List (String × FsTree))
    (hp : w.lookup pkgsDir = some (FsTree.dir cs))
    (hv : ∀ e ∈ cs, validSeg e.1 = true)
    (hn : (cs.map Prod.fst).Nodup)
    (hscope : ∀ e ∈ cs, childrenOk e.2 = true) :
    getProjectPackageListing w pkgsDir = Except.ok (entryListingSpec cs) := by
  unfold getProjectPackageListing
  rw [getDirectories_of_dir w pkgsDir cs hp hv hn]
  exact listingFlat_dirNames w pkgsDir cs hp hv hn hscope cs (fun _ h => h)

/-- C4: Phase 2 computes the effective installed-entry list exactly as
the spec describes: each non-`@` top-level directory is one entry under
its own name, each directory inside an `@`-prefixed top-level directory
is one entry named `scope/child`, and non-directory entries contribute
nothing. -/
theorem claim_C4_effective_listing (w : FsTree) (pkgsDir : List String)
    (cs : List (String × FsTree))
    (hp : w.lookup pkgsDir = some (FsTree.dir cs))
    (hv : ∀ e ∈ cs, validSeg e.1 = true)
    (hn : (cs.map Prod.fst).Nodup)
    (hscope : ∀ e ∈ cs, childrenOk e.2 = true) :
    getProjectPackageListing w pkgsDir = Except.ok (entryListingSpec cs) :=
  getProjectPackageListing_spec w pkgsDir cs hp hv hn hscope

/-- A sample packages directory with a plain entry, a loose file, a
scope holding one package and one file, and an empty scope. -/
def pkgsC : List (String × FsTree) :=
  [("alpha", FsTree.dir [("a.cs", FsTree.file (FileData.raw "x"))]),
   ("notes.txt", FsTree.file (FileData.raw "n")),
   ("@org", FsTree.dir [("foo", FsTree.dir []), ("readme", FsTree.file (FileData.raw "r"))]),
   ("@empty", FsTree.dir [])]

/-- A world holding `pkgsC` at the packages directory of root `[]`. -/
def worldC : FsTree :=
  FsTree.dir [("Assets", FsTree.dir [("Plugins", FsTree.dir [
    ("Packages", FsTree.dir pkgsC)])])]

/-- Witness for C4: the effective listing of `worldC` is
`["alpha", "@org/foo"]` — the loose file, the scope directories
themselves, and the file inside the scope produce no entries. -/
theorem claim_C4_effective_listing_witness :
    worldC.lookup (projectPackagesDir []) = some (FsTree.dir pkgsC) ∧
    getProjectPackageListing worldC (projectPackagesDir [])
      = Except.ok ["alpha", "@org/foo"] := by
  refine ⟨rfl, ?_⟩
  rw [claim_C4_effective_listing worldC (projectPackagesDir []) pkgsC rfl
    (by decide) (by decide) (by decide)]
  rfl

/-! ## Claim C6: scoped-name reconciliation -/

theorem startsWithAt_ne_of_at (a b : String) (c : Char)
    (ha : startsWithAt a c = false) (hb : startsWithAt b c = true) : a ≠ b := by
  intro h
  rw [h, hb] at ha
  cases ha

theorem startsWithAt_append (n suffix : String) (c : Char) (hn : n.data ≠ []) :
    startsWithAt (n ++ suffix) c = startsWithAt n c := by
  unfold startsWithAt
  rw [String.data_append]
  cases hd : n.data with
  | nil => exact absurd hd hn
  | cons x rest => simp

theorem data_ne_nil_of_validSeg (n : String) (h : validSeg n = true) :
    n.data ≠ [] := by
  intro hd
  exact ((validSeg_iff n).mp h).1 ((str_eq_iff_data n "").mpr (by rw [hd]))

/-- Conditional removal (`if existsSync then removeSync`) preserves
lookups along diverging paths. -/
theorem removeIf_preserves (w : FsTree) (p q : List String)
    (h : FsTree.divergesB p q = true) :
    (if FsTree.existsAt w p then FsTree.removeAt w p else w).lookup q
      = w.lookup q := by
  by_cases he : FsTree.existsAt w p
  · rw [if_pos he, FsTree.lookup_removeAt_diverges _ _ _ h]
  · rw [if_neg he]

/-- A successful `unlinkIfExists` preserves lookups along diverging paths. -/
theorem unlinkIfExists_ok_preserves (w w' : FsTree) (p q : List String)
    (hok : unlinkIfExists w p = Except.ok w')
    (h : FsTree.divergesB p q = true) :
    w'.lookup q = w.lookup q := by
  unfold unlinkIfExists at hok
  cases hl : w.lookup p with
  | none =>
    rw [hl] at hok
    cases hok
    rfl
  | some t =>
    cases t with
    | file d =>
      rw [hl] at hok
      cases hok
      rw [FsTree.lookup_removeAt_diverges _ _ _ h]
    | dir cs =>
      rw [hl] at hok
      cases hok

/-- C6: a scoped installed entry `s/c` (scope name starting with `@`) is
treated as declared-present exactly when the declared set contains the
full string `s ++ "/" ++ c`; moreover a Phase 2 removal of a scoped
entry leaves every unscoped entry untouched, and a removal of an
unscoped entry leaves every scoped entry untouched. -/
theorem claim_C6_scoped_reconciliation (projectRootDir : List String)
    (depNames : List String) (w : FsTree) (listing : List String)
    (s c n : String) (rest : List String)
    (hs : startsWithAt s '@' = true) (hnb : startsWithAt n '@' = false)
    (hvs : validSeg s = true) (hvc : validSeg c = true) (hvn : validSeg n = true) :
    ((s ++ "/" ++ c) ∈ listing →
      ((s ++ "/" ++ c) ∈ listing.filter
          (fun packageName => ¬ (depNames.contains packageName)) ↔
        (s ++ "/" ++ c) ∉ depNames)) ∧
    (∀ w', phase2Remove projectRootDir (s ++ "/" ++ c) w = Except.ok w' →
      w'.lookup (projectPackagesDir projectRootDir ++ n :: rest)
        = w.lookup (projectPackagesDir projectRootDir ++ n :: rest)) ∧
    (∀ w', phase2Remove projectRootDir n w = Except.ok w' →
      w'.lookup (projectPackagesDir projectRootDir ++ s :: rest)
        = w.lookup (projectPackagesDir projectRootDir ++ s :: rest)) := by
  have hsn : s ≠ n := startsWithAt_ne_of_at n s '@' hnb hs |>.symm
  have hns : n ≠ s := startsWithAt_ne_of_at n s '@' hnb hs
  refine ⟨?_, ?_, ?_⟩
  · intro hmem
    simp [List.mem_filter, hmem]
  · intro w' hok
    have hmeta : (s ++ "/" ++ c) ++ ".meta" = s ++ "/" ++ (c ++ ".meta") := by
      rw [String.append_assoc]
    have hvcm : validSeg (c ++ ".meta") = true :=
      validSeg_append c ".meta" hvc (by decide) (by decide)
    unfold phase2Remove at hok
    rw [hmeta] at hok
    simp only [resolveRel_scoped _ _ _ hvs hvc,
      resolveRel_scoped _ _ _ hvs hvcm] at hok
    have hdiv1 : FsTree.divergesB
        (projectPackagesDir projectRootDir ++ [s, c])
        (projectPackagesDir projectRootDir ++ n :: rest) = true := by
      rw [FsTree.divergesB_same_prefix]
      simp [FsTree.divergesB, hsn]
    have hdiv2 : FsTree.divergesB
        (projectPackagesDir projectRootDir ++ [s, c ++ ".meta"])
        (projectPackagesDir projectRootDir ++ n :: rest) = true := by
      rw [FsTree.divergesB_same_prefix]
      simp [FsTree.divergesB, hsn]
    by_cases hg : validateOk
        (pathString (projectPackagesDir projectRootDir ++ [s, c])) = true
    · rw [if_neg (by simp [hg])] at hok
      rw [unlinkIfExists_ok_preserves _ _ _ _ hok hdiv2,
        removeIf_preserves _ _ _ hdiv1]
    · rw [if_pos (by simpa using hg)] at hok
      cases hok
  · intro w' hok
    have hvnm : validSeg (n ++ ".meta") = true :=
      validSeg_append n ".meta" hvn (by decide) (by decide)
    unfold phase2Remove at hok
    simp only [resolveRel_valid _ _ hvn, resolveRel_valid _ _ hvnm] at hok
    have hdiv1 : FsTree.divergesB
        (projectPackagesDir projectRootDir ++ [n])
        (projectPackagesDir projectRootDir ++ s :: rest) = true := by
      rw [FsTree.divergesB_same_prefix]
      simp [FsTree.divergesB, hns]
    have hnm : (n ++ ".meta") ≠ s := by
      apply startsWithAt_ne_of_at _ _ '@' _ hs
      rw [startsWithAt_append n ".meta" '@' (data_ne_nil_of_validSeg n hvn)]
      exact hnb
    have hdiv2 : FsTree.divergesB
        (projectPackagesDir projectRootDir ++ [n ++ ".meta"])
        (projectPackagesDir projectRootDir ++ s :: rest) = true := by
      rw [FsTree.divergesB_same_prefix]
      simp [FsTree.divergesB, hnm]
    by_cases hg : validateOk
        (pathString (projectPackagesDir projectRootDir ++ [n])) = true
    · rw [if_neg (by simp [hg])] at hok
      rw [unlinkIfExists_ok_preserves _ _ _ _ hok hdiv2,
        removeIf_preserves _ _ _ hdiv1]
    · rw [if_pos (by simpa using hg)] at hok
      cases hok

/-- A sample world for Phase 2 removals: one unscoped entry `plain` and
one scoped entry `@org/foo`. -/
def worldD : FsTree :=
  FsTree.dir [("Assets", FsTree.dir [("Plugins", FsTree.dir [
    ("Packages", FsTree.dir [
      ("plain", FsTree.dir [("p.cs", FsTree.file (FileData.raw "p"))]),
      ("@org", FsTree.dir [("foo", FsTree.dir [])])])])])]

/-- `worldD` after Phase 2 removed the scoped entry `@org/foo`. -/
def worldD' : FsTree :=
  FsTree.dir [("Assets", FsTree.dir [("Plugins", FsTree.dir [
    ("Packages", FsTree.dir [
      ("plain", FsTree.dir [("p.cs", FsTree.file (FileData.raw "p"))]),
      ("@org", FsTree.dir [])])])])]

/-- Witness for C6: removing the redundant scoped `@org/foo` from
`worldD` succeeds and leaves the unscoped `plain` entry untouched. -/
theorem claim_C6_scoped_reconciliation_witness :
    phase2Remove [] "@org/foo" worldD = Except.ok worldD' ∧
    worldD'.lookup (projectPackagesDir [] ++ "plain" :: [])
      = worldD.lookup (projectPackagesDir [] ++ "plain" :: []) ∧
    ("@org/foo" ∈ (["plain", "@org/foo"] : List String).filter
        (fun packageName => ¬ ((["plain"] : List String).contains packageName))) := by
  have h := claim_C6_scoped_reconciliation [] ["plain"] worldD
    ["plain", "@org/foo"] "@org" "foo" "plain" []
    (by decide) (by decide) (by decide) (by decide) (by decide)
  refine ⟨rfl, h.2.1 worldD' rfl, ?_⟩
  exact ((h.1 (by decide)).mpr (by decide))

/-! ## Claim C5: machinery for the full Phase 2 postcondition -/

namespace FsTree

/-- `removeAt` never creates a node: a missing path stays missing. -/
theorem lookup_removeAt_none (w : FsTree) (p q : List String)
    (h : w.lookup q = none) : (removeAt w p).lookup q = none := by
  induction p generalizing w q with
  | nil => simpa [removeAt] using h
  | cons n p2 ih =>
    cases w with
    | file d => simpa [removeAt] using h
    | dir cs =>
      cases q with
      | nil => simp [lookup] at h
      | cons b bs =>
        simp only [lookup] at h
        cases p2 with
        | nil =>
          by_cases hbn : b = n
          · subst hbn
            simp [removeAt, lookup, childLookup_childRemove_self]
          · simp only [removeAt, lookup, childLookup_childRemove_ne _ _ _ hbn]
            exact h
        | cons m p3 =>
          cases hc : childLookup cs n with
          | none => simp only [removeAt, hc, lookup]; exact h
          | some c =>
            by_cases hbn : b = n
            · subst hbn
              simp only [removeAt, hc, lookup, childLookup_childSet_self]
              rw [hc] at h
              exact ih c bs h
            · simp only [removeAt, hc, lookup,
                childLookup_childSet_ne _ _ _ _ hbn]
              exact h

end FsTree

/-- Shape of a name produced by the installed-entry listing: a plain
valid segment not starting with `@`, or `scope/child` with the scope
starting with `@`. -/
def listedName (r : String) : Prop :=
  (validSeg r = true ∧ startsWithAt r '@' = false) ∨
  (∃ s c, r = s ++ "/" ++ c ∧ validSeg s = true ∧ startsWithAt s '@' = true ∧
    validSeg c = true)

theorem entryListingSpec_mem (cs : List (String × FsTree)) (r : String)
    (h : r ∈ entryListingSpec cs) :
    (∃ ds, (r, FsTree.dir ds) ∈ cs ∧ startsWithAt r '@' = false) ∨
    (∃ s c ds ds2, r = s ++ "/" ++ c ∧ (s, FsTree.dir ds) ∈ cs ∧
      startsWithAt s '@' = true ∧ (c, FsTree.dir ds2) ∈ ds) := by
  induction cs with
  | nil => simp [entryListingSpec] at h
  | cons e rest ih =>
    obtain ⟨n, c⟩ := e
    cases c with
    | file d =>
      simp only [entryListingSpec] at h
      rcases ih h with ⟨ds, hm, hsw⟩ | ⟨s, c', ds, ds2, hr, hm, hsw, hm2⟩
      · exact Or.inl ⟨ds, by simp [hm], hsw⟩
      · exact Or.inr ⟨s, c', ds, ds2, hr, by simp [hm], hsw, hm2⟩
    | dir ds =>
      simp only [entryListingSpec] at h
      rcases List.mem_append.mp h with hin | hin
      · cases hsw : startsWithAt n '@' with
        | true =>
          rw [if_pos (by rw [hsw])] at hin
          obtain ⟨e2, he2, hre⟩ := List.mem_map.mp hin
          obtain ⟨he2m, he2d⟩ := List.mem_filter.mp he2
          cases he2c : e2.2 with
          | file d2 => rw [he2c] at he2d; simp [isDirNode] at he2d
          | dir ds2 =>
            refine Or.inr ⟨n, e2.1, ds, ds2, hre.symm, by simp, hsw, ?_⟩
            have : e2 = (e2.1, FsTree.dir ds2) := by
              rw [← he2c]
            rw [← this]
            exact he2m
        | false =>
          rw [if_neg (by rw [hsw]; simp)] at hin
          rcases List.mem_singleton.mp hin with rfl
          exact Or.inl ⟨ds, by simp, hsw⟩
      · rcases ih hin with ⟨ds', hm, hsw⟩ | ⟨s, c', ds', ds2, hr, hm, hsw, hm2⟩
        · exact Or.inl ⟨ds', by simp [hm], hsw⟩
        · exact Or.inr ⟨s, c', ds', ds2, hr, by simp [hm], hsw, hm2⟩

theorem scoped_name_inj (s c s' c' : String)
    (hs : validSeg s = true) (hc : validSeg c = true)
    (hs' : validSeg s' = true) (hc' : validSeg c' = true)
    (h : s ++ "/" ++ c = s' ++ "/" ++ c') : s = s' ∧ c = c' := by
  have h1 : splitSegs (s ++ "/" ++ c) = [s, c] := by
    rw [splitSegs_scoped s c ((validSeg_iff s).mp hs).2.2.2, splitSegs_valid c hc]
  have h2 : splitSegs (s' ++ "/" ++ c') = [s', c'] := by
    rw [splitSegs_scoped s' c' ((validSeg_iff s').mp hs').2.2.2,
      splitSegs_valid c' hc']
  rw [h, h2] at h1
  exact ⟨(List.cons.injEq _ _ _ _).mp h1 |>.1.symm,
    (List.cons.injEq _ _ _ _).mp ((List.cons.injEq _ _ _ _).mp h1).2 |>.1.symm⟩

theorem ne_append_meta (n : String) : n ≠ n ++ ".meta" := by
  intro h
  have := congrArg (fun s => s.data.length) h
  simp [String.data_append] at this

theorem append_meta_inj (a b : String) (h : a ++ ".meta" = b ++ ".meta") :
    a = b := by
  have hd := (str_eq_iff_data _ _).mp h
  rw [String.data_append, String.data_append] at hd
  exact (str_eq_iff_data a b).mpr (List.append_cancel_right hd)

/-- The directory path Phase 2 computes for an entry name. -/
def dirPathOf (projectRootDir : List String) (r : String) : List String :=
  resolveRel (projectPackagesDir projectRootDir) r

/-- The sidecar `.meta` path Phase 2 computes for an entry name. -/
def metaPathOf (projectRootDir : List String) (r : String) : List String :=
  resolveRel (projectPackagesDir projectRootDir) (r ++ ".meta")

theorem validSeg_no_slash_decomp (r s c : String) (hr : validSeg r = true)
    (h : r = s ++ "/" ++ c) : False := by
  have h4 := ((validSeg_iff r).mp hr).2.2.2
  have : '/' ∈ r.data := by
    rw [h, data_append_slash]
    simp
  exact h4 '/' this rfl

theorem dirPathOf_plain (root : List String) (r : String) (hv : validSeg r = true) :
    dirPathOf root r = projectPackagesDir root ++ [r] :=
  resolveRel_valid _ _ hv

theorem metaPathOf_plain (root : List String) (r : String) (hv : validSeg r = true) :
    metaPathOf root r = projectPackagesDir root ++ [r ++ ".meta"] :=
  resolveRel_valid _ _ (validSeg_append r ".meta" hv (by decide) (by decide))

theorem dirPathOf_scoped (root : List String) (s c : String)
    (hs : validSeg s = true) (hc : validSeg c = true) :
    dirPathOf root (s ++ "/" ++ c) = projectPackagesDir root ++ [s, c] :=
  resolveRel_scoped _ _ _ hs hc

theorem metaPathOf_scoped (root : List String) (s c : String)
    (hs : validSeg s = true) (hc : validSeg c = true) :
    metaPathOf root (s ++ "/" ++ c)
      = projectPackagesDir root ++ [s, c ++ ".meta"] := by
  unfold metaPathOf
  rw [String.append_assoc]
  exact resolveRel_scoped _ _ _ hs
    (validSeg_append c ".meta" hc (by decide) (by decide))

theorem divergesB_under (base x y : List String)
    (h : FsTree.divergesB x y = true) :
    FsTree.divergesB (base ++ x) (base ++ y) = true := by
  rw [FsTree.divergesB_same_prefix]
  exact h

theorem divergesB_single (x y : String) (h : x ≠ y) :
    FsTree.divergesB [x] [y] = true := by
  simp [FsTree.divergesB, h]

theorem divergesB_one_two (x s c : String) (h : x ≠ s) :
    FsTree.divergesB [x] [s, c] = true := by
  simp [FsTree.divergesB, h]

theorem divergesB_two_one (s c x : String) (h : s ≠ x) :
    FsTree.divergesB [s, c] [x] = true := by
  simp [FsTree.divergesB, h]

theorem divergesB_two_two (s c s' c' : String) (h : s ≠ s' ∨ c ≠ c') :
    FsTree.divergesB [s, c] [s', c'] = true := by
  rcases h with h | h
  · simp [FsTree.divergesB, h]
  · by_cases hss : s = s'
    · subst hss; simp [FsTree.divergesB, h]
    · simp [FsTree.divergesB, hss]

/-- The directory path and the sidecar path of one entry always diverge. -/
theorem self_dir_meta_diverge (root : List String) (r : String)
    (h : listedName r) :
    FsTree.divergesB (dirPathOf root r) (metaPathOf root r) = true := by
  rcases h with ⟨hv, _⟩ | ⟨s, c, rfl, hs, _, hc⟩
  · rw [dirPathOf_plain root r hv, metaPathOf_plain root r hv]
    exact divergesB_under _ _ _ (divergesB_single _ _ (ne_append_meta r))
  · rw [dirPathOf_scoped root s c hs hc, metaPathOf_scoped root s c hs hc]
    exact divergesB_under _ _ _
      (divergesB_two_two _ _ _ _ (Or.inr (ne_append_meta c)))

theorem startsWithAt_meta (n : String) (hv : validSeg n = true)
    (c : Char) : startsWithAt (n ++ ".meta") c = startsWithAt n c :=
  startsWithAt_append n ".meta" c (data_ne_nil_of_validSeg n hv)

/-- Pairwise divergence of the four Phase 2 paths of two distinct listed
names, given that neither directory path coincides with the other's
sidecar path. -/
theorem paths_diverge (root : List String) (r r' : String)
    (hr : listedName r) (hr' : listedName r')
    (hne : r ≠ r')
    (hdm : dirPathOf root r ≠ metaPathOf root r')
    (hdm' : dirPathOf root r' ≠ metaPathOf root r) :
    FsTree.divergesB (dirPathOf root r) (dirPathOf root r') = true ∧
    FsTree.divergesB (dirPathOf root r) (metaPathOf root r') = true ∧
    FsTree.divergesB (metaPathOf root r) (dirPathOf root r') = true ∧
    FsTree.divergesB (metaPathOf root r) (metaPathOf root r') = true := by
  rcases hr with ⟨hv, hsw⟩ | ⟨s, c, rfl, hs, hsw, hc⟩
  · rcases hr' with ⟨hv', hsw'⟩ | ⟨s', c', rfl, hs', hsw', hc'⟩
    · -- plain / plain
      rw [dirPathOf_plain root r hv, metaPathOf_plain root r hv,
        dirPathOf_plain root r' hv', metaPathOf_plain root r' hv'] at *
      refine ⟨divergesB_under _ _ _ (divergesB_single _ _ hne), ?_, ?_, ?_⟩
      · refine divergesB_under _ _ _ (divergesB_single _ _ ?_)
        intro hcontra
        exact hdm (by rw [hcontra])
      · refine divergesB_under _ _ _ (divergesB_single _ _ ?_)
        intro hcontra
        exact hdm' (by rw [hcontra])
      · exact divergesB_under _ _ _
          (divergesB_single _ _ (fun hx => hne (append_meta_inj _ _ hx)))
    · -- plain / scoped
      rw [dirPathOf_plain root r hv, metaPathOf_plain root r hv,
        dirPathOf_scoped root s' c' hs' hc',
        metaPathOf_scoped root s' c' hs' hc'] at *
      have h1 : r ≠ s' := startsWithAt_ne_of_at r s' '@' hsw hsw'
      have h2 : r ++ ".meta" ≠ s' := by
        apply startsWithAt_ne_of_at _ _ '@' _ hsw'
        rw [startsWithAt_meta r hv]
        exact hsw
      exact ⟨divergesB_under _ _ _ (divergesB_one_two _ _ _ h1),
        divergesB_under _ _ _ (divergesB_one_two _ _ _ h1),
        divergesB_under _ _ _ (divergesB_one_two _ _ _ h2),
        divergesB_under _ _ _ (divergesB_one_two _ _ _ h2)⟩
  · rcases hr' with ⟨hv', hsw'⟩ | ⟨s', c', rfl, hs', hsw', hc'⟩
    · -- scoped / plain
      rw [dirPathOf_plain root r' hv', metaPathOf_plain root r' hv',
        dirPathOf_scoped root s c hs hc, metaPathOf_scoped root s c hs hc] at *
      have h1 : s ≠ r' := (startsWithAt_ne_of_at r' s '@' hsw' hsw).symm
      have h2 : s ≠ r' ++ ".meta" := by
        intro hx
        exact (startsWithAt_ne_of_at (r' ++ ".meta") s '@'
          (by rw [startsWithAt_meta r' hv']; exact hsw') hsw) hx.symm
      exact ⟨divergesB_under _ _ _ (divergesB_two_one _ _ _ h1),
        divergesB_under _ _ _ (divergesB_two_one _ _ _ h2),
        divergesB_under _ _ _ (divergesB_two_one _ _ _ h1),
        divergesB_under _ _ _ (divergesB_two_one _ _ _ h2)⟩
    · -- scoped / scoped
      rw [dirPathOf_scoped root s c hs hc, metaPathOf_scoped root s c hs hc,
        dirPathOf_scoped root s' c' hs' hc',
        metaPathOf_scoped root s' c' hs' hc'] at *
      by_cases hss : s = s'
      · subst hss
        have hcc : c ≠ c' := by
          intro hx
          exact hne (by rw [hx])
        refine ⟨divergesB_under _ _ _ (divergesB_two_two _ _ _ _ (Or.inr hcc)),
          ?_, ?_, ?_⟩
        · refine divergesB_under _ _ _ (divergesB_two_two _ _ _ _ (Or.inr ?_))
          intro hx
          exact hdm (by rw [hx])
        · refine divergesB_under _ _ _ (divergesB_two_two _ _ _ _ (Or.inr ?_))
          intro hx
          exact hdm' (by rw [hx])
        · exact divergesB_under _ _ _ (divergesB_two_two _ _ _ _
            (Or.inr (fun hx => hcc (append_meta_inj _ _ hx))))
      · exact ⟨divergesB_under _ _ _ (divergesB_two_two _ _ _ _ (Or.inl hss)),
          divergesB_under _ _ _ (divergesB_two_two _ _ _ _ (Or.inl hss)),
          divergesB_under _ _ _ (divergesB_two_two _ _ _ _ (Or.inl hss)),
          divergesB_under _ _ _ (divergesB_two_two _ _ _ _ (Or.inl hss))⟩

theorem childrenOk_dir (ds : List (String × FsTree))
    (h : childrenOk (FsTree.dir ds) = true) :
    (∀ e2 ∈ ds, validSeg e2.1 = true) ∧ (ds.map Prod.fst).Nodup := by
  simp only [childrenOk, Bool.and_eq_true, List.all_eq_true,
    decide_eq_true_eq] at h
  exact h

theorem entryListingSpec_shape (cs : List (String × FsTree))
    (hv : ∀ e ∈ cs, validSeg e.1 = true)
    (hscope : ∀ e ∈ cs, childrenOk e.2 = true)
    (r : String) (hr : r ∈ entryListingSpec cs) : listedName r := by
  rcases entryListingSpec_mem cs r hr with ⟨ds, hm, hsw⟩ |
    ⟨s, c, ds, ds2, rfl, hm, hsw, hm2⟩
  · exact Or.inl ⟨hv _ hm, hsw⟩
  · refine Or.inr ⟨s, c, rfl, hv _ hm, hsw, ?_⟩
    exact (childrenOk_dir ds (hscope _ hm)).1 _ hm2

theorem scoped_prefix_inj (n : String) :
    Function.Injective (fun c : String => n ++ "/" ++ c) := by
  intro a b hab
  simp only at hab
  have hd := (str_eq_iff_data _ _).mp hab
  rw [data_append_slash, data_append_slash] at hd
  have := List.append_cancel_left hd
  exact (str_eq_iff_data a b).mpr (by simpa using this)

theorem entryListingSpec_nodup (cs : List (String × FsTree))
    (hv : ∀ e ∈ cs, validSeg e.1 = true)
    (hn : (cs.map Prod.fst).Nodup)
    (hscope : ∀ e ∈ cs, childrenOk e.2 = true) :
    (entryListingSpec cs).Nodup := by
  induction cs with
  | nil => simp [entryListingSpec]
  | cons e rest ih =>
    obtain ⟨n, node⟩ := e
    rw [List.map_cons] at hn
    obtain ⟨hnn0, hnr⟩ := List.nodup_cons.mp hn
    have hnn : n ∉ List.map Prod.fst rest := hnn0
    have ihr := ih (fun x hx => hv x (by simp [hx])) hnr
      (fun x hx => hscope x (by simp [hx]))
    cases node with
    | file d => simpa [entryListingSpec] using ihr
    | dir ds =>
      simp only [entryListingSpec]
      refine List.Nodup.append ?_ ihr ?_
      · cases hsw : startsWithAt n '@' with
        | true =>
          rw [if_pos rfl]
          have hds := childrenOk_dir ds (hscope (n, FsTree.dir ds) (by simp))
          have hsubn : ((ds.filter (fun e2 => isDirNode e2.2)).map
              Prod.fst).Nodup :=
            List.Nodup.sublist (List.Sublist.map Prod.fst
              (List.filter_sublist ds)) hds.2
          have : (ds.filter (fun e2 => isDirNode e2.2)).map
                (fun e2 => n ++ "/" ++ e2.1)
              = ((ds.filter (fun e2 => isDirNode e2.2)).map Prod.fst).map
                (fun c => n ++ "/" ++ c) := by
            rw [List.map_map]
            rfl
          rw [this]
          exact List.Nodup.map (scoped_prefix_inj n) hsubn
        | false =>
          rw [if_neg (by simp)]
          simp
      · intro a ha hb
        rcases entryListingSpec_mem rest a hb with ⟨ds', hm', hsw'⟩ |
          ⟨s', c', ds', ds2', ha', hm', hsw', hm2'⟩
        · -- `a` is a plain entry of `rest`
          have hva : validSeg a = true := hv (a, FsTree.dir ds') (by simp [hm'])
          cases hsw : startsWithAt n '@' with
          | true =>
            rw [if_pos hsw] at ha
            obtain ⟨e2, _, hre⟩ := List.mem_map.mp ha
            exact validSeg_no_slash_decomp a n e2.1 hva hre.symm
          | false =>
            rw [if_neg (by rw [hsw]; simp)] at ha
            rcases List.mem_singleton.mp ha with rfl
            exact hnn (List.mem_map_of_mem Prod.fst hm')
        · -- `a` is a scoped entry of `rest`
          cases hsw : startsWithAt n '@' with
          | true =>
            rw [if_pos hsw] at ha
            obtain ⟨e2, he2, hre⟩ := List.mem_map.mp ha
            have hds := childrenOk_dir ds (hscope (n, FsTree.dir ds) (by simp))
            have hvc2 : validSeg e2.1 = true :=
              hds.1 _ (List.mem_of_mem_filter he2)
            have hvs' : validSeg s' = true :=
              hv (s', FsTree.dir ds') (by simp [hm'])
            have hvc' : validSeg c' = true :=
              (childrenOk_dir ds'
                (hscope (s', FsTree.dir ds') (by simp [hm']))).1 _ hm2'
            rw [ha'] at hre
            obtain ⟨hss, -⟩ := scoped_name_inj n e2.1 s' c'
              (hv (n, FsTree.dir ds) (by simp)) hvc2 hvs' hvc' hre
            rw [hss] at hnn
            exact hnn (List.mem_map_of_mem Prod.fst hm')
          | false =>
            rw [if_neg (by rw [hsw]; simp)] at ha
            rcases List.mem_singleton.mp ha with rfl
            exact validSeg_no_slash_decomp a s' c'
              (hv (a, FsTree.dir ds) (by simp)) ha'

theorem listed_isDir (root : List String) (w : FsTree)
    (cs : List (String × FsTree))
    (hp : w.lookup (projectPackagesDir root) = some (FsTree.dir cs))
    (hv : ∀ e ∈ cs, validSeg e.1 = true)
    (hn : (cs.map Prod.fst).Nodup)
    (hscope : ∀ e ∈ cs, childrenOk e.2 = true)
    (r : String) (hr : r ∈ entryListingSpec cs) :
    FsTree.isDirAt w (dirPathOf root r) = true := by
  rcases entryListingSpec_mem cs r hr with ⟨ds, hm, hsw⟩ |
    ⟨s, c, ds, ds2, rfl, hm, hsw, hm2⟩
  · rw [dirPathOf_plain root r (hv _ hm)]
    unfold FsTree.isDirAt
    rw [lookup_append_some w _ _ _ hp, lookup_dir_single,
      childLookup_of_mem_nodup cs (r, FsTree.dir ds) hm hn]
  · have hds := childrenOk_dir ds (hscope _ hm)
    have hvc : validSeg c = true := hds.1 _ hm2
    rw [dirPathOf_scoped root s c (hv _ hm) hvc]
    unfold FsTree.isDirAt
    rw [lookup_append_some w _ _ _ hp]
    have hcs := childLookup_of_mem_nodup cs (s, FsTree.dir ds) hm hn
    have hds2 := childLookup_of_mem_nodup ds (c, FsTree.dir ds2) hm2 hds.2
    simp [FsTree.lookup, hcs, hds2]

theorem guard_listed (root : List String) (r : String) (h : listedName r) :
    validateOk (pathString (dirPathOf root r)) = true := by
  rcases h with ⟨hv, _⟩ | ⟨s, c, rfl, hs, _, hc⟩
  · rw [dirPathOf_plain root r hv]
    exact validateOk_under_packages root [r]
  · rw [dirPathOf_scoped root s c hs hc]
    exact validateOk_under_packages root [s, c]

theorem dirPathOf_ne_nil (root : List String) (r : String) (h : listedName r) :
    dirPathOf root r ≠ [] := by
  rcases h with ⟨hv, _⟩ | ⟨s, c, rfl, hs, _, hc⟩
  · rw [dirPathOf_plain root r hv]; simp
  · rw [dirPathOf_scoped root s c hs hc]; simp

theorem metaPathOf_ne_nil (root : List String) (r : String) (h : listedName r) :
    metaPathOf root r ≠ [] := by
  rcases h with ⟨hv, _⟩ | ⟨s, c, rfl, hs, _, hc⟩
  · rw [metaPathOf_plain root r hv]; simp
  · rw [metaPathOf_scoped root s c hs hc]; simp

/-- Full behaviour of one Phase 2 removal iteration on a listed name:
it succeeds, leaves neither the entry directory nor its sidecar, never
creates anything, and touches nothing on diverging paths. -/
theorem phase2Remove_spec (root : List String) (r0 : String) (wi w : FsTree)
    (hsh : listedName r0)
    (hmetaOK : wi.lookup (metaPathOf root r0) = w.lookup (metaPathOf root r0) ∨
               wi.lookup (metaPathOf root r0) = none)
    (hmDir : FsTree.isDirAt w (metaPathOf root r0) = false) :
    ∃ w2, phase2Remove root r0 wi = Except.ok w2 ∧
      w2.lookup (dirPathOf root r0) = none ∧
      w2.lookup (metaPathOf root r0) = none ∧
      (∀ q, wi.lookup q = none → w2.lookup q = none) ∧
      (∀ q, FsTree.divergesB (dirPathOf root r0) q = true →
            FsTree.divergesB (metaPathOf root r0) q = true →
            w2.lookup q = wi.lookup q) := by
  have hguard := guard_listed root r0 hsh
  have hdm := self_dir_meta_diverge root r0 hsh
  have hdne := dirPathOf_ne_nil root r0 hsh
  have hmne := metaPathOf_ne_nil root r0 hsh
  have hw1 : ∀ q, FsTree.divergesB (dirPathOf root r0) q = true →
      (if FsTree.existsAt wi (dirPathOf root r0)
        then FsTree.removeAt wi (dirPathOf root r0) else wi).lookup q
        = wi.lookup q := fun q hq => removeIf_preserves wi _ q hq
  have hw1dir : (if FsTree.existsAt wi (dirPathOf root r0)
      then FsTree.removeAt wi (dirPathOf root r0) else wi).lookup
        (dirPathOf root r0) = none := by
    by_cases he : FsTree.existsAt wi (dirPathOf root r0)
    · rw [if_pos he]
      exact FsTree.lookup_removeAt_self wi _ hdne
    · rw [if_neg he]
      unfold FsTree.existsAt at he
      cases hl : wi.lookup (dirPathOf root r0) with
      | none => rfl
      | some t => rw [hl] at he; simp at he
  have hw1mono : ∀ q, wi.lookup q = none →
      (if FsTree.existsAt wi (dirPathOf root r0)
        then FsTree.removeAt wi (dirPathOf root r0) else wi).lookup q = none := by
    intro q hq
    by_cases he : FsTree.existsAt wi (dirPathOf root r0)
    · rw [if_pos he]; exact FsTree.lookup_removeAt_none wi _ q hq
    · rw [if_neg he]; exact hq
  set w1 := if FsTree.existsAt wi (dirPathOf root r0)
      then FsTree.removeAt wi (dirPathOf root r0) else wi with hw1def
  have hw1meta : w1.lookup (metaPathOf root r0)
      = wi.lookup (metaPathOf root r0) := hw1 _ hdm
  have hrun : phase2Remove root r0 wi
      = unlinkIfExists w1 (metaPathOf root r0) := by
    unfold phase2Remove
    simp only [dirPathOf, metaPathOf] at hguard hw1def ⊢
    rw [if_neg (by simp [hguard]), ← hw1def]
  cases hM : wi.lookup (metaPathOf root r0) with
  | none =>
    refine ⟨w1, ?_, ?_, ?_, ?_, ?_⟩
    · rw [hrun]
      unfold unlinkIfExists
      rw [hw1meta, hM]
    · exact hw1dir
    · rw [hw1meta, hM]
    · exact hw1mono
    · intro q hq _
      exact hw1 q hq
  | some t =>
    have ht : ∃ d, t = FsTree.file d := by
      rcases hmetaOK with horig | hnone
      · rw [hM] at horig
        unfold FsTree.isDirAt at hmDir
        rw [← horig] at hmDir
        cases t with
        | file d => exact ⟨d, rfl⟩
        | dir cs => simp at hmDir
      · rw [hM] at hnone; cases hnone
    obtain ⟨d, rfl⟩ := ht
    refine ⟨FsTree.removeAt w1 (metaPathOf root r0), ?_, ?_, ?_, ?_, ?_⟩
    · rw [hrun]
      unfold unlinkIfExists
      rw [hw1meta, hM]
    · rw [FsTree.lookup_removeAt_diverges _ _ _
        (by rw [FsTree.divergesB_symm]; exact hdm)]
      exact hw1dir
    · exact FsTree.lookup_removeAt_self w1 _ hmne
    · intro q hq
      exact FsTree.lookup_removeAt_none w1 _ q (hw1mono q hq)
    · intro q hq hq2
      rw [FsTree.lookup_removeAt_diverges _ _ _ hq2]
      exact hw1 q hq

/-- Full behaviour of the Phase 2 removal loop over a pending list of
redundant listed names. -/
theorem phase2Go_spec (root : List String) (depNames : List String)
    (w : FsTree) (listingAll : List String)
    (hshape : ∀ r ∈ listingAll, listedName r)
    (hmetaNE : ∀ r ∈ listingAll, ∀ r' ∈ listingAll,
      dirPathOf root r ≠ metaPathOf root r')
    (hmetaDir : ∀ r ∈ listingAll, FsTree.isDirAt w (metaPathOf root r) = false) :
    ∀ (R : List String) (wi : FsTree),
      (∀ r ∈ R, r ∈ listingAll ∧ r ∉ depNames) →
      R.Nodup →
      (∀ r ∈ R, wi.lookup (metaPathOf root r) = w.lookup (metaPathOf root r) ∨
                wi.lookup (metaPathOf root r) = none) →
      ∃ w', phase2Go root R wi = Except.ok w' ∧
        (∀ r ∈ R, w'.lookup (dirPathOf root r) = none ∧
                  w'.lookup (metaPathOf root r) = none) ∧
        (∀ q, wi.lookup q = none → w'.lookup q = none) ∧
        (∀ r' ∈ listingAll, r' ∉ R →
          w'.lookup (dirPathOf root r') = wi.lookup (dirPathOf root r') ∧
          w'.lookup (metaPathOf root r') = wi.lookup (metaPathOf root r')) ∧
        (∀ q, (∀ r ∈ R, FsTree.divergesB (dirPathOf root r) q = true ∧
            FsTree.divergesB (metaPathOf root r) q = true) →
          w'.lookup q = wi.lookup q) := by
  intro R
  induction R with
  | nil =>
    intro wi _ _ _
    exact ⟨wi, rfl, by simp, fun q hq => hq, fun r' _ _ => ⟨rfl, rfl⟩,
      fun q _ => rfl⟩
  | cons r0 R' ih =>
    intro wi hsub hnd hinv
    obtain ⟨hr0all, hr0dep⟩ := hsub r0 (by simp)
    obtain ⟨hr0R', hndR'⟩ := List.nodup_cons.mp hnd
    obtain ⟨w2, hstep, hdir0, hmeta0, hmono2, hfar2⟩ :=
      phase2Remove_spec root r0 wi w (hshape r0 hr0all)
        (hinv r0 (by simp)) (hmetaDir r0 hr0all)
    -- divergence of the four paths of `r0` against any other listed name
    have hpck : ∀ r' ∈ listingAll, r' ≠ r0 →
        FsTree.divergesB (dirPathOf root r0) (dirPathOf root r') = true ∧
        FsTree.divergesB (dirPathOf root r0) (metaPathOf root r') = true ∧
        FsTree.divergesB (metaPathOf root r0) (dirPathOf root r') = true ∧
        FsTree.divergesB (metaPathOf root r0) (metaPathOf root r') = true := by
      intro r' hr'all hne
      exact paths_diverge root r0 r' (hshape r0 hr0all) (hshape r' hr'all)
        (fun hx => hne hx.symm)
        (hmetaNE r0 hr0all r' hr'all) (hmetaNE r' hr'all r0 hr0all)
    have hpres2 : ∀ r' ∈ listingAll, r' ≠ r0 →
        w2.lookup (dirPathOf root r') = wi.lookup (dirPathOf root r') ∧
        w2.lookup (metaPathOf root r') = wi.lookup (metaPathOf root r') := by
      intro r' hr'all hne
      obtain ⟨d1, d2, d3, d4⟩ := hpck r' hr'all hne
      exact ⟨hfar2 _ d1 d3, hfar2 _ d2 d4⟩
    have hinv' : ∀ r ∈ R',
        w2.lookup (metaPathOf root r) = w.lookup (metaPathOf root r) ∨
        w2.lookup (metaPathOf root r) = none := by
      intro r hrR'
      have hne : r ≠ r0 := fun hx => hr0R' (hx ▸ hrR')
      rw [(hpres2 r (hsub r (by simp [hrR'])).1 hne).2]
      exact hinv r (by simp [hrR'])
    obtain ⟨w', hgo, hnoneR', hmono', hpres', hfar'⟩ :=
      ih w2 (fun r hr => hsub r (by simp [hr])) hndR' hinv'
    refine ⟨w', ?_, ?_, ?_, ?_, ?_⟩
    · simp only [phase2Go, hstep]
      exact hgo
    · intro r hr
      rcases List.mem_cons.mp hr with rfl | hrR'
      · exact ⟨hmono' _ hdir0, hmono' _ hmeta0⟩
      · exact hnoneR' r hrR'
    · intro q hq
      exact hmono' q (hmono2 q hq)
    · intro r' hr'all hr'nin
      have hne : r' ≠ r0 := fun hx => hr'nin (by simp [hx])
      have hninR' : r' ∉ R' := fun hx => hr'nin (by simp [hx])
      obtain ⟨hp1, hp2⟩ := hpres' r' hr'all hninR'
      obtain ⟨hq1, hq2⟩ := hpres2 r' hr'all hne
      exact ⟨hp1.trans hq1, hp2.trans hq2⟩
    · intro q hq
      have hq0 := hq r0 (by simp)
      rw [hfar' q (fun r hr => hq r (by simp [hr]))]
      exact hfar2 q hq0.1 hq0.2

/-- C5: over a well-formed packages directory (valid, duplicate-free
names, and no directory sitting at any sidecar path), Phase 2 succeeds;
afterwards every effective entry whose name is not in the declared set
has neither its directory nor its `.meta` sidecar, while every entry
whose name is declared keeps both its directory subtree and its sidecar
exactly as they were. -/
theorem claim_C5_redundant_removal (projectRootDir depNames : List String)
    (w : FsTree) (cs : List (String × FsTree))
    (hp : w.lookup (projectPackagesDir projectRootDir) = some (FsTree.dir cs))
    (hv : ∀ e ∈ cs, validSeg e.1 = true)
    (hn : (cs.map Prod.fst).Nodup)
    (hscope : ∀ e ∈ cs, childrenOk e.2 = true)
    (hmeta : ∀ r ∈ entryListingSpec cs,
      FsTree.isDirAt w (metaPathOf projectRootDir r) = false) :
    ∃ w', phase2Run projectRootDir depNames w = Except.ok w' ∧
      (∀ r ∈ entryListingSpec cs, r ∉ depNames →
        FsTree.existsAt w' (dirPathOf projectRootDir r) = false ∧
        FsTree.existsAt w' (metaPathOf projectRootDir r) = false) ∧
      (∀ r ∈ entryListingSpec cs, r ∈ depNames →
        w'.lookup (dirPathOf projectRootDir r)
          = w.lookup (dirPathOf projectRootDir r) ∧
        w'.lookup (metaPathOf projectRootDir r)
          = w.lookup (metaPathOf projectRootDir r)) := by
  have hlist := getProjectPackageListing_spec w (projectPackagesDir projectRootDir)
    cs hp hv hn hscope
  have hshape' : ∀ r ∈ entryListingSpec cs, listedName r :=
    fun r hr => entryListingSpec_shape cs hv hscope r hr
  have hmetaNE : ∀ r ∈ entryListingSpec cs, ∀ r' ∈ entryListingSpec cs,
      dirPathOf projectRootDir r ≠ metaPathOf projectRootDir r' := by
    intro r hr r' hr' heq
    have h1 := listed_isDir projectRootDir w cs hp hv hn hscope r hr
    rw [heq, hmeta r' hr'] at h1
    cases h1
  have hRsub : ∀ r ∈ (entryListingSpec cs).filter
      (fun packageName => ¬ (depNames.contains packageName)),
      r ∈ entryListingSpec cs ∧ r ∉ depNames := by
    intro r hr
    obtain ⟨hm, hpred⟩ := List.mem_filter.mp hr
    refine ⟨hm, ?_⟩
    simpa using hpred
  have hRnodup : ((entryListingSpec cs).filter
      (fun packageName => ¬ (depNames.contains packageName))).Nodup :=
    (entryListingSpec_nodup cs hv hn hscope).filter _
  obtain ⟨w', hgo, hnone, _, hpres, _⟩ :=
    phase2Go_spec projectRootDir depNames w (entryListingSpec cs)
      hshape' hmetaNE hmeta _ w hRsub hRnodup
      (fun r _ => Or.inl rfl)
  refine ⟨w', ?_, ?_, ?_⟩
  · unfold phase2Run
    rw [hlist]
    exact hgo
  · intro r hr hdep
    have hrR : r ∈ (entryListingSpec cs).filter
        (fun packageName => ¬ (depNames.contains packageName)) :=
      List.mem_filter.mpr ⟨hr, by simpa using hdep⟩
    obtain ⟨h1, h2⟩ := hnone r hrR
    unfold FsTree.existsAt
    rw [h1, h2]
    exact ⟨rfl, rfl⟩
  · intro r hr hdep
    have hrnR : r ∉ (entryListingSpec cs).filter
        (fun packageName => ¬ (depNames.contains packageName)) := by
      intro hx
      exact (hRsub r hx).2 hdep
    exact hpres r hr hrnR

/-- A packages directory holding entries `A`, `B`, `C` with a sidecar
file for `B`, used with declared set `{A, C}`. -/
def pkgsE : List (String × FsTree) :=
  [("A", FsTree.dir [("a.cs", FsTree.file (FileData.raw "a"))]),
   ("B", FsTree.dir [("b.cs", FsTree.file (FileData.raw "b"))]),
   ("B.meta", FsTree.file (FileData.raw "m")),
   ("C", FsTree.dir [])]

/-- A world holding `pkgsE` at the packages directory of root `[]`. -/
def worldE : FsTree :=
  FsTree.dir [("Assets", FsTree.dir [("Plugins", FsTree.dir [
    ("Packages", FsTree.dir pkgsE)])])]

/-- Witness for C5: with destination entries `{A, B, C}` and declared
set `{A, C}`, Phase 2 succeeds, `B` and `B.meta` are gone, and `A` keeps
its subtree. -/
theorem claim_C5_redundant_removal_witness :
    ∃ w', phase2Run [] ["A", "C"] worldE = Except.ok w' ∧
      FsTree.existsAt w' (dirPathOf [] "B") = false ∧
      FsTree.existsAt w' (metaPathOf [] "B") = false ∧
      w'.lookup (dirPathOf [] "A") = worldE.lookup (dirPathOf [] "A") := by
  obtain ⟨w', hrun, hred, hkept⟩ :=
    claim_C5_redundant_removal [] ["A", "C"] worldE pkgsE rfl
      (by decide) (by decide) (by decide) (by decide)
  refine ⟨w', hrun, ?_, ?_, ?_⟩
  · exact (hred "B" (by decide) (by decide)).1
  · exact (hred "B" (by decide) (by decide)).2
  · exact (hkept "A" (by decide) (by decide)).1

/-! ## Factoring lemmas: operations below a path act on the subtree -/

namespace FsTree

theorem lookup_cons_some (cs : List (String × FsTree)) (h : String)
    (q : List String) (c : FsTree) (hc : childLookup cs h = some c) :
    (dir cs).lookup (h :: q) = c.lookup q := by
  simp [lookup, hc]

theorem lookup_cons_none (cs : List (String × FsTree)) (h : String)
    (q : List String) (hc : childLookup cs h = none) :
    (dir cs).lookup (h :: q) = none := by
  simp [lookup, hc]

theorem setAt_factor (p x : List String) (v w : FsTree) :
    (setAt w (p ++ x) v).lookup p
      = some (setAt ((w.lookup p).getD (dir [])) x v) := by
  induction p generalizing w with
  | nil => simp [lookup]
  | cons h p' ih =>
    cases w with
    | file d =>
      rw [List.cons_append]
      show (dir [(h, setAt (dir []) (p' ++ x) v)]).lookup (h :: p') = _
      rw [lookup_cons_some _ _ _ _ (childLookup_singleton_self h _), ih (dir [])]
      rw [show (file d).lookup (h :: p') = none from rfl]
      cases p' with
      | nil => rfl
      | cons p0 ps =>
        rw [lookup_cons_none [] p0 ps rfl]
    | dir cs =>
      rw [List.cons_append]
      cases hc : childLookup cs h with
      | some c =>
        have harm : setAt (dir cs) (h :: (p' ++ x)) v
            = dir (childSet cs h (setAt c (p' ++ x) v)) := by
          simp [setAt, hc]
        rw [harm, lookup_cons_some _ _ _ _ (childLookup_childSet_self cs h _),
          ih c, lookup_cons_some _ _ _ _ hc]
      | none =>
        have harm : setAt (dir cs) (h :: (p' ++ x)) v
            = dir (cs ++ [(h, setAt (dir []) (p' ++ x) v)]) := by
          simp [setAt, hc]
        rw [harm, lookup_cons_some _ _ _ _
          (by rw [childLookup_append_of_none _ _ _ hc]
              exact childLookup_singleton_self h _), ih (dir []),
          lookup_cons_none _ _ _ hc]
        cases p' with
        | nil => rfl
        | cons p0 ps =>
          rw [lookup_cons_none [] p0 ps rfl]

theorem removeAt_factor (p x : List String) (w : FsTree) (hx : x ≠ []) :
    (removeAt w (p ++ x)).lookup p
      = (w.lookup p).map (fun t => removeAt t x) := by
  obtain ⟨z, zs, hpx0⟩ : ∃ z zs, x = z :: zs := by
    cases x with
    | nil => exact absurd rfl hx
    | cons z zs => exact ⟨z, zs, rfl⟩
  subst hpx0
  induction p generalizing w with
  | nil => simp [lookup]
  | cons h p' ih =>
    obtain ⟨y, ys, hpy⟩ : ∃ y ys, p' ++ z :: zs = y :: ys := by
      cases hc0 : p' ++ z :: zs with
      | nil => exact absurd (List.append_eq_nil.mp hc0).2 (by simp)
      | cons y ys => exact ⟨y, ys, rfl⟩
    cases w with
    | file d =>
      rw [List.cons_append, hpy]
      show (file d).lookup (h :: p') = _
      rw [show (file d).lookup (h :: p') = none from rfl]
      rfl
    | dir cs =>
      rw [List.cons_append]
      cases hc : childLookup cs h with
      | some c =>
        rw [hpy]
        show (removeAt (dir cs) (h :: y :: ys)).lookup (h :: p') = _
        have harm : removeAt (dir cs) (h :: y :: ys)
            = dir (childSet cs h (removeAt c (y :: ys))) := by
          simp [removeAt, hc]
        rw [harm, lookup_cons_some _ _ _ _ (childLookup_childSet_self cs h _),
          ← hpy, ih c, lookup_cons_some _ _ _ _ hc]
      | none =>
        rw [hpy]
        have harm : removeAt (dir cs) (h :: y :: ys) = dir cs := by
          simp [removeAt, hc]
        rw [harm, lookup_cons_none _ _ _ hc]
        rfl

end FsTree

/-! ## Global well-formedness of a filesystem tree -/

mutual
/-- Every directory in the tree has valid, duplicate-free child names
(true of any tree a real filesystem can hold). -/
def wfTreeB : FsTree → Bool
  | FsTree.file _ => true
  | FsTree.dir cs => wfChildrenB cs && decide ((cs.map Prod.fst).Nodup)
/-- Well-formedness of a children list. -/
def wfChildrenB : List (String × FsTree) → Bool
  | [] => true
  | (n, c) :: rest => validSeg n && wfTreeB c && wfChildrenB rest
end

theorem wfChildrenB_iff (cs : List (String × FsTree)) :
    wfChildrenB cs = true ↔
      ∀ e ∈ cs, validSeg e.1 = true ∧ wfTreeB e.2 = true := by
  induction cs with
  | nil => simp [wfChildrenB]
  | cons e rest ih =>
    obtain ⟨n, c⟩ := e
    simp [wfChildrenB, ih, Bool.and_eq_true, and_assoc]

theorem wfTreeB_dir (cs : List (String × FsTree)) :
    wfTreeB (FsTree.dir cs) = true ↔
      (∀ e ∈ cs, validSeg e.1 = true ∧ wfTreeB e.2 = true) ∧
      (cs.map Prod.fst).Nodup := by
  simp [wfTreeB, wfChildrenB_iff]

theorem childLookup_mem (cs : List (String × FsTree)) (n : String) (c : FsTree)
    (h : FsTree.childLookup cs n = some c) : (n, c) ∈ cs := by
  induction cs with
  | nil => simp [FsTree.childLookup] at h
  | cons e rest ih =>
    obtain ⟨m, x⟩ := e
    by_cases hm : m = n
    · subst hm
      simp only [FsTree.childLookup, if_pos rfl] at h
      cases h
      simp
    · simp only [FsTree.childLookup, if_neg hm] at h
      simp [ih h]

theorem childLookup_none_not_mem (cs : List (String × FsTree)) (n : String)
    (h : FsTree.childLookup cs n = none) : n ∉ cs.map Prod.fst := by
  induction cs with
  | nil => simp
  | cons e rest ih =>
    obtain ⟨m, x⟩ := e
    by_cases hm : m = n
    · subst hm; simp [FsTree.childLookup] at h
    · simp only [FsTree.childLookup, if_neg hm] at h
      have hnm : ¬ n = m := fun he => hm he.symm
      simp [ih h, hnm]

theorem wfTreeB_lookup (w : FsTree) (p : List String) (t : FsTree)
    (hw : wfTreeB w = true) (h : w.lookup p = some t) : wfTreeB t = true := by
  induction p generalizing w with
  | nil =>
    have ht : t = w := by
      have : some w = some t := by
        calc some w = w.lookup [] := by cases w <;> rfl
          _ = some t := h
      exact (Option.some.inj this).symm
    subst ht; exact hw
  | cons n rest ih =>
    cases w with
    | file d => simp [FsTree.lookup] at h
    | dir cs =>
      cases hc : FsTree.childLookup cs n with
      | none => rw [FsTree.lookup_cons_none _ _ _ hc] at h; cases h
      | some c =>
        rw [FsTree.lookup_cons_some _ _ _ _ hc] at h
        have hcwf : wfTreeB c = true :=
          (((wfTreeB_dir cs).mp hw).1 (n, c) (childLookup_mem _ _ _ hc)).2
        exact ih c hcwf h

theorem childSet_names_of_some (cs : List (String × FsTree)) (n : String)
    (v c : FsTree) (h : FsTree.childLookup cs n = some c) :
    (FsTree.childSet cs n v).map Prod.fst = cs.map Prod.fst := by
  induction cs with
  | nil => simp [FsTree.childLookup] at h
  | cons e rest ih =>
    obtain ⟨m, x⟩ := e
    by_cases hm : m = n
    · subst hm
      simp [FsTree.childSet]
    · simp only [FsTree.childLookup, if_neg hm] at h
      simp [FsTree.childSet, hm, ih h]

theorem childSet_names_of_none (cs : List (String × FsTree)) (n : String)
    (v : FsTree) (h : FsTree.childLookup cs n = none) :
    (FsTree.childSet cs n v).map Prod.fst = cs.map Prod.fst ++ [n] := by
  induction cs with
  | nil => simp [FsTree.childSet]
  | cons e rest ih =>
    obtain ⟨m, x⟩ := e
    by_cases hm : m = n
    · subst hm; simp [FsTree.childLookup] at h
    · simp only [FsTree.childLookup, if_neg hm] at h
      simp [FsTree.childSet, hm, ih h]

theorem childSet_mem (cs : List (String × FsTree)) (n : String) (v : FsTree)
    (e : String × FsTree) (he : e ∈ FsTree.childSet cs n v) :
    e ∈ cs ∨ e = (n, v) := by
  induction cs with
  | nil => simpa [FsTree.childSet] using he
  | cons e0 rest ih =>
    obtain ⟨m, x⟩ := e0
    by_cases hm : m = n
    · subst hm
      simp only [FsTree.childSet, if_pos rfl] at he
      rcases List.mem_cons.mp he with rfl | hin
      · exact Or.inr rfl
      · exact Or.inl (by simp [hin])
    · simp only [FsTree.childSet, if_neg hm] at he
      rcases List.mem_cons.mp he with rfl | hin
      · exact Or.inl (by simp)
      · rcases ih hin with h1 | h2
        · exact Or.inl (by simp [h1])
        · exact Or.inr h2

theorem childRemove_mem (cs : List (String × FsTree)) (n : String)
    (e : String × FsTree) (he : e ∈ FsTree.childRemove cs n) : e ∈ cs := by
  induction cs with
  | nil => simp [FsTree.childRemove] at he
  | cons e0 rest ih =>
    obtain ⟨m, x⟩ := e0
    by_cases hm : m = n
    · rw [show FsTree.childRemove ((m, x) :: rest) n = FsTree.childRemove rest n
        from by simp [FsTree.childRemove, hm]] at he
      exact by simp [ih he]
    · rw [show FsTree.childRemove ((m, x) :: rest) n
          = (m, x) :: FsTree.childRemove rest n
        from by simp [FsTree.childRemove, hm]] at he
      rcases List.mem_cons.mp he with rfl | hin
      · simp
      · simp [ih hin]

theorem childRemove_names_sublist (cs : List (String × FsTree)) (n : String) :
    ((FsTree.childRemove cs n).map Prod.fst).Sublist (cs.map Prod.fst) := by
  induction cs with
  | nil => simp [FsTree.childRemove]
  | cons e0 rest ih =>
    obtain ⟨m, x⟩ := e0
    by_cases hm : m = n
    · rw [show FsTree.childRemove ((m, x) :: rest) n = FsTree.childRemove rest n
        from by simp [FsTree.childRemove, hm]]
      exact List.Sublist.trans ih (List.sublist_cons_self _ _)
    · rw [show FsTree.childRemove ((m, x) :: rest) n
          = (m, x) :: FsTree.childRemove rest n
        from by simp [FsTree.childRemove, hm]]
      simpa using List.Sublist.cons₂ m ih

theorem wfTreeB_setAt (w v : FsTree) (p : List String)
    (hw : wfTreeB w = true) (hv : wfTreeB v = true)
    (hp : ∀ s ∈ p, validSeg s = true) : wfTreeB (FsTree.setAt w p v) = true := by
  induction p generalizing w with
  | nil => cases w <;> exact hv
  | cons n rest ih =>
    have hn : validSeg n = true := hp n (by simp)
    have hrest : ∀ s ∈ rest, validSeg s = true :=
      fun s hs => hp s (by simp [hs])
    have hwnil : wfTreeB (FsTree.dir []) = true := by decide
    cases w with
    | file d =>
      show wfTreeB (FsTree.dir [(n, FsTree.setAt (FsTree.dir []) rest v)]) = true
      refine (wfTreeB_dir _).mpr ⟨?_, by simp⟩
      intro e he
      rcases List.mem_singleton.mp he with rfl
      exact ⟨hn, ih (FsTree.dir []) hwnil hrest⟩
    | dir cs =>
      obtain ⟨hall, hnd⟩ := (wfTreeB_dir cs).mp hw
      cases hc : FsTree.childLookup cs n with
      | some c =>
        have harm : FsTree.setAt (FsTree.dir cs) (n :: rest) v
            = FsTree.dir (FsTree.childSet cs n (FsTree.setAt c rest v)) := by
          simp [FsTree.setAt, hc]
        rw [harm]
        refine (wfTreeB_dir _).mpr ⟨?_, ?_⟩
        · intro e he
          rcases childSet_mem _ _ _ _ he with h1 | rfl
          · exact hall e h1
          · exact ⟨hn, ih c (hall (n, c) (childLookup_mem _ _ _ hc)).2 hrest⟩
        · rw [childSet_names_of_some _ _ _ _ hc]
          exact hnd
      | none =>
        have harm : FsTree.setAt (FsTree.dir cs) (n :: rest) v
            = FsTree.dir (cs ++ [(n, FsTree.setAt (FsTree.dir []) rest v)]) := by
          simp [FsTree.setAt, hc]
        rw [harm]
        refine (wfTreeB_dir _).mpr ⟨?_, ?_⟩
        · intro e he
          rcases List.mem_append.mp he with h1 | h2
          · exact hall e h1
          · rcases List.mem_singleton.mp h2 with rfl
            exact ⟨hn, ih (FsTree.dir []) hwnil hrest⟩
        · rw [List.map_append]
          refine List.Nodup.append hnd (by simp) ?_
          intro a ha hb
          rcases List.mem_singleton.mp hb with rfl
          exact childLookup_none_not_mem cs a hc ha

theorem wfTreeB_removeAt (w : FsTree) (p : List String)
    (hw : wfTreeB w = true) : wfTreeB (FsTree.removeAt w p) = true := by
  induction p generalizing w with
  | nil => cases w <;> exact hw
  | cons n rest ih =>
    cases w with
    | file d => exact hw
    | dir cs =>
      obtain ⟨hall, hnd⟩ := (wfTreeB_dir cs).mp hw
      cases rest with
      | nil =>
        show wfTreeB (FsTree.dir (FsTree.childRemove cs n)) = true
        refine (wfTreeB_dir _).mpr ⟨?_, ?_⟩
        · intro e he
          exact hall e (childRemove_mem _ _ _ he)
        · exact List.Nodup.sublist (childRemove_names_sublist cs n) hnd
      | cons r2 rs =>
        cases hc : FsTree.childLookup cs n with
        | some c =>
          have harm : FsTree.removeAt (FsTree.dir cs) (n :: r2 :: rs)
              = FsTree.dir (FsTree.childSet cs n
                  (FsTree.removeAt c (r2 :: rs))) := by
            simp [FsTree.removeAt, hc]
          rw [harm]
          refine (wfTreeB_dir _).mpr ⟨?_, ?_⟩
          · intro e he
            rcases childSet_mem _ _ _ _ he with h1 | rfl
            · exact hall e h1
            · refine ⟨(hall (n, c) (childLookup_mem _ _ _ hc)).1, ?_⟩
              exact ih c (hall (n, c) (childLookup_mem _ _ _ hc)).2
          · rw [childSet_names_of_some _ _ _ _ hc]
            exact hnd
        | none =>
          have harm : FsTree.removeAt (FsTree.dir cs) (n :: r2 :: rs)
              = FsTree.dir cs := by
            simp [FsTree.removeAt, hc]
          rw [harm]
          exact hw

theorem childrenOk_of_wfTreeB (t : FsTree) (h : wfTreeB t = true) :
    childrenOk t = true := by
  cases t with
  | file d => rfl
  | dir cs =>
    obtain ⟨hall, hnd⟩ := (wfTreeB_dir cs).mp h
    simp only [childrenOk, Bool.and_eq_true, List.all_eq_true,
      decide_eq_true_eq]
    exact ⟨fun e he => (hall e he).1, hnd⟩

/-! ## Monotonicity of directory existence under removals -/

namespace FsTree

theorem prefix_or_diverge (p q : List String) :
    divergesB p q = true ∨ (∃ x, q = p ++ x) ∨ (∃ x, p = q ++ x) := by
  induction p generalizing q with
  | nil => exact Or.inr (Or.inl ⟨q, rfl⟩)
  | cons a as ih =>
    cases q with
    | nil => exact Or.inr (Or.inr ⟨a :: as, rfl⟩)
    | cons b bs =>
      by_cases hab : a = b
      · subst hab
        rcases ih bs with h | ⟨x, rfl⟩ | ⟨x, hx⟩
        · exact Or.inl (by simpa [divergesB] using h)
        · exact Or.inr (Or.inl ⟨x, rfl⟩)
        · exact Or.inr (Or.inr ⟨x, by rw [hx]; rfl⟩)
      · exact Or.inl (by simp [divergesB, hab])

theorem removeAt_nil_eq (w : FsTree) : removeAt w [] = w := by
  cases w <;> rfl

theorem removeAt_dir_shape (cs : List (String × FsTree)) (x : List String)
    (hx : x ≠ []) : ∃ cs', removeAt (dir cs) x = dir cs' := by
  cases x with
  | nil => exact absurd rfl hx
  | cons n rest =>
    cases rest with
    | nil => exact ⟨childRemove cs n, rfl⟩
    | cons r2 rs =>
      cases hc : childLookup cs n with
      | some c => exact ⟨childSet cs n (removeAt c (r2 :: rs)),
          by simp [removeAt, hc]⟩
      | none => exact ⟨cs, by simp [removeAt, hc]⟩

theorem lookup_removeAt_inv (w : FsTree) (p q : List String) (t : FsTree)
    (h : (removeAt w p).lookup q = some t) :
    ∃ t0 x, w.lookup q = some t0 ∧ t = removeAt t0 x := by
  rcases prefix_or_diverge p q with hd | ⟨x, rfl⟩ | ⟨x, hp⟩
  · rw [lookup_removeAt_diverges _ _ _ hd] at h
    exact ⟨t, [], h, (removeAt_nil_eq t).symm⟩
  · by_cases hp : p = []
    · subst hp
      rw [removeAt_nil_eq] at h
      exact ⟨t, [], h, (removeAt_nil_eq t).symm⟩
    · rw [lookup_append, lookup_removeAt_self w p hp] at h
      cases h
  · by_cases hx : x = []
    · subst hx
      rw [List.append_nil] at hp
      rw [hp] at h
      by_cases hq : q = []
      · subst hq
        rw [removeAt_nil_eq] at h
        exact ⟨t, [], h, (removeAt_nil_eq t).symm⟩
      · rw [lookup_removeAt_self w q hq] at h
        cases h
    · rw [hp, removeAt_factor q x w hx] at h
      cases hl : w.lookup q with
      | none => rw [hl] at h; cases h
      | some t0 =>
        rw [hl] at h
        simp only [Option.map_some'] at h
        exact ⟨t0, x, rfl, (Option.some.inj h).symm⟩

theorem isDirAt_removeAt_mono (w : FsTree) (p q : List String)
    (h : isDirAt (removeAt w p) q = true) : isDirAt w q = true := by
  unfold isDirAt at h ⊢
  cases hl : (removeAt w p).lookup q with
  | none => rw [hl] at h; cases h
  | some t =>
    rw [hl] at h
    cases t with
    | file d => cases h
    | dir cs =>
      obtain ⟨t0, x, hl0, hrm⟩ := lookup_removeAt_inv w p q _ hl
      rw [hl0]
      cases t0 with
      | dir cs0 => rfl
      | file d0 =>
        exfalso
        cases x with
        | nil => cases hrm
        | cons a as => cases hrm

/-- A successful lookup below a nonempty extension forces a directory
at the shorter path. -/
theorem lookup_prefix_dir (w : FsTree) (p q : List String) (t : FsTree)
    (hq : q ≠ []) (h : w.lookup (p ++ q) = some t) :
    ∃ cs, w.lookup p = some (dir cs) := by
  rw [lookup_append] at h
  cases hl : w.lookup p with
  | none => rw [hl] at h; cases h
  | some t0 =>
    rw [hl] at h
    cases t0 with
    | dir cs => exact ⟨cs, rfl⟩
    | file d =>
      cases q with
      | nil => exact absurd rfl hq
      | cons a as => simp [lookup] at h

end FsTree

theorem unlinkIfExists_isDir_mono (wi w' : FsTree) (p q : List String)
    (h : unlinkIfExists wi p = Except.ok w')
    (hd : FsTree.isDirAt w' q = true) : FsTree.isDirAt wi q = true := by
  unfold unlinkIfExists at h
  cases hl : wi.lookup p with
  | none =>
    rw [hl] at h
    cases h
    exact hd
  | some t =>
    cases t with
    | file d =>
      rw [hl] at h
      cases h
      exact FsTree.isDirAt_removeAt_mono wi p q hd
    | dir cs => rw [hl] at h; cases h

theorem phase2Remove_isDir_mono (root : List String) (r : String)
    (wi w' : FsTree) (h : phase2Remove root r wi = Except.ok w') (q : List String)
    (hd : FsTree.isDirAt w' q = true) : FsTree.isDirAt wi q = true := by
  unfold phase2Remove at h
  by_cases hg : validateOk (pathString
      (resolveRel (projectPackagesDir root) r)) = true
  · rw [if_neg (by simp [hg])] at h
    have hmid := unlinkIfExists_isDir_mono _ _ _ q h hd
    by_cases he : FsTree.existsAt wi (resolveRel (projectPackagesDir root) r)
    · rw [if_pos he] at hmid
      exact FsTree.isDirAt_removeAt_mono wi _ q hmid
    · rw [if_neg he] at hmid
      exact hmid
  · rw [if_pos (by simp [hg])] at h
    cases h

theorem phase2Go_isDir_mono (root : List String) (R : List String)
    (wi w' : FsTree) (h : phase2Go root R wi = Except.ok w') (q : List String)
    (hd : FsTree.isDirAt w' q = true) : FsTree.isDirAt wi q = true := by
  induction R generalizing wi with
  | nil =>
    cases h
    exact hd
  | cons r R' ih =>
    unfold phase2Go at h
    cases hstep : phase2Remove root r wi with
    | error e => rw [hstep] at h; cases h
    | ok wmid =>
      rw [hstep] at h
      exact phase2Remove_isDir_mono root r wi wmid hstep q (ih wmid h)

theorem phase3Prune_isDir_mono (root : List String) (s : String)
    (wi w' : FsTree) (h : phase3Prune root s wi = Except.ok w') (q : List String)
    (hd : FsTree.isDirAt w' q = true) : FsTree.isDirAt wi q = true := by
  unfold phase3Prune at h
  by_cases hg : validateOk (pathString
      (resolveRel (projectPackagesDir root) s)) = true
  · rw [if_neg (by simp [hg])] at h
    by_cases he : isEmptySyncAt wi (resolveRel (projectPackagesDir root) s) = true
    · rw [if_pos he] at h
      have hmid := unlinkIfExists_isDir_mono _ _ _ q h hd
      exact FsTree.isDirAt_removeAt_mono wi _ q hmid
    · rw [if_neg he] at h
      cases h
      exact hd
  · rw [if_pos (by simp [hg])] at h
    cases h

theorem phase3Go_isDir_mono (root : List String) (S : List String)
    (wi w' : FsTree) (h : phase3Go root S wi = Except.ok w') (q : List String)
    (hd : FsTree.isDirAt w' q = true) : FsTree.isDirAt wi q = true := by
  induction S generalizing wi with
  | nil =>
    cases h
    exact hd
  | cons s S' ih =>
    unfold phase3Go at h
    cases hstep : phase3Prune root s wi with
    | error e => rw [hstep] at h; cases h
    | ok wmid =>
      rw [hstep] at h
      exact phase3Prune_isDir_mono root s wi wmid hstep q (ih wmid h)

/-! ## The packages directory stays a directory through Phase 3 -/

theorem removeAt_below_keeps_dir (wi : FsTree) (P x : List String)
    (cs : List (String × FsTree)) (hx : x ≠ [])
    (hp : wi.lookup P = some (FsTree.dir cs)) :
    ∃ cs', (FsTree.removeAt wi (P ++ x)).lookup P = some (FsTree.dir cs') := by
  rw [FsTree.removeAt_factor P x wi hx, hp]
  obtain ⟨cs', hshape⟩ := FsTree.removeAt_dir_shape cs x hx
  exact ⟨cs', by simp [hshape]⟩

theorem unlinkIfExists_below_keeps_dir (wi w' : FsTree) (P x : List String)
    (cs : List (String × FsTree)) (hx : x ≠ [])
    (h : unlinkIfExists wi (P ++ x) = Except.ok w')
    (hp : wi.lookup P = some (FsTree.dir cs)) :
    ∃ cs', w'.lookup P = some (FsTree.dir cs') := by
  unfold unlinkIfExists at h
  cases hl : wi.lookup (P ++ x) with
  | none =>
    rw [hl] at h
    cases h
    exact ⟨cs, hp⟩
  | some t =>
    cases t with
    | file d =>
      rw [hl] at h
      cases h
      exact removeAt_below_keeps_dir wi P x cs hx hp
    | dir ds => rw [hl] at h; cases h

theorem phase3Prune_keeps_pkgs_dir (root : List String) (s : String)
    (wi w' : FsTree) (cs : List (String × FsTree)) (hv : validSeg s = true)
    (h : phase3Prune root s wi = Except.ok w')
    (hp : wi.lookup (projectPackagesDir root) = some (FsTree.dir cs)) :
    ∃ cs', w'.lookup (projectPackagesDir root) = some (FsTree.dir cs') := by
  unfold phase3Prune at h
  simp only [resolveRel_valid _ _ hv,
    resolveRel_valid _ _ (validSeg_append s ".meta" hv (by decide) (by decide))]
    at h
  by_cases hg : validateOk (pathString (projectPackagesDir root ++ [s])) = true
  · rw [if_neg (by simp [hg])] at h
    by_cases he : isEmptySyncAt wi (projectPackagesDir root ++ [s]) = true
    · rw [if_pos he] at h
      obtain ⟨cs1, hmid⟩ := removeAt_below_keeps_dir wi _ [s] cs (by simp) hp
      exact unlinkIfExists_below_keeps_dir _ w' _ [s ++ ".meta"] cs1
        (by simp) h hmid
    · rw [if_neg he] at h
      cases h
      exact ⟨cs, hp⟩
  · rw [if_pos (by simp [hg])] at h
    cases h

theorem phase3Go_keeps_pkgs_dir (root : List String) (S : List String)
    (wi w' : FsTree) (cs : List (String × FsTree))
    (hv : ∀ s ∈ S, validSeg s = true)
    (h : phase3Go root S wi = Except.ok w')
    (hp : wi.lookup (projectPackagesDir root) = some (FsTree.dir cs)) :
    ∃ cs', w'.lookup (projectPackagesDir root) = some (FsTree.dir cs') := by
  induction S generalizing wi cs with
  | nil =>
    cases h
    exact ⟨cs, hp⟩
  | cons s S' ih =>
    unfold phase3Go at h
    cases hstep : phase3Prune root s wi with
    | error e => rw [hstep] at h; cases h
    | ok wmid =>
      rw [hstep] at h
      obtain ⟨cs1, hmid⟩ := phase3Prune_keeps_pkgs_dir root s wi wmid cs
        (hv s (by simp)) hstep hp
      exact ih wmid cs1 (fun x hx => hv x (by simp [hx])) h hmid

/-! ## Helper lemmas for the idempotence analysis -/

theorem divergesB_cons_ne (x y : String) (xs ys : List String) (h : x ≠ y) :
    FsTree.divergesB (x :: xs) (y :: ys) = true := by
  simp [FsTree.divergesB, h]

theorem isDirAt_iff (w : FsTree) (p : List String) :
    FsTree.isDirAt w p = true ↔
      ∃ cs, w.lookup p = some (FsTree.dir cs) := by
  unfold FsTree.isDirAt
  cases hl : w.lookup p with
  | none => simp
  | some t => cases t <;> simp

theorem lookup_child_of_dir (w : FsTree) (P : List String)
    (cs : List (String × FsTree)) (n : String)
    (hp : w.lookup P = some (FsTree.dir cs)) :
    w.lookup (P ++ [n]) = FsTree.childLookup cs n := by
  rw [lookup_append_some w _ P [n] hp, lookup_dir_single]

theorem startsWithAt_false_of_validSeg (s : String) (hv : validSeg s = true) :
    startsWithAt s '/' = false := by
  have hns := data_ne_nil_of_validSeg s hv
  have hall := ((validSeg_iff s).mp hv).2.2.2
  unfold startsWithAt
  cases hd : s.data with
  | nil => rfl
  | cons c0 rest =>
    have : c0 ≠ '/' := hall c0 (by rw [hd]; simp)
    simp [this]

theorem isAbsolute_scoped (s c : String) (hs : validSeg s = true) :
    isAbsolute (s ++ "/" ++ c) = false := by
  unfold isAbsolute
  rw [startsWithAt_append _ _ _ (by
    rw [String.data_append]
    intro hx
    exact data_ne_nil_of_validSeg s hs (List.append_eq_nil.mp hx).1)]
  rw [startsWithAt_append _ _ _ (data_ne_nil_of_validSeg s hs)]
  exact startsWithAt_false_of_validSeg s hs

theorem joinRel_of_not_abs (base : List String) (rel : String)
    (h : isAbsolute rel = false) : joinRel base rel = resolveRel base rel := by
  unfold joinRel resolveRel
  rw [h]
  simp

theorem joinRel_scoped (base : List String) (s c : String)
    (hs : validSeg s = true) (hc : validSeg c = true) :
    joinRel base (s ++ "/" ++ c) = base ++ [s, c] := by
  rw [joinRel_of_not_abs base _ (isAbsolute_scoped s c hs)]
  exact resolveRel_scoped base s c hs hc

/-- The metadata file of the source package of a declared dependency. -/
def srcCfgPathOf (projectRootDir : List String) (n : String) : List String :=
  joinRel (dependencyDir projectRootDir n) "package.json"

/-- The metadata file of the installed copy of a declared dependency. -/
def destCfgPathOf (projectRootDir : List String) (n : String) : List String :=
  joinRel (assetsTargetPath projectRootDir n) "package.json"

/-- Whether a package metadata carries the opt-in marker keyword. -/
def markerOf (cfg : JsonConfig) : Bool :=
  (cfg.keywords.getD []).contains specialKeyword

theorem destCfgPathOf_eq (root : List String) (n : String) :
    destCfgPathOf root n = dirPathOf root n ++ ["package.json"] :=
  joinRel_valid _ _ (by decide)

theorem srcCfgPathOf_shape (root : List String) (n : String)
    (hn : listedName n) :
    ∃ t, srcCfgPathOf root n = root ++ "node_modules" :: t := by
  have hnm : joinRel root "node_modules" = root ++ ["node_modules"] :=
    joinRel_valid _ _ (by decide)
  rcases hn with ⟨hv, _⟩ | ⟨s, c, rfl, hs, _, hc⟩
  · refine ⟨[n, "package.json"], ?_⟩
    unfold srcCfgPathOf dependencyDir
    rw [hnm, joinRel_valid _ _ hv, joinRel_valid _ _ (by decide : validSeg "package.json" = true)]
    simp
  · refine ⟨[s, c, "package.json"], ?_⟩
    unfold srcCfgPathOf dependencyDir
    rw [hnm, joinRel_scoped _ _ _ hs hc,
      joinRel_valid _ _ (by decide : validSeg "package.json" = true)]
    simp

theorem pkgs_path_diverges (root : List String) (a : List String) (b : String)
    (bs : List String) (hb : b ≠ "Assets") :
    FsTree.divergesB (projectPackagesDir root ++ a) (root ++ b :: bs) = true := by
  rw [projectPackagesDir_eq, List.append_assoc, FsTree.divergesB_same_prefix]
  have hba : ("Assets" : String) ≠ b := fun h => hb h.symm
  simp [FsTree.divergesB, hba]

theorem listed_path_diverges_branch (root : List String) (r : String)
    (hr : listedName r) (b : String) (bs : List String) (hb : b ≠ "Assets") :
    FsTree.divergesB (dirPathOf root r) (root ++ b :: bs) = true ∧
    FsTree.divergesB (metaPathOf root r) (root ++ b :: bs) = true := by
  rcases hr with ⟨hv, _⟩ | ⟨s, c, rfl, hs, _, hc⟩
  · rw [dirPathOf_plain root r hv, metaPathOf_plain root r hv]
    exact ⟨pkgs_path_diverges root _ b bs hb, pkgs_path_diverges root _ b bs hb⟩
  · rw [dirPathOf_scoped root s c hs hc, metaPathOf_scoped root s c hs hc]
    exact ⟨pkgs_path_diverges root _ b bs hb, pkgs_path_diverges root _ b bs hb⟩

theorem dir_dir_diverge (root : List String) (r r' : String)
    (hr : listedName r) (hr' : listedName r') (hne : r ≠ r') :
    FsTree.divergesB (dirPathOf root r) (dirPathOf root r') = true := by
  rcases hr with ⟨hv, hsw⟩ | ⟨s, c, rfl, hs, hsw, hc⟩
  · rcases hr' with ⟨hv', hsw'⟩ | ⟨s', c', rfl, hs', hsw', hc'⟩
    · rw [dirPathOf_plain root r hv, dirPathOf_plain root r' hv']
      exact divergesB_under _ _ _ (divergesB_single _ _ hne)
    · rw [dirPathOf_plain root r hv, dirPathOf_scoped root s' c' hs' hc']
      exact divergesB_under _ _ _
        (divergesB_one_two _ _ _ (startsWithAt_ne_of_at r s' '@' hsw hsw'))
  · rcases hr' with ⟨hv', hsw'⟩ | ⟨s', c', rfl, hs', hsw', hc'⟩
    · rw [dirPathOf_scoped root s c hs hc, dirPathOf_plain root r' hv']
      exact divergesB_under _ _ _
        (divergesB_two_one _ _ _
          ((startsWithAt_ne_of_at r' s '@' hsw' hsw).symm))
    · rw [dirPathOf_scoped root s c hs hc, dirPathOf_scoped root s' c' hs' hc']
      by_cases hss : s = s'
      · subst hss
        refine divergesB_under _ _ _ (divergesB_two_two _ _ _ _ (Or.inr ?_))
        intro hx
        exact hne (by rw [hx])
      · exact divergesB_under _ _ _ (divergesB_two_two _ _ _ _ (Or.inl hss))

theorem entryListingSpec_intro_plain (cs : List (String × FsTree)) (n : String)
    (ds : List (String × FsTree)) (hm : (n, FsTree.dir ds) ∈ cs)
    (hsw : startsWithAt n '@' = false) : n ∈ entryListingSpec cs := by
  induction cs with
  | nil => simp at hm
  | cons e rest ih =>
    rcases List.mem_cons.mp hm with he | hmem
    · rw [← he]
      simp only [entryListingSpec]
      rw [if_neg (by rw [hsw]; simp)]
      simp
    · obtain ⟨m, t⟩ := e
      cases t with
      | file d =>
        simp only [entryListingSpec]
        exact ih hmem
      | dir ds' =>
        simp only [entryListingSpec]
        exact List.mem_append.mpr (Or.inr (ih hmem))

theorem entryListingSpec_intro_scoped (cs : List (String × FsTree))
    (s c : String) (ds ds2 : List (String × FsTree))
    (hm : (s, FsTree.dir ds) ∈ cs) (hsw : startsWithAt s '@' = true)
    (hm2 : (c, FsTree.dir ds2) ∈ ds) :
    s ++ "/" ++ c ∈ entryListingSpec cs := by
  induction cs with
  | nil => simp at hm
  | cons e rest ih =>
    rcases List.mem_cons.mp hm with he | hmem
    · rw [← he]
      simp only [entryListingSpec]
      rw [if_pos (by rw [hsw])]
      refine List.mem_append.mpr (Or.inl ?_)
      refine List.mem_map.mpr ⟨(c, FsTree.dir ds2), ?_, rfl⟩
      exact List.mem_filter.mpr ⟨hm2, rfl⟩
    · obtain ⟨m, t⟩ := e
      cases t with
      | file d =>
        simp only [entryListingSpec]
        exact ih hmem
      | dir ds' =>
        simp only [entryListingSpec]
        exact List.mem_append.mpr (Or.inr (ih hmem))

theorem mem_dirNames_intro (cs : List (String × FsTree)) (x : String)
    (ds : List (String × FsTree)) (hm : (x, FsTree.dir ds) ∈ cs) :
    x ∈ dirNames cs := by
  unfold dirNames
  exact List.mem_map.mpr ⟨(x, FsTree.dir ds),
    List.mem_filter.mpr ⟨hm, rfl⟩, rfl⟩

theorem listing_of_isDir_plain (w : FsTree) (P : List String)
    (cs : List (String × FsTree)) (n : String)
    (hp : w.lookup P = some (FsTree.dir cs))
    (hsw : startsWithAt n '@' = false)
    (hd : FsTree.isDirAt w (P ++ [n]) = true) :
    n ∈ entryListingSpec cs := by
  obtain ⟨ds, hl⟩ := (isDirAt_iff w _).mp hd
  rw [lookup_child_of_dir w P cs n hp] at hl
  exact entryListingSpec_intro_plain cs n ds (childLookup_mem cs n _ hl) hsw

theorem listing_of_isDir_scoped (w : FsTree) (P : List String)
    (cs : List (String × FsTree)) (s c : String)
    (hp : w.lookup P = some (FsTree.dir cs))
    (hsw : startsWithAt s '@' = true)
    (hd : FsTree.isDirAt w (P ++ [s, c]) = true) :
    s ++ "/" ++ c ∈ entryListingSpec cs := by
  obtain ⟨ds2, hl2⟩ := (isDirAt_iff w _).mp hd
  have hsplit : P ++ [s, c] = (P ++ [s]) ++ [c] := by simp
  rw [hsplit] at hl2
  obtain ⟨ds, hl⟩ := FsTree.lookup_prefix_dir w (P ++ [s]) [c] _ (by simp) hl2
  rw [lookup_child_of_dir w (P ++ [s]) ds c hl] at hl2
  rw [lookup_child_of_dir w P cs s hp] at hl
  exact entryListingSpec_intro_scoped cs s c ds ds2
    (childLookup_mem cs s _ hl) hsw (childLookup_mem ds c _ hl2)

/-! ## Meta-suffix-free names -/

/-- A name part that does not end in `.meta`. -/
def notMetaSuffixB (x : String) : Bool :=
  decide (¬ (".meta".data <:+ x.data))

/-- Every `/`-separated part of the name avoids the `.meta` suffix (true
of ordinary npm package and scope names). -/
def metaFreeName (n : String) : Bool :=
  (splitSegs n).all notMetaSuffixB

theorem notMetaSuffixB_ne_append (x b : String) (h : notMetaSuffixB x = true) :
    x ≠ b ++ ".meta" := by
  intro hx
  unfold notMetaSuffixB at h
  rw [decide_eq_true_eq] at h
  apply h
  rw [hx, String.data_append]
  exact List.suffix_append _ _

theorem metaFreeName_plain (n : String) (hv : validSeg n = true)
    (h : metaFreeName n = true) : notMetaSuffixB n = true := by
  unfold metaFreeName at h
  rw [splitSegs_valid n hv] at h
  simpa using h

theorem metaFreeName_scoped (s c : String) (hs : validSeg s = true)
    (hc : validSeg c = true) (h : metaFreeName (s ++ "/" ++ c) = true) :
    notMetaSuffixB s = true ∧ notMetaSuffixB c = true := by
  unfold metaFreeName at h
  rw [splitSegs_scoped s c ((validSeg_iff s).mp hs).2.2.2,
    splitSegs_valid c hc] at h
  simpa using h

/-- The well-formedness check on the packages directory the idempotence
argument relies on: no directory at the top level or inside a top-level
directory carries a `.meta`-suffixed name (real `.meta` sidecars are
files). -/
def noMetaDirChildrenB (cs : List (String × FsTree)) : Bool :=
  cs.all (fun e =>
    match e.2 with
    | FsTree.file _ => true
    | FsTree.dir ds =>
      notMetaSuffixB e.1 &&
      ds.all (fun e2 =>
        match e2.2 with
        | FsTree.file _ => true
        | FsTree.dir _ => notMetaSuffixB e2.1))

theorem noMetaDirChildrenB_level1 (cs : List (String × FsTree))
    (h : noMetaDirChildrenB cs = true) (x : String)
    (ds : List (String × FsTree)) (hm : (x, FsTree.dir ds) ∈ cs) :
    notMetaSuffixB x = true := by
  rw [noMetaDirChildrenB, List.all_eq_true] at h
  have := h _ hm
  simp only [Bool.and_eq_true] at this
  exact this.1

theorem noMetaDirChildrenB_level2 (cs : List (String × FsTree))
    (h : noMetaDirChildrenB cs = true) (x : String)
    (ds : List (String × FsTree)) (hm : (x, FsTree.dir ds) ∈ cs)
    (y : String) (ds2 : List (String × FsTree)) (hm2 : (y, FsTree.dir ds2) ∈ ds) :
    notMetaSuffixB y = true := by
  rw [noMetaDirChildrenB, List.all_eq_true] at h
  have h1 := h _ hm
  simp only [Bool.and_eq_true, List.all_eq_true] at h1
  have := h1.2 _ hm2
  simpa using this

/-! ## Phase 1 inversion: what a successful install run guarantees -/

theorem readJson_ok_lookup (w : FsTree) (p : List String) (cfg : JsonConfig)
    (h : readJsonSyncAt w p = Except.ok cfg) :
    w.lookup p = some (FsTree.file (FileData.json cfg)) := by
  unfold readJsonSyncAt at h
  cases hl : w.lookup p with
  | none => rw [hl] at h; cases h
  | some t =>
    rw [hl] at h
    cases t with
    | dir cs => cases h
    | file fd =>
      cases fd with
      | raw s => cases h
      | json c => injection h with h2; rw [h2]

theorem readJson_ok_of_lookup (w : FsTree) (p : List String) (cfg : JsonConfig)
    (h : w.lookup p = some (FsTree.file (FileData.json cfg))) :
    readJsonSyncAt w p = Except.ok cfg := by
  unfold readJsonSyncAt
  rw [h]

theorem assetsTargetPath_eq_dirPathOf (root : List String) (n : String) :
    assetsTargetPath root n = dirPathOf root n := rfl

theorem dirPathOf_valid_segs (root : List String) (n : String)
    (hroot : ∀ s ∈ root, validSeg s = true) (hn : listedName n) :
    ∀ s ∈ dirPathOf root n, validSeg s = true := by
  have hbase : ∀ s ∈ projectPackagesDir root, validSeg s = true := by
    intro s hs
    rw [projectPackagesDir_eq] at hs
    rcases List.mem_append.mp hs with h | h
    · exact hroot s h
    · simp only [List.mem_cons, List.not_mem_nil, or_false] at h
      rcases h with rfl | rfl | rfl <;> decide
  rcases hn with ⟨hv, _⟩ | ⟨s0, c0, rfl, hs0, _, hc0⟩
  · rw [dirPathOf_plain root n hv]
    intro s hs
    rcases List.mem_append.mp hs with h | h
    · exact hbase s h
    · rcases List.mem_singleton.mp h with rfl
      exact hv
  · rw [dirPathOf_scoped root s0 c0 hs0 hc0]
    intro s hs
    rcases List.mem_append.mp hs with h | h
    · exact hbase s h
    · simp only [List.mem_cons, List.not_mem_nil, or_false] at h
      rcases h with rfl | rfl
      · exact hs0
      · exact hc0

/-- A copy step writes only at `target/g`, so any path diverging from
`target/g` reads the same afterwards. -/
theorem copy_preserves_at (w : FsTree) (D T : List String) (g : String)
    (q : List String) (hg : validSeg g = true)
    (hdiv : FsTree.divergesB (T ++ [g]) q = true) :
    (copyIfExistsSync w D T g none).lookup q = w.lookup q := by
  unfold copyIfExistsSync
  cases hl : w.lookup (joinRel D g) with
  | none => simp only [hl]
  | some node =>
    simp only [hl, Option.getD]
    rw [joinRel_valid _ _ hg, FsTree.lookup_setAt_diverges _ _ _ _ hdiv]

theorem copyIfExistsSync_wf (w : FsTree) (D T : List String) (g : String)
    (hg : validSeg g = true) (hT : ∀ s ∈ T, validSeg s = true)
    (hw : wfTreeB w = true) : wfTreeB (copyIfExistsSync w D T g none) = true := by
  unfold copyIfExistsSync
  cases hl : w.lookup (joinRel D g) with
  | none => simp only [hl]; exact hw
  | some node =>
    simp only [hl, Option.getD]
    rw [joinRel_valid _ _ hg]
    refine wfTreeB_setAt w node _ hw (wfTreeB_lookup w _ node hw hl) ?_
    intro s hs
    rcases List.mem_append.mp hs with h | h
    · exact hT s h
    · rcases List.mem_singleton.mp h with rfl
      exact hg

/-- Behaviour of the full-replace block: the destination metadata file
afterwards is the source metadata file, paths diverging from the entry
directory are untouched, and well-formedness is preserved. -/
theorem fullReplace_spec (root : List String) (n : String) (w : FsTree)
    (hn : listedName n) (hroot : ∀ s ∈ root, validSeg s = true)
    (dcfg : JsonConfig)
    (hsrc : w.lookup (srcCfgPathOf root n)
      = some (FsTree.file (FileData.json dcfg))) :
    (fullReplace root n w).lookup (destCfgPathOf root n)
      = some (FsTree.file (FileData.json dcfg)) ∧
    (∀ q, FsTree.divergesB (dirPathOf root n) q = true →
      (fullReplace root n w).lookup q = w.lookup q) ∧
    (wfTreeB w = true → wfTreeB (fullReplace root n w) = true) := by
  have hTv : ∀ s ∈ dirPathOf root n, validSeg s = true :=
    dirPathOf_valid_segs root n hroot hn
  obtain ⟨tl, htl⟩ := srcCfgPathOf_shape root n hn
  have hdivSrc : FsTree.divergesB (dirPathOf root n) (srcCfgPathOf root n)
      = true := by
    rw [htl]
    exact (listed_path_diverges_branch root n hn "node_modules" tl
      (by decide)).1
  have hfr : fullReplace root n w
      = copyIfExistsSync (copyIfExistsSync (copyIfExistsSync
          (copyIfExistsSync
            (FsTree.setAt w (assetsTargetPath root n) (FsTree.dir []))
            (dependencyDir root n) (assetsTargetPath root n) "assets" (some ""))
          (dependencyDir root n) (assetsTargetPath root n) "package.json" none)
        (dependencyDir root n) (assetsTargetPath root n) "README.md" none)
      (dependencyDir root n) (assetsTargetPath root n) "LICENSE" none := rfl
  set w1 := FsTree.setAt w (assetsTargetPath root n) (FsTree.dir []) with hw1d
  set w2 := copyIfExistsSync w1 (dependencyDir root n) (assetsTargetPath root n)
    "assets" (some "") with hw2d
  set w3 := copyIfExistsSync w2 (dependencyDir root n) (assetsTargetPath root n)
    "package.json" none with hw3d
  set w4 := copyIfExistsSync w3 (dependencyDir root n) (assetsTargetPath root n)
    "README.md" none with hw4d
  have hfar1 : ∀ q, FsTree.divergesB (dirPathOf root n) q = true →
      w1.lookup q = w.lookup q := by
    intro q hq
    exact FsTree.lookup_setAt_diverges _ _ _ _ hq
  have hwf1 : wfTreeB w = true → wfTreeB w1 = true := by
    intro hw
    exact wfTreeB_setAt w (FsTree.dir []) _ hw (by decide) hTv
  have hfar2 : ∀ q, FsTree.divergesB (dirPathOf root n) q = true →
      w2.lookup q = w1.lookup q := by
    intro q hq
    rw [hw2d]
    unfold copyIfExistsSync
    cases hl : w1.lookup (joinRel (dependencyDir root n) "assets") with
    | none => simp only [hl]
    | some node =>
      simp only [hl, Option.getD]
      rw [joinRel_empty]
      exact FsTree.lookup_setAt_diverges _ _ _ _ hq
  have hwf2 : wfTreeB w1 = true → wfTreeB w2 = true := by
    intro hw
    rw [hw2d]
    unfold copyIfExistsSync
    cases hl : w1.lookup (joinRel (dependencyDir root n) "assets") with
    | none => simp only [hl]; exact hw
    | some node =>
      simp only [hl, Option.getD]
      rw [joinRel_empty]
      exact wfTreeB_setAt w1 node _ hw (wfTreeB_lookup w1 _ node hw hl) hTv
  have hsrc2 : w2.lookup (srcCfgPathOf root n)
      = some (FsTree.file (FileData.json dcfg)) := by
    rw [hfar2 _ hdivSrc, hfar1 _ hdivSrc]
    exact hsrc
  have hdivq : ∀ (g : String) (q : List String),
      FsTree.divergesB (dirPathOf root n) q = true →
      FsTree.divergesB (assetsTargetPath root n ++ [g]) q = true := by
    intro g q hq
    rw [assetsTargetPath_eq_dirPathOf]
    exact FsTree.divergesB_append_left _ hq
  have hw3 : w3 = FsTree.setAt w2 (dirPathOf root n ++ ["package.json"])
      (FsTree.file (FileData.json dcfg)) := by
    rw [hw3d]
    unfold copyIfExistsSync
    simp only [show joinRel (dependencyDir root n) "package.json"
        = srcCfgPathOf root n from rfl, hsrc2, Option.getD_none]
    rw [joinRel_valid _ _ (by decide : validSeg "package.json" = true)]
    rfl
  have hdest3 : w3.lookup (dirPathOf root n ++ ["package.json"])
      = some (FsTree.file (FileData.json dcfg)) := by
    rw [hw3]
    exact FsTree.lookup_setAt_self _ _ _
  have hdest4 : w4.lookup (dirPathOf root n ++ ["package.json"])
      = some (FsTree.file (FileData.json dcfg)) := by
    rw [hw4d]
    rw [copy_preserves_at w3 (dependencyDir root n) (assetsTargetPath root n)
      "README.md" (dirPathOf root n ++ ["package.json"]) (by decide)
      (by
        rw [assetsTargetPath_eq_dirPathOf, FsTree.divergesB_same_prefix]
        decide)]
    exact hdest3
  have hdest5 : (fullReplace root n w).lookup (dirPathOf root n ++ ["package.json"])
      = some (FsTree.file (FileData.json dcfg)) := by
    rw [hfr]
    rw [copy_preserves_at w4 (dependencyDir root n) (assetsTargetPath root n)
      "LICENSE" (dirPathOf root n ++ ["package.json"]) (by decide)
      (by
        rw [assetsTargetPath_eq_dirPathOf, FsTree.divergesB_same_prefix]
        decide)]
    exact hdest4
  refine ⟨?_, ?_, ?_⟩
  · rw [destCfgPathOf_eq]
    exact hdest5
  · intro q hq
    rw [hfr]
    rw [copy_preserves_at w4 (dependencyDir root n) (assetsTargetPath root n)
      "LICENSE" q (by decide) (hdivq _ q hq)]
    rw [hw4d]
    rw [copy_preserves_at w3 (dependencyDir root n) (assetsTargetPath root n)
      "README.md" q (by decide) (hdivq _ q hq)]
    rw [hw3d]
    rw [copy_preserves_at w2 (dependencyDir root n) (assetsTargetPath root n)
      "package.json" q (by decide) (hdivq _ q hq)]
    rw [hfar2 _ hq, hfar1 _ hq]
  · intro hw
    rw [hfr]
    refine copyIfExistsSync_wf _ _ _ _ (by decide) hTv ?_
    refine copyIfExistsSync_wf _ _ _ _ (by decide) hTv ?_
    refine copyIfExistsSync_wf _ _ _ _ (by decide) hTv ?_
    exact hwf2 (hwf1 hw)

/-- Inversion of one successful Phase 1 iteration on a well-shaped
dependency name: the source metadata was readable; a marker-less
dependency leaves the world unchanged, a marker-carrying one confines
its writes to its entry directory, preserves well-formedness, and ends
with a destination metadata file whose version equals the source's. -/
theorem phase1Install_inv (root : List String) (n : String) (wi w' : FsTree)
    (hn : listedName n) (hroot : ∀ s ∈ root, validSeg s = true)
    (h : phase1Install root n wi = Except.ok w') :
    ∃ dcfg, wi.lookup (srcCfgPathOf root n)
        = some (FsTree.file (FileData.json dcfg)) ∧
      ((markerOf dcfg = false ∧ w' = wi) ∨
       (markerOf dcfg = true ∧
        (∀ q, FsTree.divergesB (dirPathOf root n) q = true →
          w'.lookup q = wi.lookup q) ∧
        (wfTreeB wi = true → wfTreeB w' = true) ∧
        (∃ v, w'.lookup (destCfgPathOf root n)
            = some (FsTree.file (FileData.json v)) ∧
          dcfg.version = v.version))) := by
  unfold phase1Install at h
  cases hread : readJsonSyncAt wi
      (joinRel (dependencyDir root n) "package.json") with
  | error e => simp only [hread] at h; cases h
  | ok dcfg =>
    simp only [hread] at h
    have hsrc : wi.lookup (srcCfgPathOf root n)
        = some (FsTree.file (FileData.json dcfg)) :=
      readJson_ok_lookup wi _ dcfg hread
    refine ⟨dcfg, hsrc, ?_⟩
    cases hmk : (dcfg.keywords.getD []).contains specialKeyword with
    | false =>
      rw [if_pos (by rw [hmk]; simp)] at h
      injection h with h2
      exact Or.inl ⟨hmk, h2.symm⟩
    | true =>
      rw [if_neg (by rw [hmk]; simp)] at h
      have hguard : validateOk (pathString (assetsTargetPath root n)) = true := by
        rw [assetsTargetPath_eq_dirPathOf]
        exact guard_listed root n hn
      rw [if_neg (by rw [hguard]; simp)] at h
      cases hex : FsTree.existsAt wi
          (joinRel (assetsTargetPath root n) "package.json") with
      | false =>
        rw [if_neg (by rw [hex]; simp)] at h
        injection h with h2
        obtain ⟨h1, hfr2, h3⟩ := fullReplace_spec root n wi hn hroot dcfg hsrc
        refine Or.inr ⟨hmk, ?_, ?_, ⟨dcfg, ?_, rfl⟩⟩
        · intro q hq
          rw [← h2]
          exact hfr2 q hq
        · intro hw
          rw [← h2]
          exact h3 hw
        · rw [← h2]
          exact h1
      | true =>
        rw [if_pos (by rw [hex])] at h
        cases hread2 : readJsonSyncAt wi
            (joinRel (assetsTargetPath root n) "package.json") with
        | error e => simp only [hread2] at h; cases h
        | ok acfg =>
          simp only [hread2] at h
          by_cases hv : dcfg.version = acfg.version
          · rw [if_pos hv] at h
            injection h with h2
            subst h2
            refine Or.inr ⟨hmk, fun q _ => rfl, fun hw => hw, ⟨acfg, ?_, hv⟩⟩
            exact readJson_ok_lookup wi _ acfg hread2
          · rw [if_neg hv] at h
            injection h with h2
            obtain ⟨h1, hfr2, h3⟩ := fullReplace_spec root n wi hn hroot dcfg hsrc
            refine Or.inr ⟨hmk, ?_, ?_, ⟨dcfg, ?_, rfl⟩⟩
            · intro q hq
              rw [← h2]
              exact hfr2 q hq
            · intro hw
              rw [← h2]
              exact h3 hw
            · rw [← h2]
              exact h1

/-- Inversion of a successful Phase 1 run over duplicate-free,
well-shaped dependency names. -/
theorem phase1Run_inv (root : List String) (w' : FsTree)
    (hroot : ∀ s ∈ root, validSeg s = true) :
    ∀ (ns : List String) (wi : FsTree),
      (∀ n ∈ ns, listedName n) → ns.Nodup →
      phase1Run root ns wi = Except.ok w' →
      (wfTreeB wi = true → wfTreeB w' = true) ∧
      (∀ q, (∀ n ∈ ns, FsTree.divergesB (dirPathOf root n) q = true) →
        w'.lookup q = wi.lookup q) ∧
      (∀ n ∈ ns, ∃ dcfg,
        wi.lookup (srcCfgPathOf root n)
          = some (FsTree.file (FileData.json dcfg)) ∧
        (markerOf dcfg = true →
          ∃ v, w'.lookup (destCfgPathOf root n)
              = some (FsTree.file (FileData.json v)) ∧
            dcfg.version = v.version)) := by
  intro ns
  induction ns with
  | nil =>
    intro wi _ _ h
    cases h
    exact ⟨fun hw => hw, fun q _ => rfl, by simp⟩
  | cons n0 ns' ih =>
    intro wi hns hnd h
    unfold phase1Run at h
    cases hstep : phase1Install root n0 wi with
    | error e => rw [hstep] at h; cases h
    | ok wmid =>
      rw [hstep] at h
      obtain ⟨hn0nin, hndns'⟩ := List.nodup_cons.mp hnd
      have hn0 : listedName n0 := hns n0 (by simp)
      obtain ⟨hwfI, hfarI, hdepsI⟩ :=
        ih wmid (fun x hx => hns x (by simp [hx])) hndns' h
      obtain ⟨dcfg0, hsrc0, hcase0⟩ :=
        phase1Install_inv root n0 wi wmid hn0 hroot hstep
      have hinstwf : wfTreeB wi = true → wfTreeB wmid = true := by
        rcases hcase0 with ⟨_, rfl⟩ | ⟨_, _, hwf, _⟩
        · exact fun hw => hw
        · exact hwf
      have hinstfar : ∀ q, FsTree.divergesB (dirPathOf root n0) q = true →
          wmid.lookup q = wi.lookup q := by
        rcases hcase0 with ⟨_, rfl⟩ | ⟨_, hfar, _, _⟩
        · exact fun q _ => rfl
        · exact hfar
      refine ⟨fun hw => hwfI (hinstwf hw), ?_, ?_⟩
      · intro q hq
        rw [hfarI q (fun x hx => hq x (by simp [hx]))]
        exact hinstfar q (hq n0 (by simp))
      · intro n hn
        rcases List.mem_cons.mp hn with rfl | hntl
        · refine ⟨dcfg0, hsrc0, ?_⟩
          intro hmk
          rcases hcase0 with ⟨hmk0, rfl⟩ | ⟨_, _, _, v, hdest, hver⟩
          · rw [hmk0] at hmk; cases hmk
          · refine ⟨v, ?_, hver⟩
            rw [hfarI _ ?_]
            · exact hdest
            · intro x hx
              rw [destCfgPathOf_eq]
              refine FsTree.divergesB_append_right _ ?_
              exact dir_dir_diverge root x n (hns x (by simp [hx])) hn0
                (fun he => hn0nin (he ▸ hx))
        · obtain ⟨dcfg, hsrcM, hrest⟩ := hdepsI n hntl
          refine ⟨dcfg, ?_, hrest⟩
          rw [← hsrcM]
          symm
          obtain ⟨tl2, htl2⟩ := srcCfgPathOf_shape root n (hns n (by simp [hntl]))
          rw [htl2]
          rw [htl2] at hsrcM
          exact hinstfar _ ((listed_path_diverges_branch root n0 hn0
            "node_modules" tl2 (by decide)).1)

/-! ## More glue for the idempotence analysis -/

theorem lookup_append_congr (w w' : FsTree) (p q : List String)
    (h : w'.lookup p = w.lookup p) :
    w'.lookup (p ++ q) = w.lookup (p ++ q) := by
  rw [FsTree.lookup_append, FsTree.lookup_append, h]

theorem isDirAt_congr (w w' : FsTree) (p : List String)
    (h : w'.lookup p = w.lookup p) :
    FsTree.isDirAt w' p = FsTree.isDirAt w p := by
  unfold FsTree.isDirAt
  rw [h]

theorem pkgs_children_facts (w : FsTree) (P : List String)
    (cs : List (String × FsTree))
    (hwf : wfTreeB w = true) (hp : w.lookup P = some (FsTree.dir cs)) :
    (∀ e ∈ cs, validSeg e.1 = true) ∧ ((cs.map Prod.fst).Nodup) ∧
    (∀ e ∈ cs, childrenOk e.2 = true) := by
  have hdw := wfTreeB_lookup w P _ hwf hp
  obtain ⟨hall, hnd⟩ := (wfTreeB_dir cs).mp hdw
  exact ⟨fun e he => (hall e he).1, hnd,
    fun e he => childrenOk_of_wfTreeB _ (hall e he).2⟩

theorem seg_path_diverges_branch (root : List String) (s : String)
    (hv : validSeg s = true) (b : String) (bs : List String)
    (hb : b ≠ "Assets") :
    FsTree.divergesB (dirPathOf root s) (root ++ b :: bs) = true ∧
    FsTree.divergesB (metaPathOf root s) (root ++ b :: bs) = true := by
  rw [dirPathOf_plain root s hv, metaPathOf_plain root s hv]
  exact ⟨pkgs_path_diverges root _ b bs hb, pkgs_path_diverges root _ b bs hb⟩

theorem unlinkIfExists_wf (wi w' : FsTree) (p : List String)
    (h : unlinkIfExists wi p = Except.ok w') (hw : wfTreeB wi = true) :
    wfTreeB w' = true := by
  unfold unlinkIfExists at h
  cases hl : wi.lookup p with
  | none => rw [hl] at h; cases h; exact hw
  | some t =>
    cases t with
    | file d =>
      rw [hl] at h
      cases h
      exact wfTreeB_removeAt wi p hw
    | dir cs => rw [hl] at h; cases h

theorem phase2Remove_wf (root : List String) (r : String) (wi w' : FsTree)
    (h : phase2Remove root r wi = Except.ok w') (hw : wfTreeB wi = true) :
    wfTreeB w' = true := by
  unfold phase2Remove at h
  by_cases hg : validateOk (pathString
      (resolveRel (projectPackagesDir root) r)) = true
  · rw [if_neg (by simp [hg])] at h
    refine unlinkIfExists_wf _ w' _ h ?_
    by_cases he : FsTree.existsAt wi (resolveRel (projectPackagesDir root) r)
    · rw [if_pos he]
      exact wfTreeB_removeAt wi _ hw
    · rw [if_neg he]
      exact hw
  · rw [if_pos (by simp [hg])] at h
    cases h

theorem phase2Go_wf (root : List String) (R : List String) (wi w' : FsTree)
    (h : phase2Go root R wi = Except.ok w') (hw : wfTreeB wi = true) :
    wfTreeB w' = true := by
  induction R generalizing wi with
  | nil => cases h; exact hw
  | cons r R' ih =>
    unfold phase2Go at h
    cases hstep : phase2Remove root r wi with
    | error e => rw [hstep] at h; cases h
    | ok wmid =>
      rw [hstep] at h
      exact ih wmid h (phase2Remove_wf root r wi wmid hstep hw)

theorem phase3Prune_wf (root : List String) (s : String) (wi w' : FsTree)
    (h : phase3Prune root s wi = Except.ok w') (hw : wfTreeB wi = true) :
    wfTreeB w' = true := by
  unfold phase3Prune at h
  by_cases hg : validateOk (pathString
      (resolveRel (projectPackagesDir root) s)) = true
  · rw [if_neg (by simp [hg])] at h
    by_cases he : isEmptySyncAt wi (resolveRel (projectPackagesDir root) s) = true
    · rw [if_pos he] at h
      exact unlinkIfExists_wf _ w' _ h (wfTreeB_removeAt wi _ hw)
    · rw [if_neg he] at h
      cases h
      exact hw
  · rw [if_pos (by simp [hg])] at h
    cases h

theorem phase3Go_wf (root : List String) (S : List String) (wi w' : FsTree)
    (h : phase3Go root S wi = Except.ok w') (hw : wfTreeB wi = true) :
    wfTreeB w' = true := by
  induction S generalizing wi with
  | nil => cases h; exact hw
  | cons s S' ih =>
    unfold phase3Go at h
    cases hstep : phase3Prune root s wi with
    | error e => rw [hstep] at h; cases h
    | ok wmid =>
      rw [hstep] at h
      exact ih wmid h (phase3Prune_wf root s wi wmid hstep hw)

/-- After Phase 1 there is still no `.meta`-suffixed directory at the top
level of the packages directory: Phase 1 writes only under declared
entry directories, whose name parts avoid the `.meta` suffix. -/
theorem metaDir_absent_top (root : List String) (deps : List String)
    (w wa : FsTree) (cs0 : List (String × FsTree))
    (hpkgs : w.lookup (projectPackagesDir root) = some (FsTree.dir cs0))
    (hmetaW : noMetaDirChildrenB cs0 = true)
    (hdepsWf : ∀ n ∈ deps, listedName n)
    (hdepsMeta : ∀ n ∈ deps, metaFreeName n = true)
    (hfar : ∀ q, (∀ n ∈ deps, FsTree.divergesB (dirPathOf root n) q = true) →
      wa.lookup q = w.lookup q)
    (b : String) :
    FsTree.isDirAt wa (projectPackagesDir root ++ [b ++ ".meta"]) = true →
    False := by
  intro hd
  have hdivAll : ∀ n ∈ deps, FsTree.divergesB (dirPathOf root n)
      (projectPackagesDir root ++ [b ++ ".meta"]) = true := by
    intro n hn
    rcases hdepsWf n hn with ⟨hv, _⟩ | ⟨s, c, heq, hs, _, hc⟩
    · rw [dirPathOf_plain root n hv]
      refine divergesB_under _ _ _ (divergesB_single _ _ ?_)
      exact notMetaSuffixB_ne_append n b (metaFreeName_plain n hv (hdepsMeta n hn))
    · rw [heq, dirPathOf_scoped root s c hs hc]
      refine divergesB_under _ _ _ (divergesB_two_one _ _ _ ?_)
      refine notMetaSuffixB_ne_append s b ?_
      exact (metaFreeName_scoped s c hs hc (by rw [← heq]; exact hdepsMeta n hn)).1
  rw [isDirAt_congr w wa _ (hfar _ hdivAll)] at hd
  obtain ⟨ds, hl⟩ := (isDirAt_iff w _).mp hd
  rw [lookup_child_of_dir w _ cs0 _ hpkgs] at hl
  have hmem := childLookup_mem cs0 _ _ hl
  exact notMetaSuffixB_ne_append _ b
    (noMetaDirChildrenB_level1 cs0 hmetaW _ ds hmem) rfl

/-- Likewise inside any `@`-prefixed top-level directory. -/
theorem metaDir_absent_scoped (root : List String) (deps : List String)
    (w wa : FsTree) (cs0 : List (String × FsTree))
    (hpkgs : w.lookup (projectPackagesDir root) = some (FsTree.dir cs0))
    (hmetaW : noMetaDirChildrenB cs0 = true)
    (hdepsWf : ∀ n ∈ deps, listedName n)
    (hdepsMeta : ∀ n ∈ deps, metaFreeName n = true)
    (hfar : ∀ q, (∀ n ∈ deps, FsTree.divergesB (dirPathOf root n) q = true) →
      wa.lookup q = w.lookup q)
    (s b : String) (hsw : startsWithAt s '@' = true) :
    FsTree.isDirAt wa (projectPackagesDir root ++ [s, b ++ ".meta"]) = true →
    False := by
  intro hd
  have hdivAll : ∀ n ∈ deps, FsTree.divergesB (dirPathOf root n)
      (projectPackagesDir root ++ [s, b ++ ".meta"]) = true := by
    intro n hn
    rcases hdepsWf n hn with ⟨hv, hswn⟩ | ⟨s', c', heq, hs', hsw', hc'⟩
    · rw [dirPathOf_plain root n hv]
      exact divergesB_under _ _ _
        (divergesB_one_two _ _ _ (startsWithAt_ne_of_at n s '@' hswn hsw))
    · rw [heq, dirPathOf_scoped root s' c' hs' hc']
      by_cases hss : s' = s
      · refine divergesB_under _ _ _ (divergesB_two_two _ _ _ _ (Or.inr ?_))
        refine notMetaSuffixB_ne_append c' b ?_
        exact (metaFreeName_scoped s' c' hs' hc'
          (by rw [← heq]; exact hdepsMeta n hn)).2
      · exact divergesB_under _ _ _ (divergesB_two_two _ _ _ _ (Or.inl hss))
  rw [isDirAt_congr w wa _ (hfar _ hdivAll)] at hd
  obtain ⟨ds2, hl2⟩ := (isDirAt_iff w _).mp hd
  have hsplit : projectPackagesDir root ++ [s, b ++ ".meta"]
      = (projectPackagesDir root ++ [s]) ++ [b ++ ".meta"] := by simp
  rw [hsplit] at hl2
  obtain ⟨ds, hl⟩ :=
    FsTree.lookup_prefix_dir w (projectPackagesDir root ++ [s]) _ _ (by simp) hl2
  rw [lookup_child_of_dir w _ ds _ hl] at hl2
  rw [lookup_child_of_dir w _ cs0 _ hpkgs] at hl
  have hmem := childLookup_mem cs0 _ _ hl
  have hmem2 := childLookup_mem ds _ _ hl2
  exact notMetaSuffixB_ne_append _ b
    (noMetaDirChildrenB_level2 cs0 hmetaW _ ds hmem _ ds2 hmem2) rfl

theorem phase1Run_id (root : List String) (ns : List String) (w : FsTree)
    (h : ∀ n ∈ ns, phase1Install root n w = Except.ok w) :
    phase1Run root ns w = Except.ok w := by
  induction ns with
  | nil => rfl
  | cons n ns' ih =>
    have hn := h n (by simp)
    simp only [phase1Run, hn]
    exact ih (fun x hx => h x (by simp [hx]))

theorem phase3Go_id (root : List String) (S : List String) (w : FsTree)
    (h : ∀ s ∈ S, phase3Prune root s w = Except.ok w) :
    phase3Go root S w = Except.ok w := by
  induction S with
  | nil => rfl
  | cons s S' ih =>
    have hs := h s (by simp)
    simp only [phase3Go, hs]
    exact ih (fun x hx => h x (by simp [hx]))

theorem listing_ok_pkgs_dir (w : FsTree) (P : List String) (L : List String)
    (h : getProjectPackageListing w P = Except.ok L) :
    ∃ cs, w.lookup P = some (FsTree.dir cs) := by
  unfold getProjectPackageListing getDirectories readdirSyncAt at h
  cases hl : w.lookup P with
  | none => simp only [hl] at h; cases h
  | some t =>
    cases t with
    | file d => simp only [hl] at h; cases h
    | dir cs => exact ⟨cs, rfl⟩

theorem scopes_ok_pkgs_dir (w : FsTree) (P : List String) (L : List String)
    (h : getProjectPackageScopes w P = Except.ok L) :
    ∃ cs, w.lookup P = some (FsTree.dir cs) := by
  unfold getProjectPackageScopes getDirectories readdirSyncAt at h
  cases hl : w.lookup P with
  | none => simp only [hl] at h; cases h
  | some t =>
    cases t with
    | file d => simp only [hl] at h; cases h
    | dir cs => exact ⟨cs, rfl⟩

theorem phase1Install_nomarker (root : List String) (n : String) (w : FsTree)
    (dcfg : JsonConfig)
    (hsrc : w.lookup (srcCfgPathOf root n)
      = some (FsTree.file (FileData.json dcfg)))
    (hmk : (dcfg.keywords.getD []).contains specialKeyword = false) :
    phase1Install root n w = Except.ok w := by
  unfold phase1Install
  have hr1 : readJsonSyncAt w (joinRel (dependencyDir root n) "package.json")
      = Except.ok dcfg := readJson_ok_of_lookup w _ dcfg hsrc
  simp only [hr1]
  rw [if_pos (by rw [hmk]; simp)]

theorem phase1Install_skip (root : List String) (n : String) (w : FsTree)
    (hn : listedName n) (dcfg v : JsonConfig)
    (hsrc : w.lookup (srcCfgPathOf root n)
      = some (FsTree.file (FileData.json dcfg)))
    (hdest : w.lookup (destCfgPathOf root n)
      = some (FsTree.file (FileData.json v)))
    (hver : dcfg.version = v.version) :
    phase1Install root n w = Except.ok w := by
  unfold phase1Install
  have hr1 : readJsonSyncAt w (joinRel (dependencyDir root n) "package.json")
      = Except.ok dcfg := readJson_ok_of_lookup w _ dcfg hsrc
  simp only [hr1]
  cases hmk : (dcfg.keywords.getD []).contains specialKeyword with
  | false => rw [if_pos (by simp)]
  | true =>
    rw [if_neg (by simp)]
    have hguard : validateOk (pathString (assetsTargetPath root n)) = true := by
      rw [assetsTargetPath_eq_dirPathOf]
      exact guard_listed root n hn
    rw [if_neg (by rw [hguard]; simp)]
    have hex : FsTree.existsAt w
        (joinRel (assetsTargetPath root n) "package.json") = true := by
      unfold FsTree.existsAt
      rw [show joinRel (assetsTargetPath root n) "package.json"
          = destCfgPathOf root n from rfl, hdest]
      rfl
    rw [if_pos hex]
    have hr2 : readJsonSyncAt w (joinRel (assetsTargetPath root n) "package.json")
        = Except.ok v := readJson_ok_of_lookup w _ v hdest
    simp only [hr2]
    rw [if_pos hver]

theorem isEmptySyncAt_false_of_child (w : FsTree) (P : List String)
    (ds : List (String × FsTree)) (c : String) (t : FsTree)
    (hl : w.lookup P = some (FsTree.dir ds))
    (hc : FsTree.childLookup ds c = some t) :
    isEmptySyncAt w P = false := by
  unfold isEmptySyncAt
  rw [hl]
  cases ds with
  | nil => simp [FsTree.childLookup] at hc
  | cons e rest => rfl

/-! ## Claim C7: empty-scope pruning -/

/-- Pairwise divergence of the four paths of two distinct single-segment
names, given that neither directory path coincides with the other's
sidecar path. -/
theorem plain_paths_diverge (root : List String) (r r' : String)
    (hv : validSeg r = true) (hv' : validSeg r' = true)
    (hne : r ≠ r')
    (hdm : dirPathOf root r ≠ metaPathOf root r')
    (hdm' : dirPathOf root r' ≠ metaPathOf root r) :
    FsTree.divergesB (dirPathOf root r) (dirPathOf root r') = true ∧
    FsTree.divergesB (dirPathOf root r) (metaPathOf root r') = true ∧
    FsTree.divergesB (metaPathOf root r) (dirPathOf root r') = true ∧
    FsTree.divergesB (metaPathOf root r) (metaPathOf root r') = true := by
  rw [dirPathOf_plain root r hv, metaPathOf_plain root r hv,
    dirPathOf_plain root r' hv', metaPathOf_plain root r' hv'] at *
  refine ⟨divergesB_under _ _ _ (divergesB_single _ _ hne), ?_, ?_, ?_⟩
  · refine divergesB_under _ _ _ (divergesB_single _ _ ?_)
    intro hcontra
    exact hdm (by rw [hcontra])
  · refine divergesB_under _ _ _ (divergesB_single _ _ ?_)
    intro hcontra
    exact hdm' (by rw [hcontra])
  · exact divergesB_under _ _ _
      (divergesB_single _ _ (fun hx => hne (append_meta_inj _ _ hx)))

theorem isEmptySyncAt_congr (w w' : FsTree) (p : List String)
    (h : w'.lookup p = w.lookup p) :
    isEmptySyncAt w' p = isEmptySyncAt w p := by
  unfold isEmptySyncAt
  rw [h]

/-- Full behaviour of one Phase 3 pruning iteration on a valid scope
name: it succeeds; an empty scope loses its directory and sidecar, a
non-empty scope changes nothing; nothing is created, and diverging paths
are untouched. -/
theorem phase3Prune_spec (root : List String) (s : String) (wi w : FsTree)
    (hv : validSeg s = true)
    (hmetaOK : wi.lookup (metaPathOf root s) = w.lookup (metaPathOf root s) ∨
               wi.lookup (metaPathOf root s) = none)
    (hmDir : FsTree.isDirAt w (metaPathOf root s) = false) :
    ∃ w2, phase3Prune root s wi = Except.ok w2 ∧
      (isEmptySyncAt wi (dirPathOf root s) = true →
        w2.lookup (dirPathOf root s) = none ∧
        w2.lookup (metaPathOf root s) = none) ∧
      (isEmptySyncAt wi (dirPathOf root s) = false → w2 = wi) ∧
      (∀ q, wi.lookup q = none → w2.lookup q = none) ∧
      (∀ q, FsTree.divergesB (dirPathOf root s) q = true →
            FsTree.divergesB (metaPathOf root s) q = true →
            w2.lookup q = wi.lookup q) := by
  have hsh : listedName s ∨ True := Or.inr trivial
  have hguard : validateOk (pathString (dirPathOf root s)) = true := by
    rw [dirPathOf_plain root s hv]
    exact validateOk_under_packages root [s]
  have hdm : FsTree.divergesB (dirPathOf root s) (metaPathOf root s) = true := by
    rw [dirPathOf_plain root s hv, metaPathOf_plain root s hv]
    exact divergesB_under _ _ _ (divergesB_single _ _ (ne_append_meta s))
  have hdne : dirPathOf root s ≠ [] := by
    rw [dirPathOf_plain root s hv]; simp
  have hmne : metaPathOf root s ≠ [] := by
    rw [metaPathOf_plain root s hv]; simp
  have hrun : phase3Prune root s wi
      = if isEmptySyncAt wi (dirPathOf root s)
        then unlinkIfExists (FsTree.removeAt wi (dirPathOf root s))
          (metaPathOf root s)
        else Except.ok wi := by
    unfold phase3Prune
    simp only [dirPathOf, metaPathOf] at hguard ⊢
    rw [if_neg (by simp [hguard])]
  cases hemp : isEmptySyncAt wi (dirPathOf root s) with
  | false =>
    refine ⟨wi, ?_, ?_, fun _ => rfl, fun q hq => hq, fun q _ _ => rfl⟩
    · rw [hrun, if_neg (by simp [hemp])]
    · intro hcontra; exact absurd hcontra (by simp)
  | true =>
    have hw1meta : (FsTree.removeAt wi (dirPathOf root s)).lookup
        (metaPathOf root s) = wi.lookup (metaPathOf root s) :=
      FsTree.lookup_removeAt_diverges _ _ _ hdm
    cases hM : wi.lookup (metaPathOf root s) with
    | none =>
      refine ⟨FsTree.removeAt wi (dirPathOf root s), ?_, ?_, ?_, ?_, ?_⟩
      · rw [hrun, if_pos (by rw [hemp])]
        unfold unlinkIfExists
        rw [hw1meta, hM]
      · intro _
        exact ⟨FsTree.lookup_removeAt_self wi _ hdne, by rw [hw1meta, hM]⟩
      · intro hcontra; exact absurd hcontra (by simp)
      · intro q hq
        exact FsTree.lookup_removeAt_none wi _ q hq
      · intro q hq _
        exact FsTree.lookup_removeAt_diverges _ _ _ hq
    | some t =>
      have ht : ∃ d, t = FsTree.file d := by
        rcases hmetaOK with horig | hnone
        · rw [hM] at horig
          unfold FsTree.isDirAt at hmDir
          rw [← horig] at hmDir
          cases t with
          | file d => exact ⟨d, rfl⟩
          | dir cs => simp at hmDir
        · rw [hM] at hnone; cases hnone
      obtain ⟨d, rfl⟩ := ht
      refine ⟨FsTree.removeAt (FsTree.removeAt wi (dirPathOf root s))
        (metaPathOf root s), ?_, ?_, ?_, ?_, ?_⟩
      · rw [hrun, if_pos (by rw [hemp])]
        unfold unlinkIfExists
        rw [hw1meta, hM]
      · intro _
        refine ⟨?_, FsTree.lookup_removeAt_self _ _ hmne⟩
        rw [FsTree.lookup_removeAt_diverges _ _ _
          (by rw [FsTree.divergesB_symm]; exact hdm)]
        exact FsTree.lookup_removeAt_self wi _ hdne
      · intro hcontra; exact absurd hcontra (by simp)
      · intro q hq
        exact FsTree.lookup_removeAt_none _ _ q
          (FsTree.lookup_removeAt_none wi _ q hq)
      · intro q hq hq2
        rw [FsTree.lookup_removeAt_diverges _ _ _ hq2,
          FsTree.lookup_removeAt_diverges _ _ _ hq]

/-- Full behaviour of the Phase 3 pruning loop over a pending list of
scope names. -/
theorem phase3Go_spec (root : List String) (w : FsTree) (sAll : List String)
    (hvS : ∀ s ∈ sAll, validSeg s = true)
    (hdirS : ∀ s ∈ sAll, FsTree.isDirAt w (dirPathOf root s) = true)
    (hmDirS : ∀ s ∈ sAll, FsTree.isDirAt w (metaPathOf root s) = false) :
    ∀ (S : List String) (wi : FsTree),
      (∀ s ∈ S, s ∈ sAll) → S.Nodup →
      (∀ s ∈ S, wi.lookup (dirPathOf root s) = w.lookup (dirPathOf root s)) →
      (∀ s ∈ S, wi.lookup (metaPathOf root s) = w.lookup (metaPathOf root s) ∨
                wi.lookup (metaPathOf root s) = none) →
      ∃ w', phase3Go root S wi = Except.ok w' ∧
        (∀ s ∈ S, isEmptySyncAt w (dirPathOf root s) = true →
          w'.lookup (dirPathOf root s) = none ∧
          w'.lookup (metaPathOf root s) = none) ∧
        (∀ s ∈ S, isEmptySyncAt w (dirPathOf root s) = false →
          w'.lookup (dirPathOf root s) = wi.lookup (dirPathOf root s) ∧
          w'.lookup (metaPathOf root s) = wi.lookup (metaPathOf root s)) ∧
        (∀ q, wi.lookup q = none → w'.lookup q = none) ∧
        (∀ q, (∀ s ∈ S, FsTree.divergesB (dirPathOf root s) q = true ∧
            FsTree.divergesB (metaPathOf root s) q = true) →
          w'.lookup q = wi.lookup q) := by
  intro S
  induction S with
  | nil =>
    intro wi _ _ _ _
    exact ⟨wi, rfl, by simp, by simp, fun q hq => hq, fun q _ => rfl⟩
  | cons s0 S' ih =>
    intro wi hsub hnd hdirinv hmetainv
    have hs0all := hsub s0 (by simp)
    obtain ⟨hs0S', hndS'⟩ := List.nodup_cons.mp hnd
    obtain ⟨w2, hstep, hempty2, hnonempty2, hmono2, hfar2⟩ :=
      phase3Prune_spec root s0 wi w (hvS s0 hs0all)
        (hmetainv s0 (by simp)) (hmDirS s0 hs0all)
    have hpck : ∀ s' ∈ sAll, s' ≠ s0 →
        FsTree.divergesB (dirPathOf root s0) (dirPathOf root s') = true ∧
        FsTree.divergesB (dirPathOf root s0) (metaPathOf root s') = true ∧
        FsTree.divergesB (metaPathOf root s0) (dirPathOf root s') = true ∧
        FsTree.divergesB (metaPathOf root s0) (metaPathOf root s') = true := by
      intro s' hs'all hne
      refine plain_paths_diverge root s0 s' (hvS s0 hs0all) (hvS s' hs'all)
        (fun hx => hne hx.symm) ?_ ?_
      · intro heq
        have h1 := hdirS s0 hs0all
        rw [heq, hmDirS s' hs'all] at h1
        cases h1
      · intro heq
        have h1 := hdirS s' hs'all
        rw [heq, hmDirS s0 hs0all] at h1
        cases h1
    have hpres2 : ∀ s' ∈ sAll, s' ≠ s0 →
        w2.lookup (dirPathOf root s') = wi.lookup (dirPathOf root s') ∧
        w2.lookup (metaPathOf root s') = wi.lookup (metaPathOf root s') := by
      intro s' hs'all hne
      obtain ⟨d1, d2, d3, d4⟩ := hpck s' hs'all hne
      exact ⟨hfar2 _ d1 d3, hfar2 _ d2 d4⟩
    have hdirinv' : ∀ s ∈ S',
        w2.lookup (dirPathOf root s) = w.lookup (dirPathOf root s) := by
      intro s hsS'
      have hne : s ≠ s0 := fun hx => hs0S' (hx ▸ hsS')
      rw [(hpres2 s (hsub s (by simp [hsS'])) hne).1]
      exact hdirinv s (by simp [hsS'])
    have hmetainv' : ∀ s ∈ S',
        w2.lookup (metaPathOf root s) = w.lookup (metaPathOf root s) ∨
        w2.lookup (metaPathOf root s) = none := by
      intro s hsS'
      have hne : s ≠ s0 := fun hx => hs0S' (hx ▸ hsS')
      rw [(hpres2 s (hsub s (by simp [hsS'])) hne).2]
      exact hmetainv s (by simp [hsS'])
    obtain ⟨w', hgo, hemp', hnemp', hmono', hfar'⟩ :=
      ih w2 (fun s hs => hsub s (by simp [hs])) hndS' hdirinv' hmetainv'
    have hempW : isEmptySyncAt wi (dirPathOf root s0)
        = isEmptySyncAt w (dirPathOf root s0) :=
      isEmptySyncAt_congr w wi _ (hdirinv s0 (by simp))
    refine ⟨w', ?_, ?_, ?_, ?_, ?_⟩
    · simp only [phase3Go, hstep]
      exact hgo
    · intro s hs hsemp
      rcases List.mem_cons.mp hs with rfl | hsS'
      · obtain ⟨h1, h2⟩ := hempty2 (by rw [hempW]; exact hsemp)
        exact ⟨hmono' _ h1, hmono' _ h2⟩
      · exact hemp' s hsS' hsemp
    · intro s hs hsnemp
      rcases List.mem_cons.mp hs with rfl | hsS'
      · have hw2 : w2 = wi := hnonempty2 (by rw [hempW]; exact hsnemp)
        subst hw2
        constructor
        · refine hfar' _ (fun s' hs' => ?_)
          obtain ⟨d1, d2, -, -⟩ := hpck s' (hsub s' (by simp [hs']))
            (fun hx => hs0S' (hx ▸ hs'))
          exact ⟨by rw [FsTree.divergesB_symm]; exact d1,
                 by rw [FsTree.divergesB_symm]; exact d2⟩
        · refine hfar' _ (fun s' hs' => ?_)
          obtain ⟨-, -, d3, d4⟩ := hpck s' (hsub s' (by simp [hs']))
            (fun hx => hs0S' (hx ▸ hs'))
          exact ⟨by rw [FsTree.divergesB_symm]; exact d3,
                 by rw [FsTree.divergesB_symm]; exact d4⟩
      · obtain ⟨h1, h2⟩ := hnemp' s hsS' hsnemp
        have hne : s ≠ s0 := fun hx => hs0S' (hx ▸ hsS')
        obtain ⟨hq1, hq2⟩ := hpres2 s (hsub s (by simp [hsS'])) hne
        exact ⟨h1.trans hq1, h2.trans hq2⟩
    · intro q hq
      exact hmono' q (hmono2 q hq)
    · intro q hq
      have hq0 := hq s0 (by simp)
      rw [hfar' q (fun s hs => hq s (by simp [hs]))]
      exact hfar2 q hq0.1 hq0.2

theorem mem_dirNames (cs : List (String × FsTree)) (x : String)
    (h : x ∈ dirNames cs) : ∃ ds, (x, FsTree.dir ds) ∈ cs := by
  unfold dirNames at h
  obtain ⟨e, he, rfl⟩ := List.mem_map.mp h
  obtain ⟨hm, hd⟩ := List.mem_filter.mp he
  cases he2 : e.2 with
  | file d => rw [he2] at hd; simp [isDirNode] at hd
  | dir ds =>
    refine ⟨ds, ?_⟩
    have : e = (e.1, FsTree.dir ds) := by
      obtain ⟨e1, e2⟩ := e
      simp at he2 ⊢
      exact he2
    rw [← this]
    exact hm

theorem dirNames_nodup (cs : List (String × FsTree))
    (hn : (cs.map Prod.fst).Nodup) : (dirNames cs).Nodup :=
  List.Nodup.sublist (List.Sublist.map Prod.fst (List.filter_sublist cs)) hn

/-- C7: Phase 3 considers exactly the top-level directories of the
packages directory whose name starts with `@`; each such scope that is
empty is deleted together with its `.meta` sidecar (when present), and
each non-empty scope keeps both its directory and its sidecar untouched. -/
theorem claim_C7_empty_scope_pruning (projectRootDir : List String) (w : FsTree)
    (cs : List (String × FsTree))
    (hp : w.lookup (projectPackagesDir projectRootDir) = some (FsTree.dir cs))
    (hv : ∀ e ∈ cs, validSeg e.1 = true)
    (hn : (cs.map Prod.fst).Nodup)
    (hmeta : ∀ s ∈ (dirNames cs).filter (fun d => startsWithAt d '@'),
      FsTree.isDirAt w (metaPathOf projectRootDir s) = false) :
    getProjectPackageScopes w (projectPackagesDir projectRootDir)
      = Except.ok ((dirNames cs).filter (fun d => startsWithAt d '@')) ∧
    ∃ w', phase3Run projectRootDir w = Except.ok w' ∧
      (∀ s ∈ (dirNames cs).filter (fun d => startsWithAt d '@'),
        isEmptySyncAt w (dirPathOf projectRootDir s) = true →
        FsTree.existsAt w' (dirPathOf projectRootDir s) = false ∧
        FsTree.existsAt w' (metaPathOf projectRootDir s) = false) ∧
      (∀ s ∈ (dirNames cs).filter (fun d => startsWithAt d '@'),
        isEmptySyncAt w (dirPathOf projectRootDir s) = false →
        w'.lookup (dirPathOf projectRootDir s)
          = w.lookup (dirPathOf projectRootDir s) ∧
        w'.lookup (metaPathOf projectRootDir s)
          = w.lookup (metaPathOf projectRootDir s)) := by
  have hscopes : getProjectPackageScopes w (projectPackagesDir projectRootDir)
      = Except.ok ((dirNames cs).filter (fun d => startsWithAt d '@')) := by
    unfold getProjectPackageScopes
    rw [getDirectories_of_dir w _ cs hp hv hn]
  refine ⟨hscopes, ?_⟩
  have hsubdir : ∀ s ∈ (dirNames cs).filter (fun d => startsWithAt d '@'),
      s ∈ dirNames cs := fun s hs => (List.mem_filter.mp hs).1
  have hvS : ∀ s ∈ (dirNames cs).filter (fun d => startsWithAt d '@'),
      validSeg s = true := by
    intro s hs
    obtain ⟨ds, hm⟩ := mem_dirNames cs s (hsubdir s hs)
    exact hv _ hm
  have hdirS : ∀ s ∈ (dirNames cs).filter (fun d => startsWithAt d '@'),
      FsTree.isDirAt w (dirPathOf projectRootDir s) = true := by
    intro s hs
    obtain ⟨ds, hm⟩ := mem_dirNames cs s (hsubdir s hs)
    rw [dirPathOf_plain projectRootDir s (hv _ hm)]
    unfold FsTree.isDirAt
    rw [lookup_append_some w _ _ _ hp, lookup_dir_single,
      childLookup_of_mem_nodup cs (s, FsTree.dir ds) hm hn]
  obtain ⟨w', hgo, hemp, hnemp, -, -⟩ :=
    phase3Go_spec projectRootDir w
      ((dirNames cs).filter (fun d => startsWithAt d '@'))
      hvS hdirS hmeta _ w (fun s hs => hs)
      ((dirNames_nodup cs hn).filter _)
      (fun s _ => rfl) (fun s _ => Or.inl rfl)
  refine ⟨w', ?_, ?_, hnemp⟩
  · unfold phase3Run
    rw [hscopes]
    exact hgo
  · intro s hs hsemp
    obtain ⟨h1, h2⟩ := hemp s hs hsemp
    unfold FsTree.existsAt
    rw [h1, h2]
    exact ⟨rfl, rfl⟩

/-- A packages directory with an empty scope (plus sidecar) and a
non-empty scope (plus sidecar). -/
def pkgsF : List (String × FsTree) :=
  [("@empty", FsTree.dir []),
   ("@empty.meta", FsTree.file (FileData.raw "m1")),
   ("@full", FsTree.dir [("x", FsTree.dir [])]),
   ("@full.meta", FsTree.file (FileData.raw "m2"))]

/-- A world holding `pkgsF` at the packages directory of root `[]`. -/
def worldF : FsTree :=
  FsTree.dir [("Assets", FsTree.dir [("Plugins", FsTree.dir [
    ("Packages", FsTree.dir pkgsF)])])]

/-- Witness for C7: in `worldF` the empty `@empty` scope and its sidecar
are removed while the non-empty `@full` scope and its sidecar stay. -/
theorem claim_C7_empty_scope_pruning_witness :
    ∃ w', phase3Run [] worldF = Except.ok w' ∧
      FsTree.existsAt w' (dirPathOf [] "@empty") = false ∧
      FsTree.existsAt w' (metaPathOf [] "@empty") = false ∧
      w'.lookup (dirPathOf [] "@full") = worldF.lookup (dirPathOf [] "@full") ∧
      w'.lookup (metaPathOf [] "@full")
        = worldF.lookup (metaPathOf [] "@full") := by
  obtain ⟨-, w', hrun, hemp, hnemp⟩ :=
    claim_C7_empty_scope_pruning [] worldF pkgsF rfl (by decide) (by decide)
      (by decide)
  refine ⟨w', hrun, ?_, ?_, ?_, ?_⟩
  · exact (hemp "@empty" (by decide) (by decide)).1
  · exact (hemp "@empty" (by decide) (by decide)).2
  · exact (hnemp "@full" (by decide) (by decide)).1
  · exact (hnemp "@full" (by decide) (by decide)).2

/-! ## Claim C9: the reconciliation is idempotent -/

/-- C9: after a successful run on a well-formed world with a readable
manifest of duplicate-free, well-shaped, `.meta`-free dependency names,
a second run with the unchanged manifest and sources returns the same
tree and performs zero copies and zero deletes: every declared
dependency's Phase 1 iteration returns the tree unchanged (the
marker-carrying ones are skipped by the version gate, whose two sides
the third conjunct exhibits), the redundant-entry list of the second run
is empty, and every scope directory of the second run is non-empty. -/
theorem claim_C9_idempotent (root : List String) (w w1 : FsTree)
    (pcfg : JsonConfig) (cs0 : List (String × FsTree))
    (hroot : ∀ s ∈ root, validSeg s = true)
    (hwf : wfTreeB w = true)
    (hm : readJsonSyncAt w (joinRel root "package.json") = Except.ok pcfg)
    (hdepsWf : ∀ n ∈ pcfg.dependencies.getD [], listedName n)
    (hdepsNodup : (pcfg.dependencies.getD []).Nodup)
    (hdepsMeta : ∀ n ∈ pcfg.dependencies.getD [], metaFreeName n = true)
    (hpkgs : w.lookup (projectPackagesDir root) = some (FsTree.dir cs0))
    (hmetaW : noMetaDirChildrenB cs0 = true)
    (h1 : sync root w = Except.ok w1) :
    sync root w1 = Except.ok w1 ∧
    (∀ n ∈ pcfg.dependencies.getD [], phase1Install root n w1 = Except.ok w1) ∧
    (∀ n ∈ pcfg.dependencies.getD [], ∀ dcfg,
      readJsonSyncAt w1 (srcCfgPathOf root n) = Except.ok dcfg →
      markerOf dcfg = true →
      ∃ tcfg, readJsonSyncAt w1 (destCfgPathOf root n) = Except.ok tcfg ∧
        dcfg.version = tcfg.version) ∧
    (∃ listing, getProjectPackageListing w1 (projectPackagesDir root)
        = Except.ok listing ∧
      listing.filter (fun packageName =>
        ¬ ((pcfg.dependencies.getD []).contains packageName)) = []) ∧
    (∃ scopes, getProjectPackageScopes w1 (projectPackagesDir root)
        = Except.ok scopes ∧
      ∀ s ∈ scopes, isEmptySyncAt w1 (dirPathOf root s) = false) := by
  -- run 1, inverted phase by phase
  unfold sync at h1
  simp only [hm] at h1
  cases hph1 : phase1Run root (pcfg.dependencies.getD []) w with
  | error e => simp only [hph1] at h1; cases h1
  | ok w1a =>
  simp only [hph1] at h1
  cases hph2 : phase2Run root (pcfg.dependencies.getD []) w1a with
  | error e => simp only [hph2] at h1; cases h1
  | ok w2 =>
  simp only [hph2] at h1
  obtain ⟨hwf1aF, hfar1, hdeps1a⟩ :=
    phase1Run_inv root w1a hroot (pcfg.dependencies.getD []) w
      hdepsWf hdepsNodup hph1
  have hwf1a : wfTreeB w1a = true := hwf1aF hwf
  -- invert phase 2
  unfold phase2Run at hph2
  cases hlist : getProjectPackageListing w1a (projectPackagesDir root) with
  | error e => simp only [hlist] at hph2; cases hph2
  | ok listing =>
  simp only [hlist] at hph2
  obtain ⟨cs1a, hpkgs1a⟩ := listing_ok_pkgs_dir w1a _ listing hlist
  obtain ⟨hv1a, hn1a, hsc1a⟩ := pkgs_children_facts w1a _ cs1a hwf1a hpkgs1a
  have hlspec := getProjectPackageListing_spec w1a _ cs1a hpkgs1a hv1a hn1a hsc1a
  rw [hlspec] at hlist
  injection hlist with hleq
  subst hleq
  have hshape1a : ∀ r ∈ entryListingSpec cs1a, listedName r :=
    fun r hr => entryListingSpec_shape cs1a hv1a hsc1a r hr
  have hmetaDir1a : ∀ r ∈ entryListingSpec cs1a,
      FsTree.isDirAt w1a (metaPathOf root r) = false := by
    intro r hr
    rcases hshape1a r hr with ⟨hv, _⟩ | ⟨s, c, heq, hs, hsw, hc⟩
    · rw [metaPathOf_plain root r hv]
      cases hd : FsTree.isDirAt w1a
          (projectPackagesDir root ++ [r ++ ".meta"]) with
      | false => rfl
      | true =>
        exact absurd hd (metaDir_absent_top root _ w w1a cs0 hpkgs hmetaW
          hdepsWf hdepsMeta hfar1 r)
    · rw [heq, metaPathOf_scoped root s c hs hc]
      cases hd : FsTree.isDirAt w1a
          (projectPackagesDir root ++ [s, c ++ ".meta"]) with
      | false => rfl
      | true =>
        exact absurd hd (metaDir_absent_scoped root _ w w1a cs0 hpkgs hmetaW
          hdepsWf hdepsMeta hfar1 s c hsw)
  have hmetaNE1a : ∀ r ∈ entryListingSpec cs1a, ∀ r' ∈ entryListingSpec cs1a,
      dirPathOf root r ≠ metaPathOf root r' := by
    intro r hr r' hr' heq
    have h1d := listed_isDir root w1a cs1a hpkgs1a hv1a hn1a hsc1a r hr
    rw [heq, hmetaDir1a r' hr'] at h1d
    cases h1d
  have hRsub : ∀ r ∈ (entryListingSpec cs1a).filter
      (fun packageName => ¬ ((pcfg.dependencies.getD []).contains packageName)),
      r ∈ entryListingSpec cs1a ∧ r ∉ (pcfg.dependencies.getD []) := by
    intro r hr
    obtain ⟨hm1, hpred⟩ := List.mem_filter.mp hr
    exact ⟨hm1, by simpa using hpred⟩
  obtain ⟨w2', hgo, hnoneR, hmono2, hpres2, hfar2⟩ :=
    phase2Go_spec root (pcfg.dependencies.getD []) w1a (entryListingSpec cs1a)
      hshape1a hmetaNE1a hmetaDir1a
      ((entryListingSpec cs1a).filter
        (fun packageName => ¬ ((pcfg.dependencies.getD []).contains packageName)))
      w1a hRsub
      ((entryListingSpec_nodup cs1a hv1a hn1a hsc1a).filter _)
      (fun r _ => Or.inl rfl)
  rw [hph2] at hgo
  injection hgo with hw2eq
  subst hw2eq
  have hwf2 : wfTreeB w2 = true := phase2Go_wf root _ w1a w2 hph2 hwf1a
  -- invert phase 3
  unfold phase3Run at h1
  cases hscop2 : getProjectPackageScopes w2 (projectPackagesDir root) with
  | error e => simp only [hscop2] at h1; cases h1
  | ok scopes2 =>
  simp only [hscop2] at h1
  obtain ⟨cs2, hpkgs2⟩ := scopes_ok_pkgs_dir w2 _ scopes2 hscop2
  obtain ⟨hv2, hn2, hsc2⟩ := pkgs_children_facts w2 _ cs2 hwf2 hpkgs2
  have hscopspec : getProjectPackageScopes w2 (projectPackagesDir root)
      = Except.ok ((dirNames cs2).filter (fun d => startsWithAt d '@')) := by
    unfold getProjectPackageScopes
    rw [getDirectories_of_dir w2 _ cs2 hpkgs2 hv2 hn2]
  rw [hscopspec] at hscop2
  injection hscop2 with hsceq
  subst hsceq
  have hvS2 : ∀ s ∈ (dirNames cs2).filter (fun d => startsWithAt d '@'),
      validSeg s = true := by
    intro s hs
    obtain ⟨ds, hmems⟩ := mem_dirNames cs2 s (List.mem_filter.mp hs).1
    exact hv2 _ hmems
  have hdirS2 : ∀ s ∈ (dirNames cs2).filter (fun d => startsWithAt d '@'),
      FsTree.isDirAt w2 (dirPathOf root s) = true := by
    intro s hs
    obtain ⟨ds, hmems⟩ := mem_dirNames cs2 s (List.mem_filter.mp hs).1
    rw [dirPathOf_plain root s (hv2 _ hmems)]
    refine (isDirAt_iff _ _).mpr ⟨ds, ?_⟩
    rw [lookup_child_of_dir w2 _ cs2 s hpkgs2]
    exact childLookup_of_mem_nodup cs2 (s, FsTree.dir ds) hmems hn2
  have hmDirS2 : ∀ s ∈ (dirNames cs2).filter (fun d => startsWithAt d '@'),
      FsTree.isDirAt w2 (metaPathOf root s) = false := by
    intro s hs
    rw [metaPathOf_plain root s (hvS2 s hs)]
    cases hd : FsTree.isDirAt w2
        (projectPackagesDir root ++ [s ++ ".meta"]) with
    | false => rfl
    | true =>
      have hd1a := phase2Go_isDir_mono root _ w1a w2 hph2 _ hd
      exact absurd hd1a (metaDir_absent_top root _ w w1a cs0 hpkgs hmetaW
        hdepsWf hdepsMeta hfar1 s)
  obtain ⟨w1', hgo3, hemp3, hnemp3, hmono3, hfar3⟩ :=
    phase3Go_spec root w2 ((dirNames cs2).filter (fun d => startsWithAt d '@'))
      hvS2 hdirS2 hmDirS2
      ((dirNames cs2).filter (fun d => startsWithAt d '@')) w2
      (fun s hs => hs) ((dirNames_nodup cs2 hn2).filter _)
      (fun s _ => rfl) (fun s _ => Or.inl rfl)
  rw [h1] at hgo3
  injection hgo3 with hw1eq
  subst hw1eq
  have hwf_w1 : wfTreeB w1 = true := phase3Go_wf root _ w2 w1 h1 hwf2
  obtain ⟨csw1, hpkgsw1⟩ :=
    phase3Go_keeps_pkgs_dir root _ w2 w1 cs2 hvS2 h1 hpkgs2
  obtain ⟨hvw1, hnw1, hscw1⟩ := pkgs_children_facts w1 _ csw1 hwf_w1 hpkgsw1
  -- preservation of everything outside the Assets branch
  have hpres_branch : ∀ (b : String) (bs : List String), b ≠ "Assets" →
      w1.lookup (root ++ b :: bs) = w.lookup (root ++ b :: bs) := by
    intro b bs hb
    rw [hfar3 _ (fun s hs => seg_path_diverges_branch root s (hvS2 s hs) b bs hb)]
    rw [hfar2 _ (fun r hr => listed_path_diverges_branch root r
      (hshape1a r (hRsub r hr).1) b bs hb)]
    exact hfar1 _ (fun n hn => (listed_path_diverges_branch root n
      (hdepsWf n hn) b bs hb).1)
  have hmanifest : w1.lookup (joinRel root "package.json")
      = w.lookup (joinRel root "package.json") := by
    rw [joinRel_valid _ _ (by decide : validSeg "package.json" = true)]
    exact hpres_branch "package.json" [] (by decide)
  have hm1 : readJsonSyncAt w1 (joinRel root "package.json")
      = Except.ok pcfg := by
    refine readJson_ok_of_lookup w1 _ pcfg ?_
    rw [hmanifest]
    exact readJson_ok_lookup w _ pcfg hm
  have hsrcpres : ∀ n ∈ pcfg.dependencies.getD [],
      w1.lookup (srcCfgPathOf root n) = w.lookup (srcCfgPathOf root n) := by
    intro n hn
    obtain ⟨tl, htl⟩ := srcCfgPathOf_shape root n (hdepsWf n hn)
    rw [htl]
    exact hpres_branch "node_modules" tl (by decide)
  -- the installed metadata of each marker-carrying dependency survives to w1
  have hdestw1 : ∀ n ∈ pcfg.dependencies.getD [], ∀ dcfg,
      w.lookup (srcCfgPathOf root n) = some (FsTree.file (FileData.json dcfg)) →
      markerOf dcfg = true →
      ∃ v, w1.lookup (destCfgPathOf root n)
          = some (FsTree.file (FileData.json v)) ∧
        dcfg.version = v.version := by
    intro n hn dcfg hsrcn hmk
    obtain ⟨dcfg', hsrc', hmarker'⟩ := hdeps1a n hn
    have hdd : dcfg' = dcfg := by
      rw [hsrcn] at hsrc'
      have h2 := Option.some.inj hsrc'
      injection h2 with h3
      injection h3 with h4
      exact h4.symm
    subst hdd
    obtain ⟨v, hdest1a, hver⟩ := hmarker' hmk
    have hninR : n ∉ (entryListingSpec cs1a).filter
        (fun packageName =>
          ¬ ((pcfg.dependencies.getD []).contains packageName)) := by
      intro hx
      exact (hRsub n hx).2 hn
    have hdirn1a : FsTree.isDirAt w1a (dirPathOf root n) = true := by
      rw [destCfgPathOf_eq] at hdest1a
      obtain ⟨csx, hcx⟩ := FsTree.lookup_prefix_dir w1a _ _ _ (by simp) hdest1a
      exact (isDirAt_iff _ _).mpr ⟨csx, hcx⟩
    rcases hdepsWf n hn with ⟨hv, hswn⟩ | ⟨s, c, heq, hs, hsw, hc⟩
    · -- plain dependency
      have hnin1a : n ∈ entryListingSpec cs1a := by
        rw [dirPathOf_plain root n hv] at hdirn1a
        exact listing_of_isDir_plain w1a _ cs1a n hpkgs1a hswn hdirn1a
      have hd2 : w2.lookup (dirPathOf root n) = w1a.lookup (dirPathOf root n) :=
        (hpres2 n hnin1a hninR).1
      have hfard : w1.lookup (dirPathOf root n) = w2.lookup (dirPathOf root n) := by
        refine hfar3 _ (fun s hs => ?_)
        have hsws : startsWithAt s '@' = true := by
          simpa using (List.mem_filter.mp hs).2
        have hvs := hvS2 s hs
        constructor
        · rw [dirPathOf_plain root s hvs, dirPathOf_plain root n hv]
          refine divergesB_under _ _ _ (divergesB_single _ _ ?_)
          exact (startsWithAt_ne_of_at n s '@' hswn hsws).symm
        · rw [metaPathOf_plain root s hvs, dirPathOf_plain root n hv]
          refine divergesB_under _ _ _ (divergesB_single _ _ ?_)
          refine (startsWithAt_ne_of_at n _ '@' hswn ?_).symm
          rw [startsWithAt_meta s hvs]
          exact hsws
      refine ⟨v, ?_, hver⟩
      rw [destCfgPathOf_eq,
        lookup_append_congr w2 w1 _ _ hfard,
        lookup_append_congr w1a w2 _ _ hd2,
        ← destCfgPathOf_eq]
      exact hdest1a
    · -- scoped dependency: its scope is a non-empty scope of w2
      have hnin1a : n ∈ entryListingSpec cs1a := by
        rw [heq, dirPathOf_scoped root s c hs hc] at hdirn1a
        rw [heq]
        exact listing_of_isDir_scoped w1a _ cs1a s c hpkgs1a hsw hdirn1a
      have hd2 : w2.lookup (dirPathOf root n) = w1a.lookup (dirPathOf root n) :=
        (hpres2 n hnin1a hninR).1
      have hdest2 : w2.lookup (destCfgPathOf root n)
          = some (FsTree.file (FileData.json v)) := by
        rw [destCfgPathOf_eq, lookup_append_congr w1a w2 _ _ hd2,
          ← destCfgPathOf_eq]
        exact hdest1a
      have hsplit : destCfgPathOf root n
          = (projectPackagesDir root ++ [s]) ++ [c, "package.json"] := by
        rw [destCfgPathOf_eq, heq, dirPathOf_scoped root s c hs hc]
        simp
      rw [hsplit] at hdest2
      obtain ⟨ds, hlds⟩ :=
        FsTree.lookup_prefix_dir w2 _ _ _ (by simp) hdest2
      have hdest2' : w2.lookup (((projectPackagesDir root ++ [s]) ++ [c])
          ++ ["package.json"]) = some (FsTree.file (FileData.json v)) := by
        rw [show ((projectPackagesDir root ++ [s]) ++ [c]) ++ ["package.json"]
            = (projectPackagesDir root ++ [s]) ++ [c, "package.json"] from by simp]
        exact hdest2
      obtain ⟨dsc, hldsc⟩ :=
        FsTree.lookup_prefix_dir w2 _ _ _ (by simp) hdest2'
      have hcl : FsTree.childLookup ds c = some (FsTree.dir dsc) := by
        rw [lookup_child_of_dir w2 _ ds c hlds] at hldsc
        exact hldsc
      have hclcs2 : FsTree.childLookup cs2 s = some (FsTree.dir ds) := by
        rw [lookup_child_of_dir w2 _ cs2 s hpkgs2] at hlds
        exact hlds
      have hmem_s : (s, FsTree.dir ds) ∈ cs2 := childLookup_mem _ _ _ hclcs2
      have hsS2 : s ∈ (dirNames cs2).filter (fun d => startsWithAt d '@') :=
        List.mem_filter.mpr ⟨mem_dirNames_intro cs2 s ds hmem_s,
          by simpa using hsw⟩
      have hnemp : isEmptySyncAt w2 (dirPathOf root s) = false := by
        rw [dirPathOf_plain root s (hv2 _ hmem_s)]
        exact isEmptySyncAt_false_of_child w2 _ ds c _ hlds hcl
      have hpd : w1.lookup (dirPathOf root s) = w2.lookup (dirPathOf root s) :=
        (hnemp3 s hsS2 hnemp).1
      have hpd' : w1.lookup (projectPackagesDir root ++ [s])
          = w2.lookup (projectPackagesDir root ++ [s]) := by
        rw [← dirPathOf_plain root s (hv2 _ hmem_s)]
        exact hpd
      refine ⟨v, ?_, hver⟩
      rw [hsplit, lookup_append_congr w2 w1 _ _ hpd']
      exact hdest2
  -- every effective entry of w1 is declared
  have hsub_w1 : ∀ r ∈ entryListingSpec csw1,
      r ∈ pcfg.dependencies.getD [] := by
    intro r hr
    by_contra hnin
    have hdw1 : FsTree.isDirAt w1 (dirPathOf root r) = true :=
      listed_isDir root w1 csw1 hpkgsw1 hvw1 hnw1 hscw1 r hr
    have hd2 : FsTree.isDirAt w2 (dirPathOf root r) = true :=
      phase3Go_isDir_mono root _ w2 w1 h1 _ hdw1
    have hd1a : FsTree.isDirAt w1a (dirPathOf root r) = true :=
      phase2Go_isDir_mono root _ w1a w2 hph2 _ hd2
    have hr1a : r ∈ entryListingSpec cs1a := by
      rcases entryListingSpec_shape csw1 hvw1 hscw1 r hr with
        ⟨hv, hsw⟩ | ⟨s, c, heq, hs, hsw, hc⟩
      · rw [dirPathOf_plain root r hv] at hd1a
        exact listing_of_isDir_plain w1a _ cs1a r hpkgs1a hsw hd1a
      · rw [heq, dirPathOf_scoped root s c hs hc] at hd1a
        rw [heq]
        exact listing_of_isDir_scoped w1a _ cs1a s c hpkgs1a hsw hd1a
    have hrR : r ∈ (entryListingSpec cs1a).filter
        (fun packageName =>
          ¬ ((pcfg.dependencies.getD []).contains packageName)) :=
      List.mem_filter.mpr ⟨hr1a, by simpa using hnin⟩
    have hnone1 : w1.lookup (dirPathOf root r) = none :=
      hmono3 _ (hnoneR r hrR).1
    obtain ⟨csx, hcx⟩ := (isDirAt_iff _ _).mp hdw1
    rw [hnone1] at hcx
    cases hcx
  have hfilter_w1 : (entryListingSpec csw1).filter
      (fun packageName =>
        ¬ ((pcfg.dependencies.getD []).contains packageName)) = [] := by
    rw [List.filter_eq_nil_iff]
    intro a ha
    simp [hsub_w1 a ha]
  have hlist_w1 : getProjectPackageListing w1 (projectPackagesDir root)
      = Except.ok (entryListingSpec csw1) :=
    getProjectPackageListing_spec w1 _ csw1 hpkgsw1 hvw1 hnw1 hscw1
  have hphase2_w1 : phase2Run root (pcfg.dependencies.getD []) w1
      = Except.ok w1 := by
    unfold phase2Run
    simp only [hlist_w1]
    rw [hfilter_w1]
    rfl
  have hscopes_w1 : getProjectPackageScopes w1 (projectPackagesDir root)
      = Except.ok ((dirNames csw1).filter (fun d => startsWithAt d '@')) := by
    unfold getProjectPackageScopes
    rw [getDirectories_of_dir w1 _ csw1 hpkgsw1 hvw1 hnw1]
  have hscope_facts : ∀ s ∈ (dirNames csw1).filter
      (fun d => startsWithAt d '@'),
      isEmptySyncAt w1 (dirPathOf root s) = false ∧
      phase3Prune root s w1 = Except.ok w1 := by
    intro s hs
    obtain ⟨hsd, hspred⟩ := List.mem_filter.mp hs
    have hsw : startsWithAt s '@' = true := by simpa using hspred
    obtain ⟨ds, hmems⟩ := mem_dirNames csw1 s hsd
    have hvs : validSeg s = true := hvw1 _ hmems
    have hdw1 : FsTree.isDirAt w1 (dirPathOf root s) = true := by
      rw [dirPathOf_plain root s hvs]
      refine (isDirAt_iff _ _).mpr ⟨ds, ?_⟩
      rw [lookup_child_of_dir w1 _ csw1 s hpkgsw1]
      exact childLookup_of_mem_nodup csw1 (s, FsTree.dir ds) hmems hnw1
    have hd2 : FsTree.isDirAt w2 (dirPathOf root s) = true :=
      phase3Go_isDir_mono root _ w2 w1 h1 _ hdw1
    obtain ⟨ds2, hlds2⟩ := (isDirAt_iff _ _).mp hd2
    have hcl2 : FsTree.childLookup cs2 s = some (FsTree.dir ds2) := by
      rw [dirPathOf_plain root s hvs] at hlds2
      rw [lookup_child_of_dir w2 _ cs2 s hpkgs2] at hlds2
      exact hlds2
    have hsS2 : s ∈ (dirNames cs2).filter (fun d => startsWithAt d '@') :=
      List.mem_filter.mpr
        ⟨mem_dirNames_intro cs2 s ds2 (childLookup_mem _ _ _ hcl2),
         by simpa using hsw⟩
    have hnemp : isEmptySyncAt w2 (dirPathOf root s) = false := by
      cases hE : isEmptySyncAt w2 (dirPathOf root s) with
      | false => rfl
      | true =>
        have hnone1 : w1.lookup (dirPathOf root s) = none := (hemp3 s hsS2 hE).1
        obtain ⟨csx, hcx⟩ := (isDirAt_iff _ _).mp hdw1
        rw [hnone1] at hcx
        cases hcx
    have hpd : w1.lookup (dirPathOf root s) = w2.lookup (dirPathOf root s) :=
      (hnemp3 s hsS2 hnemp).1
    have hEw1 : isEmptySyncAt w1 (dirPathOf root s) = false := by
      rw [isEmptySyncAt_congr w2 w1 _ hpd]
      exact hnemp
    refine ⟨hEw1, ?_⟩
    have hmDirw1 : FsTree.isDirAt w1 (metaPathOf root s) = false := by
      rw [metaPathOf_plain root s hvs]
      cases hdm : FsTree.isDirAt w1
          (projectPackagesDir root ++ [s ++ ".meta"]) with
      | false => rfl
      | true =>
        have hdm2 := phase3Go_isDir_mono root _ w2 w1 h1 _ hdm
        have hdm1a := phase2Go_isDir_mono root _ w1a w2 hph2 _ hdm2
        exact absurd hdm1a (metaDir_absent_top root _ w w1a cs0 hpkgs hmetaW
          hdepsWf hdepsMeta hfar1 s)
    obtain ⟨wx, hpr, _, hprF, _, _⟩ :=
      phase3Prune_spec root s w1 w1 hvs (Or.inl rfl) hmDirw1
    rw [hprF hEw1] at hpr
    exact hpr
  have hphase3_w1 : phase3Run root w1 = Except.ok w1 := by
    unfold phase3Run
    simp only [hscopes_w1]
    exact phase3Go_id root _ w1 (fun s hs => (hscope_facts s hs).2)
  have hinst_w1 : ∀ n ∈ pcfg.dependencies.getD [],
      phase1Install root n w1 = Except.ok w1 := by
    intro n hn
    obtain ⟨dcfg, hsrcw, hmarker⟩ := hdeps1a n hn
    have hsrc1 : w1.lookup (srcCfgPathOf root n)
        = some (FsTree.file (FileData.json dcfg)) := by
      rw [hsrcpres n hn]
      exact hsrcw
    cases hmk : markerOf dcfg with
    | false => exact phase1Install_nomarker root n w1 dcfg hsrc1 hmk
    | true =>
      obtain ⟨v, hdest, hver⟩ := hdestw1 n hn dcfg hsrcw hmk
      exact phase1Install_skip root n w1 (hdepsWf n hn) dcfg v hsrc1 hdest hver
  have hphase1_w1 : phase1Run root (pcfg.dependencies.getD []) w1
      = Except.ok w1 := phase1Run_id root _ w1 hinst_w1
  refine ⟨?_, hinst_w1, ?_,
    ⟨entryListingSpec csw1, hlist_w1, hfilter_w1⟩,
    ⟨(dirNames csw1).filter (fun d => startsWithAt d '@'), hscopes_w1,
      fun s hs => (hscope_facts s hs).1⟩⟩
  · unfold sync
    simp only [hm1, hphase1_w1, hphase2_w1]
    exact hphase3_w1
  · intro n hn dcfg hread hmk
    have hsrc1 := readJson_ok_lookup w1 _ dcfg hread
    have hsrcw : w.lookup (srcCfgPathOf root n)
        = some (FsTree.file (FileData.json dcfg)) := by
      rw [← hsrcpres n hn]
      exact hsrc1
    obtain ⟨v, hdest, hver⟩ := hdestw1 n hn dcfg hsrcw hmk
    exact ⟨v, readJson_ok_of_lookup w1 _ v hdest, hver⟩

/-- A project with one declared marker dependency `foo` present in
`node_modules` and an empty packages directory. -/
def worldG : FsTree :=
  FsTree.dir [
    ("package.json", FsTree.file (FileData.json ⟨none, none, some ["foo"]⟩)),
    ("node_modules", FsTree.dir [
      ("foo", FsTree.dir [
        ("package.json", FsTree.file (FileData.json
          ⟨some "1.0.0", some ["unity3d-package"], none⟩)),
        ("assets", FsTree.dir [("a.cs", FsTree.file (FileData.raw "x"))])])]),
    ("Assets", FsTree.dir [("Plugins", FsTree.dir [("Packages", FsTree.dir [])])])]

/-- `worldG` after one full run: `foo` is installed under the packages
directory with its assets content and copied metadata file. -/
def worldG1 : FsTree :=
  FsTree.dir [
    ("package.json", FsTree.file (FileData.json ⟨none, none, some ["foo"]⟩)),
    ("node_modules", FsTree.dir [
      ("foo", FsTree.dir [
        ("package.json", FsTree.file (FileData.json
          ⟨some "1.0.0", some ["unity3d-package"], none⟩)),
        ("assets", FsTree.dir [("a.cs", FsTree.file (FileData.raw "x"))])])]),
    ("Assets", FsTree.dir [("Plugins", FsTree.dir [("Packages", FsTree.dir [
      ("foo", FsTree.dir [
        ("a.cs", FsTree.file (FileData.raw "x")),
        ("package.json", FsTree.file (FileData.json
          ⟨some "1.0.0", some ["unity3d-package"], none⟩))])])])])]

/-- Witness for C9: one run on `worldG` installs `foo` and yields
`worldG1`; the second run returns `worldG1` unchanged. -/
theorem claim_C9_idempotent_witness :
    sync [] worldG = Except.ok worldG1 ∧
    sync [] worldG1 = Except.ok worldG1 := by
  have h := claim_C9_idempotent [] worldG worldG1
    ⟨none, none, some ["foo"]⟩ []
    (by intro s hs; cases hs)
    (by decide)
    rfl
    (by
      intro n hn
      have hn' : n ∈ ["foo"] := hn
      rcases List.mem_singleton.mp hn' with rfl
      exact Or.inl ⟨by decide, by decide⟩)
    (by decide)
    (by
      intro n hn
      have hn' : n ∈ ["foo"] := hn
      rcases List.mem_singleton.mp hn' with rfl
      decide)
    rfl
    rfl
    rfl
  exact ⟨rfl, h.1⟩

end PkgSync
